import Mathlib

/-!
# Merge sort engine: embedding and verification

Shallow embedding of the merge-sort engine of the benchmark programs

* `src/c++/mergesort/mergesort.cpp` (index ranges over two `std::vector`s), namespace `Cpp`;
* `src/c/mergesort/mergesort.c` (pointers into two `malloc`ed blocks, sequential and
  task-parallel strategy), namespace `C`.

Conventions of the embedding.

* A `std::vector<float>` / a `malloc`ed block of `float` is a `List α`.  The element type `α`
  is a preorder with a decidable `<`; theorems that speak about ordering assume the order is
  total.  This is the order structure of the `float`s the programs handle (no NaN): `-0.0`
  and `0.0` compare equal and are still different values, so equal-valued elements may be
  distinguishable.
* `size_t` and `unsigned long long` are 64 bit wide: natural numbers below `W = 2 ^ 64`,
  with an explicit `% W` where an operation of the source can wrap (`i_end - i_start`,
  `i_start + left_n`, `a_n + b_n`, `sizeof(float) * k`).  `n / 2`, `n - n / 2` and the
  guarded `a_n - a_i`, `b_n - b_i` cannot wrap.  Cursor increments follow a successful
  access at the old cursor value and therefore never wrap; they are plain `+ 1`.  Pointer
  arithmetic is addition of offsets.
* An access outside a vector or block is undefined behaviour in the source; the embedding
  stops with `Fault.outOfBounds`.
* The recursion of `mergesort` is not well founded on every input (a range of length `0`
  recurses for ever), so the recursive functions take a `fuel` argument that bounds the depth
  of the call stack and stop with `Fault.outOfFuel` when it is used up.  "The call returns"
  is `∃ fuel, f fuel … = .ok …`; "the call never returns" is
  `∀ fuel, f fuel … = .error .outOfFuel`.
* The `while`/`for` loops of `merge` do terminate; each is a recursion on its loop variant
  (the number of iterations that can still happen), which the caller computes from the cursors.
* Statements about the calls that a sort issues use the call sites of the sources as a
  relation between calls (`calls`, `Reaches`); `mergesort_follows_calls`,
  `mergesort_block_follows_calls` and `mergesort_parallel_follows_calls` tie the recursion
  of the embedded functions to it.
* `main` of `mergesort.c` is embedded statement by statement, from the `sprintf` into
  `usage[300]` to the two `free`s; what the C library and the clock hand back (`strtoull`,
  `clock`, `rand`, `malloc`) is the parameter `Env`, and a run records its `malloc`, sort,
  result and `free` calls as a list of events.  Only the calls that write text and the timing
  are left out.
* The variants `src/c/mergesort-sequential/mergesort.c` (namespace `CSeq`) and
  `src/c++/mergesort-sequential/mergesort.cpp` (namespace `CppSeq`) and the function
  `array_is_ordered` are embedded as well.
-/

namespace MergeSort

/-- Reasons for which a run of the embedded program yields no value. -/
inductive Fault where
  | outOfBounds
  | outOfFuel
  deriving DecidableEq, Repr

/-- One more than the largest `size_t` / `unsigned long long` value. -/
def W : Nat := 2 ^ 64

/-- Size of a `float` in bytes, the `sizeof(float)` of the C sources. -/
def sizeof_float : Nat := 4

variable {α : Type}

/-- Read of `xs[i]`. -/
def rd (xs : List α) (i : Nat) : Except Fault α :=
  match xs[i]? with
  | some x => .ok x
  | none => .error .outOfBounds

/-- Assignment `xs[i] = v`. -/
def wr (xs : List α) (i : Nat) (v : α) : Except Fault (List α) :=
  if i < xs.length then .ok (xs.set i v) else .error .outOfBounds

/-- The elements of `xs` at the indices `[i, j)`. -/
def slice (xs : List α) (i j : Nat) : List α := (xs.take j).drop i

/-- Ascending order in the sense of the programs: `xs[i] <= xs[j]` whenever `i < j`. -/
def Ascending [Preorder α] (xs : List α) : Prop := xs.Pairwise (· ≤ ·)

instance [Preorder α] [DecidableRel ((· ≤ ·) : α → α → Prop)] (xs : List α) :
    Decidable (Ascending xs) :=
  inferInstanceAs (Decidable (xs.Pairwise (· ≤ ·)))

/-- The elements of `xs` that compare equal to `v` (neither is below the other), in the
order in which they occur in `xs`. -/
def equalTo [Preorder α] [DecidableRel ((· ≤ ·) : α → α → Prop)] (v : α) (xs : List α) :
    List α :=
  xs.filter (fun x => decide (x ≤ v ∧ v ≤ x))

/-- An element with a sort key and a tag that no comparison looks at: two elements with
the same key are equal-valued and still distinguishable, as `-0.0` and `0.0` are. -/
structure Keyed where
  key : Nat
  tag : Nat
  deriving DecidableEq, Repr

instance : Preorder Keyed := Preorder.lift Keyed.key

instance : DecidableRel ((· < ·) : Keyed → Keyed → Prop) :=
  fun a b => inferInstanceAs (Decidable (a.key < b.key))

instance : DecidableRel ((· ≤ ·) : Keyed → Keyed → Prop) :=
  fun a b => inferInstanceAs (Decidable (a.key ≤ b.key))

instance : IsTotal Keyed (· ≤ ·) := ⟨fun a b => Nat.le_total a.key b.key⟩

/-! ## `src/c++/mergesort/mergesort.cpp` -/

namespace Cpp

section
variable [Preorder α] [DecidableRel ((· < ·) : α → α → Prop)]

/-- The loop `while(l_i < mid && r_i < end)` of `merge`.  The first argument is the loop
variant `(mid - l_i) + (end - r_i)`; the state is `(buffer, l_i, r_i, buffer_i)`. -/
def mergeLoop (array : List α) (mid end_ : Nat) :
    Nat → List α → Nat → Nat → Nat → Except Fault (List α × Nat × Nat × Nat)
  | 0, buffer, l_i, r_i, buffer_i =>
    if l_i < mid ∧ r_i < end_ then .error .outOfFuel else .ok (buffer, l_i, r_i, buffer_i)
  | v + 1, buffer, l_i, r_i, buffer_i =>
    if l_i < mid ∧ r_i < end_ then do
      let x ← rd array l_i
      let y ← rd array r_i
      if x > y then do
        let buffer ← wr buffer buffer_i y
        mergeLoop array mid end_ v buffer l_i (r_i + 1) (buffer_i + 1)
      else do
        let buffer ← wr buffer buffer_i x
        mergeLoop array mid end_ v buffer (l_i + 1) r_i (buffer_i + 1)
    else .ok (buffer, l_i, r_i, buffer_i)

end

/-- The loops `while (l_i < mid)` and `while (r_i < end)` of `merge`: copy `array[i, lim)`
to the buffer from `buffer_i` on.  The first argument is the loop variant `lim - i`; the
state is `(buffer, i, buffer_i)`. -/
def copyLoop (array : List α) (lim : Nat) :
    Nat → List α → Nat → Nat → Except Fault (List α × Nat × Nat)
  | 0, buffer, i, buffer_i =>
    if i < lim then .error .outOfFuel else .ok (buffer, i, buffer_i)
  | v + 1, buffer, i, buffer_i =>
    if i < lim then do
      let x ← rd array i
      let buffer ← wr buffer buffer_i x
      copyLoop array lim v buffer (i + 1) (buffer_i + 1)
    else .ok (buffer, i, buffer_i)

/-- The loop `for(size_t i = start; i < end; i++) array[i] = buffer[i];` of `merge`.  The
first argument is the loop variant `end - i`. -/
def copyBack (buffer : List α) (end_ : Nat) : Nat → List α → Nat → Except Fault (List α)
  | 0, array, i => if i < end_ then .error .outOfFuel else .ok array
  | v + 1, array, i =>
    if i < end_ then do
      let x ← rd buffer i
      let array ← wr array i x
      copyBack buffer end_ v array (i + 1)
    else .ok array

section
variable [Preorder α] [DecidableRel ((· < ·) : α → α → Prop)]

/-- Embedding of `void merge(std::vector<float> &array, std::vector<float> &buffer,
size_t start, size_t mid, size_t end)`; the result is the final `(array, buffer)`. -/
def merge (array buffer : List α) (start mid end_ : Nat) : Except Fault (List α × List α) := do
  let l_i := start
  let r_i := mid
  let buffer_i := start
  let (buffer, l_i, r_i, buffer_i) ←
    mergeLoop array mid end_ ((mid - l_i) + (end_ - r_i)) buffer l_i r_i buffer_i
  let (buffer, _, buffer_i) ← copyLoop array mid (mid - l_i) buffer l_i buffer_i
  let (buffer, _, _) ← copyLoop array end_ (end_ - r_i) buffer r_i buffer_i
  let array ← copyBack buffer end_ (end_ - start) array start
  pure (array, buffer)

/-- Embedding of `void mergesort(std::vector<float> &array, std::vector<float> &buffer,
size_t i_start, size_t i_end)`; `fuel` bounds the depth of the recursion. -/
def mergesort : Nat → List α → List α → Nat → Nat → Except Fault (List α × List α)
  | 0, _, _, _, _ => .error .outOfFuel
  | fuel + 1, array, buffer, i_start, i_end =>
    let n := (i_end + W - i_start) % W
    if n = 1 then .ok (array, buffer)
    else
      let left_n := n / 2
      do
        let (array, buffer) ← mergesort fuel array buffer i_start ((i_start + left_n) % W)
        let (array, buffer) ← mergesort fuel array buffer ((i_start + left_n) % W) i_end
        merge array buffer i_start ((i_start + left_n) % W) i_end

/-- Embedding of `void mergesort(std::vector<float> &array)`, the "init function for
mergesort": it allocates the zero-initialised buffer and sorts the whole vector. -/
def mergesort_init [Zero α] (fuel : Nat) (array : List α) : Except Fault (List α) := do
  let buffer : List α := List.replicate array.length 0
  let (array, _) ← mergesort fuel array buffer 0 array.length
  pure array

end

end Cpp

/-! ## `src/c/mergesort/mergesort.c`

`main` obtains two blocks with `malloc`: `blockA`, to which the pointer `array` points, and
`blockB`, to which the pointer `buffer` points.  A `float *` into one of the blocks is its
offset from the start of the block, so `array + left_n` is the offset `array + left_n`. -/

namespace C

/-- Library call `memcpy(dst + d, src + s, bytes)` where source and destination lie in
different blocks; `bytes` is a multiple of `sizeof(float)` in every call, and `bytes /
sizeof(float)` elements are copied. -/
def memcpy (dst : List α) (d : Nat) (src : List α) (s : Nat) (bytes : Nat) :
    Except Fault (List α) :=
  let k := bytes / sizeof_float
  if s + k ≤ src.length ∧ d + k ≤ dst.length then
    .ok (dst.take d ++ slice src s (s + k) ++ dst.drop (d + k))
  else .error .outOfBounds

section
variable [Preorder α] [DecidableRel ((· < ·) : α → α → Prop)]

/-- The loop `while(a_i < a_n && b_i < b_n)` of `merge`; `a`, `b` point into `blockA` and
`buffer` into `blockB`.  The first argument is the loop variant `(a_n - a_i) + (b_n - b_i)`;
the state is `(blockB, a_i, b_i, buffer_i)`. -/
def mergeLoop (blockA : List α) (a a_n b b_n buffer : Nat) :
    Nat → List α → Nat → Nat → Nat → Except Fault (List α × Nat × Nat × Nat)
  | 0, blockB, a_i, b_i, buffer_i =>
    if a_i < a_n ∧ b_i < b_n then .error .outOfFuel else .ok (blockB, a_i, b_i, buffer_i)
  | v + 1, blockB, a_i, b_i, buffer_i =>
    if a_i < a_n ∧ b_i < b_n then do
      let x ← rd blockA (a + a_i)
      let y ← rd blockA (b + b_i)
      if x > y then do
        let blockB ← wr blockB (buffer + buffer_i) y
        mergeLoop blockA a a_n b b_n buffer v blockB a_i (b_i + 1) (buffer_i + 1)
      else do
        let blockB ← wr blockB (buffer + buffer_i) x
        mergeLoop blockA a a_n b b_n buffer v blockB (a_i + 1) b_i (buffer_i + 1)
    else .ok (blockB, a_i, b_i, buffer_i)

/-- Embedding of `void merge(float * a, ull a_n, float * b, ull b_n, float * buffer)`; the
result is the final content of the two blocks. -/
def merge (blockA blockB : List α) (a a_n b b_n buffer : Nat) :
    Except Fault (List α × List α) := do
  let a_i := 0
  let b_i := 0
  let buffer_i := 0
  let (blockB, a_i, b_i, buffer_i) ←
    mergeLoop blockA a a_n b b_n buffer ((a_n - a_i) + (b_n - b_i)) blockB a_i b_i buffer_i
  let blockB ←
    (if a_i < a_n then
      memcpy blockB (buffer + buffer_i) blockA (a + a_i) (sizeof_float * (a_n - a_i) % W)
    else pure blockB)
  let blockB ←
    (if b_i < b_n then
      memcpy blockB (buffer + buffer_i) blockA (b + b_i) (sizeof_float * (b_n - b_i) % W)
    else pure blockB)
  let blockA ← memcpy blockA a blockB buffer (sizeof_float * ((a_n + b_n) % W) % W)
  pure (blockA, blockB)

/-- Embedding of `void mergesort(float * array, float * buffer, ull n)`; `fuel` bounds the
depth of the recursion. -/
def mergesort : Nat → List α → List α → Nat → Nat → Nat → Except Fault (List α × List α)
  | 0, _, _, _, _, _ => .error .outOfFuel
  | fuel + 1, blockA, blockB, array, buffer, n =>
    if n = 1 then .ok (blockA, blockB)
    else
      let left_n := n / 2
      let left_array := array
      let left_buffer := buffer
      let right_n := n - n / 2
      let right_array := array + left_n
      let right_buffer := buffer + left_n
      do
        let (blockA, blockB) ← mergesort fuel blockA blockB left_array left_buffer left_n
        let (blockA, blockB) ← mergesort fuel blockA blockB right_array right_buffer right_n
        merge blockA blockB left_array left_n right_array right_n buffer

/-- The constant `MIN_PARALLEL_N = (ull)1e6` of `mergesort_parallel`. -/
def MIN_PARALLEL_N : Nat := 1000000

/-- The body of `mergesort_parallel` with its constant `MIN_PARALLEL_N` as the parameter
`min_parallel_n`.  The two `#pragma omp task` calls work on the two halves and
`#pragma omp taskwait` joins them before `merge`; they are executed here one after the
other in program order, the schedule of a team of one thread. -/
def mergesort_parallel_with (min_parallel_n : Nat) :
    Nat → List α → List α → Nat → Nat → Nat → Except Fault (List α × List α)
  | 0, _, _, _, _, _ => .error .outOfFuel
  | fuel + 1, blockA, blockB, array, buffer, n => do
    let (blockA, blockB) ←
      (if n < min_parallel_n then do
        let (blockA, blockB) ← mergesort fuel blockA blockB array buffer (n / 2)
        mergesort fuel blockA blockB (array + n / 2) (buffer + n / 2) (n - n / 2)
      else do
        let (blockA, blockB) ←
          mergesort_parallel_with min_parallel_n fuel blockA blockB array buffer (n / 2)
        mergesort_parallel_with min_parallel_n fuel blockA blockB (array + n / 2)
          (buffer + n / 2) (n - n / 2))
    merge blockA blockB array (n / 2) (array + n / 2) (n - n / 2) buffer

/-- Embedding of `void mergesort_parallel(float * array, float * buffer, ull n)` with the
constant of the source. -/
def mergesort_parallel (fuel : Nat) (blockA blockB : List α) (array buffer n : Nat) :
    Except Fault (List α × List α) :=
  mergesort_parallel_with MIN_PARALLEL_N fuel blockA blockB array buffer n

end

end C

/-! ## Functional description of the engine

List-level functions that describe what the loops and the recursion compute.  They are used
to state the lemmas that connect the embedded programs with list operations. -/

section
variable [Preorder α] [DecidableRel ((· < ·) : α → α → Prop)]

/-- Merge of two lists as the two-cursor loop performs it: the head of the right list is
taken exactly when the head of the left list is greater. -/
def mergeList (l r : List α) : List α :=
  List.merge l r (fun x y => !decide (x > y))

/-- Top-down merge sort of a list with the split of the programs: the left part has
`length / 2` elements. -/
def msort (l : List α) : List α :=
  if l.length ≤ 1 then l
  else mergeList (msort (l.take (l.length / 2))) (msort (l.drop (l.length / 2)))
termination_by l.length
decreasing_by
  all_goals simp only [List.length_take, List.length_drop]
  all_goals omega

end

/-- Modelled on the words of the specification (§4.1, merge operator): compare the current
elements of the two runs and take the smaller-or-equal one; when they are equal the left
run's element is taken first; when one run is exhausted the rest of the other follows.  It
is the library merge `List.merge` with the test `x ≤ y`, that is
`stableMerge (x :: l) (y :: r) = if x ≤ y then x :: stableMerge l (y :: r)
else y :: stableMerge (x :: l) r`. -/
def stableMerge [Preorder α] [DecidableRel ((· ≤ ·) : α → α → Prop)] (l r : List α) : List α :=
  List.merge l r (fun x y => decide (x ≤ y))

section
variable [Preorder α] [DecidableRel ((· < ·) : α → α → Prop)]

/-- The three `while` loops of `Cpp.merge` in sequence, started at the cursors
`(l_i, r_i, buffer_i)`; the result is the buffer they leave. -/
def Cpp.fillBuffer (array : List α) (mid end_ : Nat) (v : Nat) (buffer : List α)
    (l_i r_i buffer_i : Nat) : Except Fault (List α) := do
  let (buffer, l_i, r_i, buffer_i) ← Cpp.mergeLoop array mid end_ v buffer l_i r_i buffer_i
  let (buffer, _, buffer_i) ← Cpp.copyLoop array mid (mid - l_i) buffer l_i buffer_i
  let (buffer, _, _) ← Cpp.copyLoop array end_ (end_ - r_i) buffer r_i buffer_i
  pure buffer

/-- The `while` loop of `C.merge` followed by the two guarded `memcpy` calls that copy what
is left of a run, started at the cursors `(a_i, b_i, buffer_i)`; the result is `blockB` as
they leave it. -/
def C.fillBuffer (blockA : List α) (a a_n b b_n buffer : Nat) (v : Nat) (blockB : List α)
    (a_i b_i buffer_i : Nat) : Except Fault (List α) := do
  let (blockB, a_i, b_i, buffer_i) ←
    C.mergeLoop blockA a a_n b b_n buffer v blockB a_i b_i buffer_i
  let blockB ←
    (if a_i < a_n then
      C.memcpy blockB (buffer + buffer_i) blockA (a + a_i) (sizeof_float * (a_n - a_i) % W)
    else pure blockB)
  let blockB ←
    (if b_i < b_n then
      C.memcpy blockB (buffer + buffer_i) blockA (b + b_i) (sizeof_float * (b_n - b_i) % W)
    else pure blockB)
  pure blockB

end

/-! ## The calls issued by the engine

The call sites of the sources, as a relation between calls: `calls c` lists the calls that
the body of the call `c` issues, in program order, when every one of them returns. -/

/-- The list `ys` has the length of `xs` and agrees with it at every index outside
`[s, e)`. -/
def SameOutside (xs ys : List α) (s e : Nat) : Prop :=
  ys.length = xs.length ∧ ∀ i, i < s ∨ e ≤ i → ys[i]? = xs[i]?

namespace Cpp

/-- A call of one of the two functions of the engine of `mergesort.cpp`, with its index
arguments. -/
inductive Call where
  | mergesort (i_start i_end : Nat)
  | merge (start mid end_ : Nat)
  deriving DecidableEq, Repr

/-- The calls in the body of a call: `mergesort` returns at once for `n == 1` and otherwise
calls itself on the two parts and then `merge`; `merge` calls nothing. -/
def calls : Call → List Call
  | .mergesort i_start i_end =>
    let n := (i_end + W - i_start) % W
    if n = 1 then []
    else
      let left_n := n / 2
      [.mergesort i_start ((i_start + left_n) % W),
        .mergesort ((i_start + left_n) % W) i_end,
        .merge i_start ((i_start + left_n) % W) i_end]
  | .merge _ _ _ => []

/-- The call `c'` is `c` itself or is issued, directly or through further calls, while `c`
runs. -/
def Reaches : Call → Call → Prop :=
  Relation.ReflTransGen (fun c c' => c' ∈ calls c)

/-- A call has a well-formed range for vectors of length `n`: `start <= mid <= end <= n`. -/
def WellFormed (n : Nat) : Call → Prop
  | .mergesort i_start i_end => i_start ≤ i_end ∧ i_end ≤ n
  | .merge start mid end_ => start ≤ mid ∧ mid ≤ end_ ∧ end_ ≤ n

end Cpp

namespace C

/-- A call of one of the three functions of the engine of `mergesort.c`, with its pointer
(offset) and length arguments. -/
inductive Call where
  | mergesort (array buffer n : Nat)
  | mergesort_parallel (array buffer n : Nat)
  | merge (a a_n b b_n buffer : Nat)
  deriving DecidableEq, Repr

/-- The calls in the body of a call, with the constant `MIN_PARALLEL_N` as the parameter
`min_parallel_n`. -/
def calls (min_parallel_n : Nat) : Call → List Call
  | .mergesort array buffer n =>
    if n = 1 then []
    else
      [.mergesort array buffer (n / 2),
        .mergesort (array + n / 2) (buffer + n / 2) (n - n / 2),
        .merge array (n / 2) (array + n / 2) (n - n / 2) buffer]
  | .mergesort_parallel array buffer n =>
    (if n < min_parallel_n then
      [.mergesort array buffer (n / 2),
        .mergesort (array + n / 2) (buffer + n / 2) (n - n / 2)]
    else
      [.mergesort_parallel array buffer (n / 2),
        .mergesort_parallel (array + n / 2) (buffer + n / 2) (n - n / 2)])
      ++ [.merge array (n / 2) (array + n / 2) (n - n / 2) buffer]
  | .merge _ _ _ _ _ => []

/-- The call `c'` is `c` itself or is issued, directly or through further calls, while `c`
runs. -/
def Reaches (min_parallel_n : Nat) : Call → Call → Prop :=
  Relation.ReflTransGen (fun c c' => c' ∈ calls min_parallel_n c)

/-- A call stays inside two blocks of `n` elements each: a sort of `m` elements at
`array` / `buffer` has `array + m <= n` and `buffer + m <= n`; a merge has its two runs
adjacent (`b == a + a_n`, so `start = a <= mid = b <= end = b + b_n`) and inside the blocks. -/
def WellFormed (n : Nat) : Call → Prop
  | .mergesort array buffer m => array + m ≤ n ∧ buffer + m ≤ n
  | .mergesort_parallel array buffer m => array + m ≤ n ∧ buffer + m ≤ n
  | .merge a a_n b b_n buffer => b = a + a_n ∧ b + b_n ≤ n ∧ buffer + a_n + b_n ≤ n

/-- The length argument of a sort call is not `0`. -/
def NonEmpty : Call → Prop
  | .mergesort _ _ m => 1 ≤ m
  | .mergesort_parallel _ _ m => 1 ≤ m
  | .merge _ _ _ _ _ => True

/-- The lengths that keep every issued call away from length `0`: a sequential sort of at
least one element; a parallel sort of at least two elements that is below the threshold
`T` or has a threshold of at least `4`. -/
def Sound (T : Nat) : Call → Prop
  | .mergesort _ _ m => 1 ≤ m
  | .mergesort_parallel _ _ m => 2 ≤ m ∧ (4 ≤ T ∨ m < T)
  | .merge _ _ _ _ _ => True

end C

/-! ## The sequential variants and `array_is_ordered`

`src/c/mergesort-sequential/mergesort.c` (namespace `CSeq`) and
`src/c++/mergesort-sequential/mergesort.cpp` (namespace `CppSeq`) are the variants of the
two programs above that have the sequential strategy only. -/

/-- A call of `mergesort` of `mergesort.cpp` on a non-empty range, a call of `merge` with
two non-empty runs. -/
def Cpp.NonEmpty : Cpp.Call → Prop
  | .mergesort i_start i_end => i_start < i_end
  | .merge start mid end_ => start < mid ∧ mid < end_

/-- A block obtained with `new float[k]`: `k` cells that the program has not written yet;
`uninit i` is what cell `i` happens to hold. -/
def newArray (uninit : Nat → α) (k : Nat) : List α := (List.range k).map uninit

namespace CSeq

/-- Embedding of `void mergesort(float * array, float * buffer, ull n)` of
`mergesort-sequential/mergesort.c`.  The `merge` of that file is line for line the `merge`
of `mergesort.c`, embedded as `C.merge`. -/
def mergesort [Preorder α] [DecidableRel ((· < ·) : α → α → Prop)] :
    Nat → List α → List α → Nat → Nat → Nat → Except Fault (List α × List α)
  | 0, _, _, _, _, _ => .error .outOfFuel
  | fuel + 1, blockA, blockB, array, buffer, n =>
    if n = 1 then .ok (blockA, blockB)
    else
      let left_n := n / 2
      let left_array := array
      let right_n := n - n / 2
      let right_array := array + left_n
      do
        let (blockA, blockB) ← mergesort fuel blockA blockB left_array buffer left_n
        let (blockA, blockB) ←
          mergesort fuel blockA blockB right_array (buffer + left_n) right_n
        C.merge blockA blockB left_array left_n right_array right_n buffer

end CSeq

namespace CppSeq

section
variable [Preorder α] [DecidableRel ((· < ·) : α → α → Prop)]

/-- Embedding of `void merge(float * a, ull a_n, float * b, ull b_n)` of
`mergesort-sequential/mergesort.cpp`; `a` and `b` point into `block`, and `merged` is a
block of its own obtained with `new float[a_n+b_n]` and released at the end.  The `while`
loop is the loop of `merge` of `mergesort.c` with `merged` in the place of `buffer`
(`C.mergeLoop` with the block `merged` and the offset `0`). -/
def merge (uninit : Nat → α) (block : List α) (a a_n b b_n : Nat) :
    Except Fault (List α) := do
  let a_i := 0
  let b_i := 0
  let merged := newArray uninit ((a_n + b_n) % W)
  let merged_i := 0
  let (merged, a_i, b_i, merged_i) ←
    C.mergeLoop block a a_n b b_n 0 ((a_n - a_i) + (b_n - b_i)) merged a_i b_i merged_i
  let merged ←
    (if a_i < a_n then
      C.memcpy merged (0 + merged_i) block (a + a_i) (sizeof_float * (a_n - a_i) % W)
    else pure merged)
  let merged ←
    (if b_i < b_n then
      C.memcpy merged (0 + merged_i) block (b + b_i) (sizeof_float * (b_n - b_i) % W)
    else pure merged)
  let block ← C.memcpy block a merged 0 (sizeof_float * ((a_n + b_n) % W) % W)
  pure block

/-- Embedding of `void mergesort(float * array, ull n)` of
`mergesort-sequential/mergesort.cpp`; `fuel` bounds the depth of the recursion. -/
def mergesort (uninit : Nat → α) : Nat → List α → Nat → Nat → Except Fault (List α)
  | 0, _, _, _ => .error .outOfFuel
  | fuel + 1, block, array, n =>
    if n = 1 then .ok block
    else
      let left_n := n / 2
      let left_array := array
      let right_n := n - n / 2
      let right_array := array + left_n
      do
        let block ← mergesort uninit fuel block left_array left_n
        let block ← mergesort uninit fuel block right_array right_n
        merge uninit block left_array left_n right_array right_n

end

end CppSeq

section
variable [Preorder α] [DecidableRel ((· < ·) : α → α → Prop)]

/-- The loop `for(ull i = 0; i < bound; i++) { if(array[i] > array[i+1]) return false; }`
followed by `return true`, where `array[i]` is `xs[base + i]` and `bound` is the value of
`n-1`.  The first argument is the loop variant `bound - i`. -/
def orderedLoop (xs : List α) (base bound : Nat) : Nat → Nat → Except Fault Bool
  | 0, i => if i < bound then .error .outOfFuel else .ok true
  | v + 1, i =>
    if i < bound then do
      let x ← rd xs (base + i)
      let y ← rd xs (base + (i + 1))
      if x > y then pure false else orderedLoop xs base bound v (i + 1)
    else .ok true

/-- Embedding of `char array_is_ordered(float * array, ull n)` of `mergesort.c` (the same
function is in both sequential variants); `n-1` is computed in `unsigned long long`. -/
def C.array_is_ordered (block : List α) (array n : Nat) : Except Fault Bool :=
  let bound := (n + W - 1) % W
  orderedLoop block array bound (bound - 0) 0

/-- Embedding of `bool array_is_ordered(const std::vector<float> &array)` of
`mergesort.cpp`; `array.size()-1` is computed in `size_t`. -/
def Cpp.array_is_ordered (array : List α) : Except Fault Bool :=
  let bound := (array.length + W - 1) % W
  orderedLoop array 0 bound (bound - 0) 0

/-- Whether every element of a list is at most its right neighbour, as the loop of
`array_is_ordered` tests it: a pair with `x > y` gives `false`. -/
def adjacentOrdered : List α → Bool
  | [] => true
  | [_] => true
  | x :: y :: r => if x > y then false else adjacentOrdered (y :: r)

end

/-! ## `main` of `mergesort.c`

The whole of `int main(int argc, char **argv)`, statement by statement.  Left out are the
calls that only write text (`printf`, `fprintf`, and `print_array`, which reads the cells
`array[0 .. n-1]` that `randomize_array` or the sort has just written) and the timing with
`clock()`, none of which changes the control flow or the return value. -/

namespace C

/-- Return value `CODE_WRONG_NUM_ARGUMENTS_ERROR` of `main`. -/
def CODE_WRONG_NUM_ARGUMENTS_ERROR : Int := 1

/-- Return value `CODE_UNABLE_TO_PARSE_ERROR`. -/
def CODE_UNABLE_TO_PARSE_ERROR : Int := 2

/-- Return value `CODE_INPUT_EXCEEDS_MAX_ERROR`. -/
def CODE_INPUT_EXCEEDS_MAX_ERROR : Int := 3

/-- Return value `CODE_BAD_STRATEGY` of `main`. -/
def CODE_BAD_STRATEGY : Int := 3

/-- What a run of `main` takes from its surroundings: the values that the C library and the
clock hand back. -/
structure Env (α : Type) where
  /-- Value of `strtoull(s, NULL, 0)`. -/
  strtoull : String → Nat
  /-- Value of the call `clock()` that initialises `seed`. -/
  clock : Nat
  /-- With `rand seed i` the float stored from the call number `i` of `rand() % 10` after
  `srand(seed)`. -/
  rand : Nat → Nat → α
  /-- Whether the call of `malloc` for `bytes` bytes that follows `k` earlier events of the
  run returns a block (`true`) or `NULL` (`false`). -/
  malloc_ok : Nat → Nat → Bool
  /-- Content of cell `i` of the block returned by the `malloc` that follows `k` earlier
  events. -/
  uninit : Nat → Nat → α

/-- The calls of a run of `main` that allocate, sort, report or release, in the order in
which they happen. -/
inductive Event where
  | malloc (bytes : Nat)
  | sort (call : Call)
  | result (ordered : Bool)
  | free
  deriving DecidableEq, Repr

/-- A run of `main` that returns: its return value and the events up to the return. -/
structure Run where
  code : Int
  events : List Event
  deriving DecidableEq, Repr

/-- Number of bytes that `sprintf(usage, "Usage: %s strategy n\n ...", argv[0])` writes to
`usage`: the 123 bytes of the format string outside `%s`, the bytes of `argv[0]`, and the
terminating zero byte. -/
def usage_bytes (argv0 : String) : Nat := 123 + argv0.utf8ByteSize + 1

/-- Library call `malloc(bytes)` after the events `events`: the block and the events with
this call added.  The block has `bytes / sizeof(float)` cells of unspecified content; `NULL`
is a block without cells, so that every access through it is outside the block. -/
def malloc (env : Env α) (events : List Event) (bytes : Nat) : List α × List Event :=
  (if env.malloc_ok events.length bytes then
      newArray (env.uninit events.length) (bytes / sizeof_float)
    else [],
    events ++ [.malloc bytes])

/-- Library call `free(p)` after the events `events`. -/
def free (events : List Event) : List Event := events ++ [.free]

/-- The loop `for (ull i = 0; i < n; i++) { array[i] = rand() % 10; }` of `randomize_array`;
`rand i` is the value that the call number `i` of `rand() % 10` gives.  The first argument
is the loop variant `n - i`. -/
def randomizeLoop (rand : Nat → α) (array n : Nat) : Nat → List α → Nat → Except Fault (List α)
  | 0, block, i => if i < n then .error .outOfFuel else .ok block
  | v + 1, block, i =>
    if i < n then do
      let block ← wr block (array + i) (rand i)
      randomizeLoop rand array n v block (i + 1)
    else .ok block

/-- Embedding of `void randomize_array(float * array, ull n, unsigned seed)`. -/
def randomize_array (env : Env α) (block : List α) (array n seed : Nat) :
    Except Fault (List α) :=
  randomizeLoop (env.rand seed) array n (n - 0) block 0

section
variable [Preorder α] [DecidableRel ((· < ·) : α → α → Prop)]

/-- The loop `while(array_is_ordered(array, array_size) && array_size > 1)` of `main`, which
draws a new array with `seed += 11` until the array is not ordered; the state is the block
of `array` and `seed` (an `unsigned`).  `fuel` bounds the number of rounds. -/
def rerollLoop (env : Env α) (array_size : Nat) :
    Nat → List α → Nat → Except Fault (List α × Nat)
  | 0, blockA, seed => do
    let ordered ← array_is_ordered blockA 0 array_size
    if ordered = true ∧ array_size > 1 then .error .outOfFuel else pure (blockA, seed)
  | fuel + 1, blockA, seed => do
    let ordered ← array_is_ordered blockA 0 array_size
    if ordered = true ∧ array_size > 1 then do
      let seed := (seed + 11) % 2 ^ 32
      let blockA ← randomize_array env blockA 0 array_size seed
      rerollLoop env array_size fuel blockA seed
    else pure (blockA, seed)

/-- Embedding of `int main(int argc, char **argv)`; `argc` is the length of `argv`, and
`argv[argc]` is the null pointer.  `fuel` bounds the rounds of the re-roll loop and the depth
of the recursion of the sort. -/
def main (fuel : Nat) (env : Env α) (argv : List String) : Except Fault Run :=
  let argc := argv.length
  let events : List Event := []
  match argv[0]? with
  | none => .error .outOfBounds
  | some argv0 =>
    if ¬ usage_bytes argv0 ≤ 300 then .error .outOfBounds
    else if argc < 3 then .ok ⟨CODE_WRONG_NUM_ARGUMENTS_ERROR, events⟩
    else if argv.getD 1 "" ≠ "p" ∧ argv.getD 1 "" ≠ "s" then
      .ok ⟨CODE_BAD_STRATEGY, events⟩
    else do
      let array_size := env.strtoull (argv.getD 2 "") % W
      let seed := env.clock % 2 ^ 32
      let (blockA, events) := malloc env events (sizeof_float * array_size % W)
      let (blockB, events) := malloc env events (sizeof_float * array_size % W)
      let blockA ← randomize_array env blockA 0 array_size seed
      let (blockA, _) ← rerollLoop env array_size fuel blockA seed
      let (_, blockB, events) ←
        (if argv.getD 1 "" = "p" then do
          let (blockA, blockB) ← mergesort_parallel fuel blockA blockB 0 0 array_size
          pure (blockA, blockB, events ++ [.sort (.mergesort_parallel 0 0 array_size)])
        else if argv.getD 1 "" = "s" then do
          let (blockA, blockB) ← mergesort fuel blockA blockB 0 0 array_size
          pure (blockA, blockB, events ++ [.sort (.mergesort 0 0 array_size)])
        else pure (blockA, blockB, events))
      let ordered ← array_is_ordered blockB 0 array_size
      let events := events ++ [.result ordered]
      let events := free events
      let events := free events
      pure ⟨0, events⟩

end

end C

/-! ## Basic facts about reads, writes and slices -/

theorem rd_append (A B : List α) (x : α) (i : Nat) (hi : i = A.length) :
    rd (A ++ x :: B) i = .ok x := by
  subst hi
  rw [rd, List.getElem?_append_right (Nat.le_refl _)]
  simp

theorem wr_append (A B : List α) (x y : α) (i : Nat) (hi : i = A.length) :
    wr (A ++ x :: B) i y = .ok (A ++ y :: B) := by
  subst hi
  simp [wr]

theorem slice_append (P S Q : List α) (i j : Nat) (hi : i = P.length)
    (hj : j = P.length + S.length) : slice (P ++ S ++ Q) i j = S := by
  subst hi hj
  simp [slice, List.take_append_eq_append_take, List.drop_append_eq_append_drop]

theorem split_at_range (xs : List α) (i j : Nat) (hij : i ≤ j) (hj : j ≤ xs.length) :
    xs = xs.take i ++ slice xs i j ++ xs.drop j ∧ (xs.take i).length = i ∧
      (slice xs i j).length = j - i := by
  refine ⟨?_, ?_, ?_⟩
  · have h1 : xs.take i = (xs.take j).take i := by
      rw [List.take_take, Nat.min_eq_left hij]
    rw [h1, slice, List.take_append_drop, List.take_append_drop]
  · simp; omega
  · simp [slice]; omega

theorem usub_eq (a b : Nat) (hab : a ≤ b) (hb : b < W) : (b + W - a) % W = b - a := by
  have h : b + W - a = (b - a) + W := by omega
  rw [h, Nat.add_mod_right, Nat.mod_eq_of_lt (by omega)]

theorem half_bounds (n k m fuel : Nat) (hk : k = n / 2) (hm : k + m = n) (h1 : ¬ n = 1) :
    (1 ≤ n → n ≤ fuel + 1 → (1 ≤ k ∧ k ≤ fuel) ∧ (1 ≤ m ∧ m ≤ fuel)) ∧
      (1 ≤ k → 1 ≤ n ∧ ¬ n ≤ 1) := by
  omega

theorem parallel_bounds (n k m fuel T : Nat) (hk : k = n / 2) (hm : k + m = n) :
    (2 ≤ n → n ≤ fuel + 1 → (1 ≤ k ∧ k ≤ fuel) ∧ (1 ≤ m ∧ m ≤ fuel)) ∧
      (2 ≤ n → 4 ≤ T ∨ n < T → ¬ n < T → n ≤ fuel + 1 →
        (2 ≤ k ∧ (4 ≤ T ∨ k < T) ∧ k ≤ fuel) ∧ (2 ≤ m ∧ (4 ≤ T ∨ m < T) ∧ m ≤ fuel)) ∧
      (1 ≤ k → 2 ≤ n ∧ ¬ n ≤ 1) := by
  omega

theorem take_append_drop_length (S : List α) (k : Nat) (hk : k ≤ S.length) :
    S = S.take k ++ S.drop k ∧ (S.take k).length = k ∧
      (S.take k).length + (S.drop k).length = S.length := by
  refine ⟨(List.take_append_drop k S).symm, ?_, ?_⟩
  · rw [List.length_take]; omega
  · rw [List.length_take, List.length_drop]; omega

theorem slice_getElem? (xs : List α) (s e i : Nat) (hi : s + i < e) :
    (slice xs s e)[i]? = xs[s + i]? := by
  rw [slice, List.getElem?_drop, List.getElem?_take_of_lt hi]

theorem length_slice (xs : List α) (s e : Nat) (hse : s ≤ e) (he : e ≤ xs.length) :
    (slice xs s e).length = e - s := by
  simp only [slice, List.length_drop, List.length_take]; omega

/-- In an ascending range every element is at most its right neighbour. -/
theorem ascending_adjacent [Preorder α] (xs : List α) (s e : Nat) (hse : s ≤ e)
    (he : e ≤ xs.length) (h : Ascending (slice xs s e)) (i : Nat) (hsi : s ≤ i)
    (hie : i + 1 < e) : ∃ x y, xs[i]? = some x ∧ xs[i + 1]? = some y ∧ x ≤ y := by
  have hlen := length_slice xs s e hse he
  have h0 : i - s < (slice xs s e).length := by omega
  have h1 : i - s + 1 < (slice xs s e).length := by omega
  have hrel := List.pairwise_iff_getElem.mp h (i - s) (i - s + 1) h0 h1 (by omega)
  refine ⟨(slice xs s e)[i - s], (slice xs s e)[i - s + 1], ?_, ?_, hrel⟩
  · rw [← List.getElem?_eq_getElem h0, slice_getElem? xs s e (i - s) (by omega)]
    congr 1; omega
  · rw [← List.getElem?_eq_getElem h1, slice_getElem? xs s e (i - s + 1) (by omega)]
    congr 1; omega

theorem slice_split (xs : List α) (s m e : Nat) (hsm : s ≤ m) (hme : m ≤ e)
    (he : e ≤ xs.length) : slice xs s e = slice xs s m ++ slice xs m e := by
  have h1 : xs.take m = (xs.take e).take m := by
    rw [List.take_take, Nat.min_eq_left hme]
  have h2 : s ≤ ((xs.take e).take m).length := by
    simp only [List.length_take]; omega
  rw [slice, slice, slice, h1, ← List.drop_append_of_le_length h2, List.take_append_drop]

theorem slice_splice (xs X : List α) (s e : Nat) (hse : s ≤ e) (he : e ≤ xs.length)
    (hX : X.length = e - s) : slice (xs.take s ++ X ++ xs.drop e) s e = X :=
  slice_append (xs.take s) X (xs.drop e) s e (by rw [List.length_take]; omega)
    (by rw [List.length_take]; omega)

theorem length_splice (xs X : List α) (s e : Nat) (hse : s ≤ e) (he : e ≤ xs.length)
    (hX : X.length = e - s) : (xs.take s ++ X ++ xs.drop e).length = xs.length := by
  simp only [List.length_append, List.length_take, List.length_drop]; omega

theorem slice_full (xs : List α) : slice xs 0 xs.length = xs := by
  simp [slice]

theorem sameOutside_splice (xs X : List α) (s e : Nat) (hse : s ≤ e) (he : e ≤ xs.length)
    (hX : X.length = e - s) : SameOutside xs (xs.take s ++ X ++ xs.drop e) s e := by
  refine ⟨length_splice xs X s e hse he hX, ?_⟩
  intro i hi
  have htake : (xs.take s).length = s := by rw [List.length_take]; omega
  rcases hi with hi | hi
  · rw [List.append_assoc, List.getElem?_append_left (by omega),
      List.getElem?_take_of_lt hi]
  · have hlen : (xs.take s ++ X).length = e := by
      rw [List.length_append, htake]; omega
    rw [List.getElem?_append_right (by omega), hlen, List.getElem?_drop]
    congr 1
    omega

theorem sameOutside_refl (xs : List α) (s e : Nat) : SameOutside xs xs s e :=
  ⟨rfl, fun _ _ => rfl⟩

/-! ## Facts about the functional description -/

theorem not_gt_iff_le [Preorder α] [IsTotal α (· ≤ ·)] (x y : α) : ¬ x > y ↔ x ≤ y := by
  constructor
  · intro h
    rcases total_of (· ≤ ·) x y with hxy | hyx
    · exact hxy
    · by_contra hn
      exact h (lt_of_le_not_le hyx hn)
  · intro h hgt
    exact (lt_iff_le_not_le.mp hgt).2 h

theorem equalTo_cons [Preorder α] [DecidableRel ((· ≤ ·) : α → α → Prop)] (v x : α) (xs : List α) :
    equalTo v (x :: xs) = if x ≤ v ∧ v ≤ x then x :: equalTo v xs else equalTo v xs := by
  simp only [equalTo, List.filter_cons, decide_eq_true_eq]

theorem equalTo_eq_nil_of_gt [Preorder α] [DecidableRel ((· ≤ ·) : α → α → Prop)] (v : α) (xs : List α)
    (h : ∀ z ∈ xs, z > v) : equalTo v xs = [] := by
  rw [equalTo, List.filter_eq_nil_iff]
  intro z hz
  have hzv := h z hz
  simp only [decide_eq_true_eq, not_and]
  intro hle
  exact absurd hle (lt_iff_le_not_le.mp hzv).2

section
variable [Preorder α] [DecidableRel ((· < ·) : α → α → Prop)]

theorem mergeList_nil_left (r : List α) : mergeList [] r = r := by
  simp [mergeList]

theorem mergeList_nil_right (l : List α) : mergeList l [] = l := by
  simp [mergeList]

theorem mergeList_cons_gt (x y : α) (l r : List α) (h : x > y) :
    mergeList (x :: l) (y :: r) = y :: mergeList (x :: l) r := by
  simp [mergeList, List.cons_merge_cons, h]

theorem mergeList_cons_not_gt (x y : α) (l r : List α) (h : ¬ x > y) :
    mergeList (x :: l) (y :: r) = x :: mergeList l (y :: r) := by
  simp [mergeList, List.cons_merge_cons, h]

theorem length_mergeList (l r : List α) : (mergeList l r).length = l.length + r.length := by
  simp [mergeList]

theorem mergeList_perm (l r : List α) : (mergeList l r).Perm (l ++ r) :=
  List.merge_perm_append _

theorem ascending_mergeList [IsTotal α (· ≤ ·)] (l r : List α) (hl : Ascending l)
    (hr : Ascending r) : Ascending (mergeList l r) := by
  have key : ∀ a b : α, ((!decide (a > b)) = true) ↔ a ≤ b := by
    intro a b
    simpa using not_gt_iff_le a b
  have hs := @List.sorted_merge α (fun x y : α => !decide (x > y))
    (fun a b c hab hbc => (key a c).mpr (le_trans ((key a b).mp hab) ((key b c).mp hbc)))
    (fun a b => by
      rcases total_of (· ≤ ·) a b with h | h
      · simp [(key a b).mpr h]
      · simp [(key b a).mpr h])
    l r (List.Pairwise.imp (fun {a b} h => (key a b).mpr h) hl)
    (List.Pairwise.imp (fun {a b} h => (key a b).mpr h) hr)
  exact List.Pairwise.imp (fun {a b} h => (key a b).mp h) hs

/-- Merging two runs whose concatenation is ascending gives back the concatenation. -/
theorem mergeList_of_ascending (l r : List α) (h : Ascending (l ++ r)) :
    mergeList l r = l ++ r := by
  apply List.merge_of_le
  intro a b ha hb
  have hab : a ≤ b := (List.pairwise_append.mp h).2.2 a ha b hb
  simpa using not_lt_of_le hab

theorem mergeList_eq_stableMerge [DecidableRel ((· ≤ ·) : α → α → Prop)]
    [IsTotal α (· ≤ ·)] (l r : List α) : mergeList l r = stableMerge l r := by
  have h : (fun x y : α => !decide (x > y)) = (fun x y : α => decide (x ≤ y)) := by
    funext x y
    by_cases hxy : x ≤ y
    · simp [hxy, (not_gt_iff_le x y).mpr hxy]
    · have hgt : x > y := by
        by_contra hn
        exact hxy ((not_gt_iff_le x y).mp hn)
      simp [hxy, hgt]
  rw [mergeList, stableMerge, h]

/-- Among the elements that compare equal to `v`, the merge lists those of the left run
first and then those of the right run, each group in its original order. -/
theorem equalTo_mergeList [DecidableRel ((· ≤ ·) : α → α → Prop)] (v : α) (l r : List α)
    (hl : Ascending l) : equalTo v (mergeList l r) = equalTo v l ++ equalTo v r := by
  induction l generalizing r with
  | nil => simp [mergeList_nil_left, equalTo]
  | cons x l ihl =>
    induction r with
    | nil => simp [mergeList_nil_right, equalTo]
    | cons y r ihr =>
      by_cases hgt : x > y
      · rw [mergeList_cons_gt x y l r hgt, equalTo_cons v y, ihr, equalTo_cons v y r]
        by_cases hy : y ≤ v ∧ v ≤ y
        · have hnil : equalTo v (x :: l) = [] := by
            apply equalTo_eq_nil_of_gt
            intro z hz
            have hxz : x ≤ z := by
              rcases List.mem_cons.mp hz with rfl | hz'
              · exact le_refl _
              · exact List.rel_of_pairwise_cons hl hz'
            exact lt_of_le_of_lt hy.2 (lt_of_lt_of_le hgt hxz)
          simp [hy, hnil]
        · simp [hy]
      · rw [mergeList_cons_not_gt x y l r hgt, equalTo_cons v x, ihl (y :: r) hl.tail,
          equalTo_cons v x l]
        by_cases hx : x ≤ v ∧ v ≤ x
        · simp [hx]
        · simp [hx]

theorem msort_small (l : List α) (h : l.length ≤ 1) : msort l = l := by
  rw [msort, if_pos h]

theorem msort_split (l : List α) (h : ¬ l.length ≤ 1) :
    msort l = mergeList (msort (l.take (l.length / 2))) (msort (l.drop (l.length / 2))) := by
  rw [msort, if_neg h]

theorem length_msort (l : List α) : (msort l).length = l.length := by
  induction l using msort.induct with
  | case1 l h => rw [msort_small l h]
  | case2 l h ih1 ih2 =>
    rw [msort_split l h, length_mergeList, ih1, ih2, List.length_take, List.length_drop]
    omega

theorem msort_perm (l : List α) : (msort l).Perm l := by
  induction l using msort.induct with
  | case1 l h => rw [msort_small l h]
  | case2 l h ih1 ih2 =>
    rw [msort_split l h]
    have h3 := (mergeList_perm (msort (l.take (l.length / 2)))
      (msort (l.drop (l.length / 2)))).trans (List.Perm.append ih1 ih2)
    rwa [List.take_append_drop] at h3

theorem ascending_msort [IsTotal α (· ≤ ·)] (l : List α) : Ascending (msort l) := by
  induction l using msort.induct with
  | case1 l h =>
    rw [msort_small l h]
    match l, h with
    | [], _ => exact List.Pairwise.nil
    | [a], _ => exact List.pairwise_singleton _ a
  | case2 l h ih1 ih2 =>
    rw [msort_split l h]
    exact ascending_mergeList _ _ ih1 ih2

/-- An ascending list is a fixed point of `msort`. -/
theorem msort_of_ascending (l : List α) (hl : Ascending l) : msort l = l := by
  induction l using msort.induct with
  | case1 l h => rw [msort_small l h]
  | case2 l h ih1 ih2 =>
    have hsplit : l.take (l.length / 2) ++ l.drop (l.length / 2) = l :=
      List.take_append_drop _ _
    have hl2 : Ascending (l.take (l.length / 2) ++ l.drop (l.length / 2)) := by
      rw [hsplit]; exact hl
    have h1 := ih1 (List.pairwise_append.mp hl2).1
    have h2 := ih2 (List.pairwise_append.mp hl2).2.1
    rw [msort_split l h, h1, h2, mergeList_of_ascending _ _ hl2, hsplit]

end

/-! ## The loops of `Cpp.merge` -/

namespace Cpp

theorem copyLoop_spec (array : List α) (lim : Nat) (X : List α) :
    ∀ (v : Nat) (buffer : List α) (i buffer_i : Nat) (P Q BP Y BQ : List α),
      array = P ++ X ++ Q → buffer = BP ++ Y ++ BQ → Y.length = X.length →
      i = P.length → lim = P.length + X.length → buffer_i = BP.length → v = X.length →
      copyLoop array lim v buffer i buffer_i
        = .ok (BP ++ X ++ BQ, lim, buffer_i + X.length) := by
  induction X with
  | nil =>
    intro v buffer i buffer_i P Q BP Y BQ ha hb hY hi hlim hbi hv
    have hY0 : Y = [] := List.length_eq_zero.mp (by simpa using hY)
    subst hv hY0
    simp [copyLoop, hi, hlim, hb]
  | cons x X ih =>
    intro v buffer i buffer_i P Q BP Y BQ ha hb hY hi hlim hbi hv
    cases Y with
    | nil => simp at hY
    | cons y Y =>
      subst hv
      have hlt : i < lim := by simp [hi, hlim]
      have hr : rd array i = .ok x := by
        rw [ha]; simpa using rd_append P (X ++ Q) x i hi
      have hw : wr buffer buffer_i x = .ok (BP ++ x :: (Y ++ BQ)) := by
        rw [hb]; simpa using wr_append BP (Y ++ BQ) y x buffer_i hbi
      have h := ih X.length (BP ++ x :: (Y ++ BQ)) (i + 1) (buffer_i + 1) (P ++ [x]) Q
        (BP ++ [x]) Y BQ (by simp [ha]) (by simp) (by simpa using hY) (by simp [hi])
        (by simp [hlim]; omega) (by simp [hbi]) rfl
      simp only [List.length_cons, copyLoop, hlt, if_true, bind, Except.bind, hr, hw, h]
      simp
      omega

theorem copyBack_spec (buffer : List α) (end_ : Nat) (Z : List α) :
    ∀ (v : Nat) (array : List α) (i : Nat) (P X Q BP BQ : List α),
      buffer = BP ++ Z ++ BQ → array = P ++ X ++ Q → X.length = Z.length →
      i = P.length → BP.length = P.length → end_ = P.length + Z.length → v = Z.length →
      copyBack buffer end_ v array i = .ok (P ++ Z ++ Q) := by
  induction Z with
  | nil =>
    intro v array i P X Q BP BQ hb ha hX hi hBP hend hv
    have hX0 : X = [] := List.length_eq_zero.mp (by simpa using hX)
    subst hv hX0
    simp [copyBack, hi, hend, ha]
  | cons z Z ih =>
    intro v array i P X Q BP BQ hb ha hX hi hBP hend hv
    cases X with
    | nil => simp at hX
    | cons x X =>
      subst hv
      simp only [List.length_cons] at hX hend
      have hlt : i < end_ := by omega
      have hr : rd buffer i = .ok z := by
        rw [hb]; simpa using rd_append BP (Z ++ BQ) z i (by omega)
      have hw : wr array i z = .ok (P ++ z :: (X ++ Q)) := by
        rw [ha]; simpa using wr_append P (X ++ Q) x z i hi
      have h := ih Z.length (P ++ z :: (X ++ Q)) (i + 1) (P ++ [z]) X Q (BP ++ [z]) BQ
        (by simp [hb]) (by simp) (by omega)
        (by simp only [List.length_append, List.length_cons, List.length_nil]; omega)
        (by simp only [List.length_append, List.length_cons, List.length_nil]; omega)
        (by simp only [List.length_append, List.length_cons, List.length_nil]; omega) rfl
      simp only [List.length_cons, copyBack, hlt, if_true, bind, Except.bind, hr, hw, h]
      simp

section
variable [Preorder α] [DecidableRel ((· < ·) : α → α → Prop)]

theorem mergeLoop_exit (array : List α) (mid end_ v : Nat) (buffer : List α)
    (l_i r_i buffer_i : Nat) (h : ¬ (l_i < mid ∧ r_i < end_)) :
    mergeLoop array mid end_ v buffer l_i r_i buffer_i = .ok (buffer, l_i, r_i, buffer_i) := by
  cases v <;> simp only [mergeLoop, h, if_false]

theorem fillBuffer_spec (array : List α) (mid end_ : Nat) :
    ∀ (v : Nat) (L R buffer : List α) (l_i r_i buffer_i : Nat) (P M Q BP Y BQ : List α),
      array = P ++ L ++ M ++ R ++ Q → buffer = BP ++ Y ++ BQ →
      Y.length = L.length + R.length → l_i = P.length → mid = P.length + L.length →
      r_i = P.length + L.length + M.length →
      end_ = P.length + L.length + M.length + R.length → buffer_i = BP.length →
      v = L.length + R.length →
      fillBuffer array mid end_ v buffer l_i r_i buffer_i
        = .ok (BP ++ mergeList L R ++ BQ) := by
  intro v
  induction v with
  | zero =>
    intro L R buffer l_i r_i buffer_i P M Q BP Y BQ ha hb hY hl hmid hr hend hbi hv
    have hL : L = [] := List.length_eq_zero.mp (by omega)
    have hR : R = [] := List.length_eq_zero.mp (by omega)
    subst hL hR
    have hY0 : Y = [] := List.length_eq_zero.mp (by simpa using hY)
    subst hY0
    simp only [List.length_nil] at hmid hend
    have hx : ¬ (l_i < mid ∧ r_i < end_) := by omega
    have h1 : mid - l_i = 0 := by omega
    have h2 : end_ - r_i = 0 := by omega
    have hnl : ¬ l_i < mid := by omega
    have hnr : ¬ r_i < end_ := by omega
    simp [fillBuffer, mergeLoop_exit _ _ _ _ _ _ _ _ hx, h1, h2, copyLoop, hnl, hnr, bind,
      Except.bind, pure, Except.pure, hb, mergeList_nil_left]
  | succ v ih =>
    intro L R buffer l_i r_i buffer_i P M Q BP Y BQ ha hb hY hl hmid hr hend hbi hv
    cases L with
    | nil =>
      simp only [List.length_nil] at hY hmid hr hend hv
      have hx : ¬ (l_i < mid ∧ r_i < end_) := by omega
      have h1 : mid - l_i = 0 := by omega
      have hnl : ¬ l_i < mid := by omega
      have hc := copyLoop_spec array end_ R (end_ - r_i) buffer r_i buffer_i (P ++ M) Q BP Y BQ
        (by simp [ha]) hb (by omega) (by rw [List.length_append]; omega)
        (by rw [List.length_append]; omega) hbi (by omega)
      simp [fillBuffer, mergeLoop_exit _ _ _ _ _ _ _ _ hx, h1, copyLoop, hnl, bind,
        Except.bind, pure, Except.pure, hc, mergeList_nil_left]
    | cons x L =>
      cases R with
      | nil =>
        simp only [List.length_nil, List.length_cons] at hY hmid hr hend hv
        have hx : ¬ (l_i < mid ∧ r_i < end_) := by omega
        have h2 : end_ - r_i = 0 := by omega
        have hnr : ¬ r_i < end_ := by omega
        have hc := copyLoop_spec array mid (x :: L) (mid - l_i) buffer l_i buffer_i P
          (M ++ Q) BP Y BQ (by simp [ha]) hb (by rw [List.length_cons]; omega) hl
          (by rw [List.length_cons]; omega) hbi (by rw [List.length_cons]; omega)
        simp [fillBuffer, mergeLoop_exit _ _ _ _ _ _ _ _ hx, h2, copyLoop, hnr, bind,
          Except.bind, pure, Except.pure, hc, mergeList_nil_right]
      | cons y R =>
        simp only [List.length_cons] at hY hmid hr hend hv
        cases Y with
        | nil => simp only [List.length_nil] at hY; omega
        | cons y0 Y =>
          simp only [List.length_cons] at hY
          have hx : l_i < mid ∧ r_i < end_ := by omega
          have hrx : rd array l_i = .ok x := by
            rw [ha]
            simpa using rd_append P (L ++ M ++ y :: R ++ Q) x l_i hl
          have hry : rd array r_i = .ok y := by
            rw [ha]
            simpa using rd_append (P ++ x :: L ++ M) (R ++ Q) y r_i
              (by simp only [List.length_append, List.length_cons]; omega)
          by_cases hgt : x > y
          · have hw : wr buffer buffer_i y = .ok (BP ++ y :: (Y ++ BQ)) := by
              rw [hb]; simpa using wr_append BP (Y ++ BQ) y0 y buffer_i hbi
            have h := ih (x :: L) R (BP ++ y :: (Y ++ BQ)) l_i (r_i + 1) (buffer_i + 1) P
              (M ++ [y]) Q (BP ++ [y]) Y BQ (by simp [ha]) (by simp)
              (by simp only [List.length_cons]; omega) hl
              (by simp only [List.length_cons]; omega)
              (by simp only [List.length_append, List.length_cons, List.length_nil]; omega)
              (by simp only [List.length_append, List.length_cons, List.length_nil]; omega)
              (by simp only [List.length_append, List.length_cons, List.length_nil]; omega)
              (by simp only [List.length_cons]; omega)
            simp only [fillBuffer] at h ⊢
            simp only [mergeLoop, hx, and_self, if_true, bind, Except.bind, hrx, hry, hgt, hw]
            simp only [bind, Except.bind] at h
            rw [h, mergeList_cons_gt x y L R hgt]
            simp
          · have hw : wr buffer buffer_i x = .ok (BP ++ x :: (Y ++ BQ)) := by
              rw [hb]; simpa using wr_append BP (Y ++ BQ) y0 x buffer_i hbi
            have h := ih L (y :: R) (BP ++ x :: (Y ++ BQ)) (l_i + 1) r_i (buffer_i + 1)
              (P ++ [x]) M Q (BP ++ [x]) Y BQ (by simp [ha]) (by simp)
              (by simp only [List.length_cons]; omega)
              (by simp only [List.length_append, List.length_cons, List.length_nil]; omega)
              (by simp only [List.length_append, List.length_cons, List.length_nil]; omega)
              (by simp only [List.length_append, List.length_cons, List.length_nil]; omega)
              (by simp only [List.length_append, List.length_cons, List.length_nil]; omega)
              (by simp only [List.length_append, List.length_cons, List.length_nil]; omega)
              (by simp only [List.length_cons]; omega)
            simp only [fillBuffer] at h ⊢
            simp only [mergeLoop, hx, and_self, if_true, if_false, bind, Except.bind, hrx,
              hry, hgt, hw]
            simp only [bind, Except.bind] at h
            rw [h, mergeList_cons_not_gt x y L R hgt]
            simp

theorem merge_eq_fill (array buffer : List α) (start mid end_ : Nat) :
    merge array buffer start mid end_
      = (fillBuffer array mid end_ ((mid - start) + (end_ - mid)) buffer start mid start
          >>= fun buffer => copyBack buffer end_ (end_ - start) array start
          >>= fun array => pure (array, buffer)) := by
  simp only [merge, fillBuffer, bind_assoc, pure_bind]

/-- Frame form of `merge`: the two runs `L`, `R` are replaced by their merge, in the vector
and in the buffer, and nothing else changes. -/
theorem merge_frame (array buffer : List α) (start mid end_ : Nat) (P L R Q BP Y BQ : List α)
    (ha : array = P ++ L ++ R ++ Q) (hb : buffer = BP ++ Y ++ BQ)
    (hBP : BP.length = P.length) (hY : Y.length = L.length + R.length)
    (hs : start = P.length) (hm : mid = P.length + L.length)
    (he : end_ = P.length + L.length + R.length) :
    merge array buffer start mid end_
      = .ok (P ++ mergeList L R ++ Q, BP ++ mergeList L R ++ BQ) := by
  have hf := fillBuffer_spec array mid end_ ((mid - start) + (end_ - mid)) L R buffer start
    mid start P [] Q BP Y BQ (by simp [ha]) hb hY hs hm (by simp [hm])
    (by simp [he]) (by omega) (by omega)
  have hc := copyBack_spec (BP ++ mergeList L R ++ BQ) end_ (mergeList L R) (end_ - start)
    array start P (L ++ R) Q BP BQ rfl (by simp [ha])
    (by simp [length_mergeList]) hs hBP (by rw [length_mergeList]; omega)
    (by rw [length_mergeList]; omega)
  rw [merge_eq_fill, hf]
  simp only [bind, Except.bind, hc, pure, Except.pure]

/-- The range `[i_start, i_end)` holding `S` is replaced by `msort S`; the buffer receives
the same elements at the same range unless the range has length `1`, where it is untouched.
First part: with `fuel` at least the length of a non-empty range the call returns this
result.  Second part: with any fuel the call either runs out of fuel or returns this result,
and it returns only on a non-empty range. -/
theorem mergesort_frame :
    ∀ (fuel : Nat) (array buffer : List α) (i_start i_end : Nat) (P S Q BP Y BQ : List α),
      array = P ++ S ++ Q → buffer = BP ++ Y ++ BQ → BP.length = P.length →
      Y.length = S.length → i_start = P.length → i_end = P.length + S.length → i_end < W →
      (1 ≤ S.length → S.length ≤ fuel →
        mergesort fuel array buffer i_start i_end
          = .ok (P ++ msort S ++ Q, BP ++ (if S.length = 1 then Y else msort S) ++ BQ)) ∧
      (mergesort fuel array buffer i_start i_end = .error .outOfFuel ∨
        (1 ≤ S.length ∧ mergesort fuel array buffer i_start i_end
          = .ok (P ++ msort S ++ Q, BP ++ (if S.length = 1 then Y else msort S) ++ BQ))) := by
  intro fuel
  induction fuel with
  | zero =>
    intro array buffer i_start i_end P S Q BP Y BQ ha hb hBP hY hs he hW
    exact ⟨fun h1 h0 => absurd h1 (by omega), Or.inl rfl⟩
  | succ fuel ih =>
    intro array buffer i_start i_end P S Q BP Y BQ ha hb hBP hY hs he hW
    have hn : (i_end + W - i_start) % W = S.length := by
      rw [usub_eq i_start i_end (by omega) hW]; omega
    by_cases h1 : S.length = 1
    · have hres : mergesort (fuel + 1) array buffer i_start i_end
          = .ok (P ++ msort S ++ Q, BP ++ (if S.length = 1 then Y else msort S) ++ BQ) := by
        simp only [mergesort, hn, h1, if_true]
        rw [msort_small S (by omega), ← ha, ← hb]
      exact ⟨fun _ _ => hres, Or.inr ⟨by omega, hres⟩⟩
    · have hstep : mergesort (fuel + 1) array buffer i_start i_end
          = (mergesort fuel array buffer i_start (P.length + S.length / 2) >>= fun r =>
              mergesort fuel r.1 r.2 (P.length + S.length / 2) i_end >>= fun r =>
                merge r.1 r.2 i_start (P.length + S.length / 2) i_end) := by
        have hmid : (i_start + S.length / 2) % W = P.length + S.length / 2 := by
          rw [Nat.mod_eq_of_lt (by omega)]; omega
        simp only [mergesort, hn, h1, if_false, hmid]
      clear hn
      obtain ⟨S1, S2, hS, hS1, hS12, hms⟩ : ∃ S1 S2 : List α, S = S1 ++ S2 ∧
          S1.length = S.length / 2 ∧ S1.length + S2.length = S.length ∧
          (¬ S.length ≤ 1 → msort S = mergeList (msort S1) (msort S2)) :=
        ⟨_, _, (take_append_drop_length S (S.length / 2) (by omega)).1,
          (take_append_drop_length S (S.length / 2) (by omega)).2.1,
          (take_append_drop_length S (S.length / 2) (by omega)).2.2, msort_split S⟩
      obtain ⟨Y1, Y2, hYs, hY1, hY12⟩ : ∃ Y1 Y2 : List α, Y = Y1 ++ Y2 ∧
          Y1.length = S.length / 2 ∧ Y1.length + Y2.length = Y.length :=
        ⟨_, _, take_append_drop_length Y (S.length / 2) (by omega)⟩
      have hbounds := half_bounds S.length S1.length S2.length fuel hS1 hS12 h1
      rw [← hS1] at hstep hY1
      clear hS1
      obtain ⟨M1, hM1, hM1len⟩ : ∃ M1, msort S1 = M1 ∧ M1.length = S1.length :=
        ⟨_, rfl, length_msort S1⟩
      obtain ⟨M2, hM2, hM2len⟩ : ∃ M2, msort S2 = M2 ∧ M2.length = S2.length :=
        ⟨_, rfl, length_msort S2⟩
      obtain ⟨Z1, hZ1, hZ1len⟩ : ∃ Z1, (if S1.length = 1 then Y1 else msort S1) = Z1 ∧
          Z1.length = S1.length := by
        refine ⟨_, rfl, ?_⟩
        split
        · exact hY1
        · exact length_msort S1
      obtain ⟨Z2, hZ2, hZ2len⟩ : ∃ Z2, (if S2.length = 1 then Y2 else msort S2) = Z2 ∧
          Z2.length = S2.length := by
        refine ⟨_, rfl, ?_⟩
        split
        · clear hbounds hms hstep ih; omega
        · exact length_msort S2
      rw [hM1, hM2] at hms
      have hmerge := merge_frame (P ++ M1 ++ M2 ++ Q) (BP ++ Z1 ++ Z2 ++ BQ) i_start
        (P.length + S1.length) i_end P M1 M2 Q BP (Z1 ++ Z2) BQ rfl
        (by simp only [List.append_assoc]) hBP
        (by clear hbounds hms hstep ih; simp only [List.length_append]; omega) hs
        (by clear hbounds hms hstep ih; omega) (by clear hbounds hms hstep ih; omega)
      have ih1 := ih array buffer i_start (P.length + S1.length) P S1 (S2 ++ Q) BP Y1
        (Y2 ++ BQ) (by rw [ha, hS]; simp only [List.append_assoc])
        (by rw [hb, hYs]; simp only [List.append_assoc]) hBP hY1 hs rfl
        (by clear hbounds hms hstep ih; omega)
      rw [hZ1, hM1] at ih1
      have ih2 := ih (P ++ M1 ++ (S2 ++ Q)) (BP ++ Z1 ++ (Y2 ++ BQ)) (P.length + S1.length)
        i_end (P ++ M1) S2 Q (BP ++ Z1) Y2 BQ (by simp only [List.append_assoc])
        (by simp only [List.append_assoc])
        (by clear hbounds hms hstep ih ih1; simp only [List.length_append]; omega)
        (by clear hbounds hms hstep ih ih1; omega)
        (by clear hbounds hms hstep ih ih1; simp only [List.length_append]; omega)
        (by clear hbounds hms hstep ih ih1; simp only [List.length_append]; omega) hW
      rw [hZ2, hM2] at ih2
      have hfinal : 1 ≤ S1.length →
          mergesort fuel array buffer i_start (P.length + S1.length)
            = .ok (P ++ M1 ++ (S2 ++ Q), BP ++ Z1 ++ (Y2 ++ BQ)) →
          mergesort fuel (P ++ M1 ++ (S2 ++ Q)) (BP ++ Z1 ++ (Y2 ++ BQ))
              (P.length + S1.length) i_end
            = .ok (P ++ M1 ++ M2 ++ Q, BP ++ Z1 ++ Z2 ++ BQ) →
          mergesort (fuel + 1) array buffer i_start i_end
            = .ok (P ++ msort S ++ Q, BP ++ (if S.length = 1 then Y else msort S) ++ BQ) := by
        intro hpos e1 e2
        rw [hstep, e1]
        simp only [bind, Except.bind]
        rw [e2]
        simp only [hmerge, if_neg h1]
        rw [hms (hbounds.2 hpos).2]
      refine ⟨?_, ?_⟩
      · intro hge hle
        have hb := hbounds.1 hge hle
        exact hfinal hb.1.1 (ih1.1 hb.1.1 hb.1.2) (ih2.1 hb.2.1 hb.2.2)
      · rcases ih1.2 with e1 | ⟨hpos, e1⟩
        · left
          rw [hstep, e1]
          rfl
        · rcases ih2.2 with e2 | ⟨_, e2⟩
          · left
            rw [hstep, e1]
            simp only [bind, Except.bind]
            rw [e2]
          · right
            exact ⟨(hbounds.2 hpos).1, hfinal hpos e1 e2⟩

/-- Index form of `mergesort_frame`. -/
theorem mergesort_range (fuel : Nat) (array buffer : List α) (i_start i_end : Nat)
    (hbuf : buffer.length = array.length) (hse : i_start ≤ i_end)
    (hend : i_end ≤ array.length) (hW : i_end < W) :
    (1 ≤ i_end - i_start → i_end - i_start ≤ fuel →
      mergesort fuel array buffer i_start i_end
        = .ok (array.take i_start ++ msort (slice array i_start i_end) ++ array.drop i_end,
            buffer.take i_start ++ (if i_end - i_start = 1 then slice buffer i_start i_end
              else msort (slice array i_start i_end)) ++ buffer.drop i_end)) ∧
    (mergesort fuel array buffer i_start i_end = .error .outOfFuel ∨
      (1 ≤ i_end - i_start ∧ mergesort fuel array buffer i_start i_end
        = .ok (array.take i_start ++ msort (slice array i_start i_end) ++ array.drop i_end,
            buffer.take i_start ++ (if i_end - i_start = 1 then slice buffer i_start i_end
              else msort (slice array i_start i_end)) ++ buffer.drop i_end))) := by
  obtain ⟨ha, ha1, ha2⟩ := split_at_range array i_start i_end hse hend
  obtain ⟨hb, hb1, hb2⟩ := split_at_range buffer i_start i_end hse (by omega)
  have h := mergesort_frame fuel array buffer i_start i_end (array.take i_start)
    (slice array i_start i_end) (array.drop i_end) (buffer.take i_start)
    (slice buffer i_start i_end) (buffer.drop i_end) ha hb (by omega) (by omega) (by omega)
    (by omega) hW
  rw [ha2] at h
  exact h

/-- Index form of `merge_frame`. -/
theorem merge_range (array buffer : List α) (start mid end_ : Nat) (hsm : start ≤ mid)
    (hme : mid ≤ end_) (ha : end_ ≤ array.length) (hb : end_ ≤ buffer.length) :
    merge array buffer start mid end_
      = .ok (array.take start ++ mergeList (slice array start mid) (slice array mid end_)
              ++ array.drop end_,
            buffer.take start ++ mergeList (slice array start mid) (slice array mid end_)
              ++ buffer.drop end_) := by
  obtain ⟨hA, hA1, hA2⟩ := split_at_range array start end_ (by omega) ha
  obtain ⟨hB, hB1, hB2⟩ := split_at_range buffer start end_ (by omega) hb
  have hL := length_slice array start mid hsm (by omega)
  have hR := length_slice array mid end_ hme ha
  refine merge_frame array buffer start mid end_ (array.take start) (slice array start mid)
    (slice array mid end_) (array.drop end_) (buffer.take start) (slice buffer start end_)
    (buffer.drop end_) ?_ hB (by omega) (by omega) (by omega) (by omega) (by omega)
  rw [List.append_assoc (array.take start), ← slice_split array start mid end_ hsm hme ha]
  exact hA

theorem mergesort_returns (array buffer : List α) (i_start i_end : Nat)
    (hbuf : buffer.length = array.length) (hlt : i_start < i_end)
    (hend : i_end ≤ array.length) (hW : i_end < W) :
    mergesort (i_end - i_start) array buffer i_start i_end
      = .ok (array.take i_start ++ msort (slice array i_start i_end) ++ array.drop i_end,
          buffer.take i_start ++ (if i_end - i_start = 1 then slice buffer i_start i_end
            else msort (slice array i_start i_end)) ++ buffer.drop i_end) :=
  (mergesort_range (i_end - i_start) array buffer i_start i_end hbuf (by omega) hend hW).1
    (by omega) (Nat.le_refl _)

theorem mergesort_result (fuel : Nat) (array buffer : List α) (i_start i_end : Nat)
    (a' b' : List α) (hbuf : buffer.length = array.length) (hse : i_start ≤ i_end)
    (hend : i_end ≤ array.length) (hW : i_end < W)
    (h : mergesort fuel array buffer i_start i_end = .ok (a', b')) :
    i_start < i_end ∧
      a' = array.take i_start ++ msort (slice array i_start i_end) ++ array.drop i_end ∧
      b' = buffer.take i_start ++ (if i_end - i_start = 1 then slice buffer i_start i_end
            else msort (slice array i_start i_end)) ++ buffer.drop i_end := by
  rcases (mergesort_range fuel array buffer i_start i_end hbuf hse hend hW).2 with e | ⟨hp, e⟩
  · rw [e] at h; cases h
  · rw [e] at h
    injection h with h
    injection h with h1 h2
    exact ⟨by omega, h1.symm, h2.symm⟩

/-- A range of length `0` makes `mergesort` recurse for ever: no amount of fuel suffices. -/
theorem mergesort_empty_range (fuel : Nat) (array buffer : List α) (i : Nat) (hi : i < W) :
    mergesort fuel array buffer i i = .error .outOfFuel := by
  induction fuel with
  | zero => rfl
  | succ fuel ih =>
    have hn : (i + W - i) % W = 0 := by
      rw [Nat.add_sub_cancel_left, Nat.mod_self]
    have hi' : (i + 0) % W = i := by
      rw [Nat.add_zero, Nat.mod_eq_of_lt hi]
    simp only [mergesort, hn, Nat.zero_div, hi', ih]
    rfl

end

end Cpp

/-! ## The pointer-based engine (`mergesort.c`) -/

namespace C

theorem bytes_div (k : Nat) (hk : sizeof_float * k < W) :
    (sizeof_float * k % W) / sizeof_float = k := by
  rw [Nat.mod_eq_of_lt hk, sizeof_float, Nat.mul_div_cancel_left k (by decide)]

theorem memcpy_spec (dst : List α) (d : Nat) (src : List α) (s bytes : Nat)
    (SP X SQ DP Y DQ : List α) (hsrc : src = SP ++ X ++ SQ) (hdst : dst = DP ++ Y ++ DQ)
    (hY : Y.length = X.length) (hd : d = DP.length) (hs : s = SP.length)
    (hbytes : bytes / sizeof_float = X.length) :
    memcpy dst d src s bytes = .ok (DP ++ X ++ DQ) := by
  have h1 : s + X.length ≤ src.length ∧ d + X.length ≤ dst.length := by
    rw [hsrc, hdst]
    simp only [List.length_append]
    omega
  have h2 : slice src s (s + X.length) = X := by
    rw [hsrc]; exact slice_append SP X SQ s (s + X.length) hs (by omega)
  have h3 : dst.take d = DP := by
    rw [hdst, hd, List.append_assoc, List.take_left]
  have h4 : dst.drop (d + X.length) = DQ := by
    have h5 : d + X.length = (DP ++ Y).length := by
      rw [List.length_append]; omega
    rw [hdst, h5, List.drop_left]
  simp only [memcpy, hbytes, h1, and_self, if_true, h2, h3, h4]

section
variable [Preorder α] [DecidableRel ((· < ·) : α → α → Prop)]

theorem loop_exit (blockA : List α) (a a_n b b_n buffer v : Nat) (blockB : List α)
    (a_i b_i buffer_i : Nat) (h : ¬ (a_i < a_n ∧ b_i < b_n)) :
    mergeLoop blockA a a_n b b_n buffer v blockB a_i b_i buffer_i
      = .ok (blockB, a_i, b_i, buffer_i) := by
  cases v <;> simp only [mergeLoop, h, if_false]

theorem fill_spec (blockA : List α) (a a_n b b_n buffer : Nat) :
    ∀ (v : Nat) (L R blockB : List α) (a_i b_i buffer_i : Nat) (P M Q BP Y BQ : List α),
      blockA = P ++ L ++ M ++ R ++ Q → blockB = BP ++ Y ++ BQ →
      Y.length = L.length + R.length → a + a_i = P.length → a_n = a_i + L.length →
      b + b_i = P.length + L.length + M.length → b_n = b_i + R.length →
      buffer + buffer_i = BP.length → v = L.length + R.length →
      sizeof_float * (L.length + R.length) < W →
      fillBuffer blockA a a_n b b_n buffer v blockB a_i b_i buffer_i
        = .ok (BP ++ mergeList L R ++ BQ) := by
  intro v
  induction v with
  | zero =>
    intro L R blockB a_i b_i buffer_i P M Q BP Y BQ ha hb hY hl hmid hr hend hbi hv hw
    have hL : L = [] := List.length_eq_zero.mp (by omega)
    have hR : R = [] := List.length_eq_zero.mp (by omega)
    subst hL hR
    have hY0 : Y = [] := List.length_eq_zero.mp (by simpa using hY)
    subst hY0
    simp only [List.length_nil] at hmid hend
    have hx : ¬ (a_i < a_n ∧ b_i < b_n) := by omega
    have hnl : ¬ a_i < a_n := by omega
    have hnr : ¬ b_i < b_n := by omega
    simp [fillBuffer, loop_exit _ _ _ _ _ _ _ _ _ _ _ hx, hnl, hnr, bind,
      Except.bind, pure, Except.pure, hb, mergeList_nil_left]
  | succ v ih =>
    intro L R blockB a_i b_i buffer_i P M Q BP Y BQ ha hb hY hl hmid hr hend hbi hv hw
    simp only [sizeof_float] at hw
    cases L with
    | nil =>
      simp only [List.length_nil] at hY hmid hr hend hv hw
      have hx : ¬ (a_i < a_n ∧ b_i < b_n) := by omega
      have hnl : ¬ a_i < a_n := by omega
      have hlt : b_i < b_n := by omega
      have hc := memcpy_spec blockB (buffer + buffer_i) blockA (b + b_i)
        (sizeof_float * (b_n - b_i) % W) (P ++ M) R Q BP Y BQ (by simp [ha]) hb (by omega)
        hbi (by rw [List.length_append]; omega)
        (by
          have e : b_n - b_i = R.length := by omega
          rw [e]; exact bytes_div _ (by simp only [sizeof_float]; omega))
      simp [fillBuffer, loop_exit _ _ _ _ _ _ _ _ _ _ _ hx, hnl, hlt, bind,
        Except.bind, pure, Except.pure, hc, mergeList_nil_left]
    | cons x L =>
      cases R with
      | nil =>
        simp only [List.length_nil, List.length_cons] at hY hmid hr hend hv hw
        have hx : ¬ (a_i < a_n ∧ b_i < b_n) := by omega
        have hnr : ¬ b_i < b_n := by omega
        have hlt : a_i < a_n := by omega
        have hc := memcpy_spec blockB (buffer + buffer_i) blockA (a + a_i)
          (sizeof_float * (a_n - a_i) % W) P (x :: L) (M ++ Q) BP Y BQ (by simp [ha]) hb
          (by rw [List.length_cons]; omega) hbi hl
          (by
            have e : a_n - a_i = (x :: L).length := by rw [List.length_cons]; omega
            rw [e]; exact bytes_div _ (by simp only [sizeof_float, List.length_cons]; omega))
        simp [fillBuffer, loop_exit _ _ _ _ _ _ _ _ _ _ _ hx, hnr, hlt, bind,
          Except.bind, pure, Except.pure, hc, mergeList_nil_right]
      | cons y R =>
        simp only [List.length_cons] at hY hmid hr hend hv hw
        cases Y with
        | nil => simp only [List.length_nil] at hY; omega
        | cons y0 Y =>
          simp only [List.length_cons] at hY
          have hx : a_i < a_n ∧ b_i < b_n := by omega
          have hrx : rd blockA (a + a_i) = .ok x := by
            rw [ha]
            simpa using rd_append P (L ++ M ++ y :: R ++ Q) x (a + a_i) hl
          have hry : rd blockA (b + b_i) = .ok y := by
            rw [ha]
            simpa using rd_append (P ++ x :: L ++ M) (R ++ Q) y (b + b_i)
              (by simp only [List.length_append, List.length_cons]; omega)
          by_cases hgt : x > y
          · have hwr : wr blockB (buffer + buffer_i) y = .ok (BP ++ y :: (Y ++ BQ)) := by
              rw [hb]; simpa using wr_append BP (Y ++ BQ) y0 y (buffer + buffer_i) hbi
            have h := ih (x :: L) R (BP ++ y :: (Y ++ BQ)) a_i (b_i + 1) (buffer_i + 1) P
              (M ++ [y]) Q (BP ++ [y]) Y BQ (by simp [ha]) (by simp)
              (by simp only [List.length_cons]; omega) hl
              (by simp only [List.length_cons]; omega)
              (by simp only [List.length_append, List.length_cons, List.length_nil]; omega)
              (by omega)
              (by simp only [List.length_append, List.length_cons, List.length_nil]; omega)
              (by simp only [List.length_cons]; omega)
              (by simp only [sizeof_float, List.length_cons]; omega)
            simp only [fillBuffer] at h ⊢
            simp only [mergeLoop, hx, and_self, if_true, bind, Except.bind, hrx, hry, hgt,
              hwr]
            simp only [bind, Except.bind] at h
            rw [h, mergeList_cons_gt x y L R hgt]
            simp
          · have hwr : wr blockB (buffer + buffer_i) x = .ok (BP ++ x :: (Y ++ BQ)) := by
              rw [hb]; simpa using wr_append BP (Y ++ BQ) y0 x (buffer + buffer_i) hbi
            have h := ih L (y :: R) (BP ++ x :: (Y ++ BQ)) (a_i + 1) b_i (buffer_i + 1)
              (P ++ [x]) M Q (BP ++ [x]) Y BQ (by simp [ha]) (by simp)
              (by simp only [List.length_cons]; omega)
              (by simp only [List.length_append, List.length_cons, List.length_nil]; omega)
              (by omega)
              (by simp only [List.length_append, List.length_cons, List.length_nil]; omega)
              (by simp only [List.length_cons]; omega)
              (by simp only [List.length_append, List.length_cons, List.length_nil]; omega)
              (by simp only [List.length_cons]; omega)
              (by simp only [sizeof_float, List.length_cons]; omega)
            simp only [fillBuffer] at h ⊢
            simp only [mergeLoop, hx, and_self, if_true, if_false, bind, Except.bind, hrx,
              hry, hgt, hwr]
            simp only [bind, Except.bind] at h
            rw [h, mergeList_cons_not_gt x y L R hgt]
            simp

theorem merge_unfold (blockA blockB : List α) (a a_n b b_n buffer : Nat) :
    merge blockA blockB a a_n b b_n buffer
      = (fillBuffer blockA a a_n b b_n buffer ((a_n - 0) + (b_n - 0)) blockB 0 0 0
          >>= fun blockB =>
            memcpy blockA a blockB buffer (sizeof_float * ((a_n + b_n) % W) % W)
          >>= fun blockA => pure (blockA, blockB)) := by
  simp only [merge, fillBuffer, bind_assoc, pure_bind]

/-- Frame form of `merge`: the two adjacent runs `L`, `R` of `blockA` are replaced by their
merge, the same elements are left in `blockB` from `buffer` on, and nothing else changes. -/
theorem merge_blocks_frame (blockA blockB : List α) (a a_n b b_n buffer : Nat)
    (P L R Q BP Y BQ : List α) (hA : blockA = P ++ L ++ R ++ Q) (hB : blockB = BP ++ Y ++ BQ)
    (hY : Y.length = L.length + R.length) (ha : a = P.length) (han : a_n = L.length)
    (hb : b = P.length + L.length) (hbn : b_n = R.length) (hbuf : buffer = BP.length)
    (hw : sizeof_float * (L.length + R.length) < W) :
    merge blockA blockB a a_n b b_n buffer
      = .ok (P ++ mergeList L R ++ Q, BP ++ mergeList L R ++ BQ) := by
  have hf := fill_spec blockA a a_n b b_n buffer ((a_n - 0) + (b_n - 0)) L R blockB
    0 0 0 P [] Q BP Y BQ (by simp [hA]) hB hY (by omega) (by omega)
    (by simp only [List.length_nil]; omega) (by omega) (by omega) (by omega) hw
  have hlt : a_n + b_n < W := by
    simp only [sizeof_float] at hw; omega
  have hbytes : (sizeof_float * ((a_n + b_n) % W) % W) / sizeof_float
      = (mergeList L R).length := by
    rw [Nat.mod_eq_of_lt hlt, length_mergeList, han, hbn]
    exact bytes_div _ hw
  have hc := memcpy_spec blockA a (BP ++ mergeList L R ++ BQ) buffer
    (sizeof_float * ((a_n + b_n) % W) % W) BP (mergeList L R) BQ P (L ++ R) Q rfl
    (by simp [hA]) (by simp [length_mergeList]) ha hbuf hbytes
  rw [merge_unfold, hf]
  simp only [bind, Except.bind, hc, pure, Except.pure]

/-- The `n` elements `S` at `array` are replaced by `msort S`; `blockB` receives the same
elements from `buffer` on unless `n = 1`, where it is untouched.  First part: with `fuel`
at least `n >= 1` the call returns this result.  Second part: with any fuel the call either
runs out of fuel or returns this result, and it returns only for `n >= 1`. -/
theorem mergesort_blocks_frame :
    ∀ (fuel : Nat) (blockA blockB : List α) (array buffer n : Nat) (P S Q BP Y BQ : List α),
      blockA = P ++ S ++ Q → blockB = BP ++ Y ++ BQ → Y.length = S.length →
      array = P.length → buffer = BP.length → n = S.length → sizeof_float * S.length < W →
      (1 ≤ n → n ≤ fuel →
        mergesort fuel blockA blockB array buffer n
          = .ok (P ++ msort S ++ Q, BP ++ (if n = 1 then Y else msort S) ++ BQ)) ∧
      (mergesort fuel blockA blockB array buffer n = .error .outOfFuel ∨
        (1 ≤ n ∧ mergesort fuel blockA blockB array buffer n
          = .ok (P ++ msort S ++ Q, BP ++ (if n = 1 then Y else msort S) ++ BQ))) := by
  intro fuel
  induction fuel with
  | zero =>
    intro blockA blockB array buffer n P S Q BP Y BQ hA hB hY ha hbuf hn hw
    exact ⟨fun h1 h0 => absurd h1 (by omega), Or.inl rfl⟩
  | succ fuel ih =>
    intro blockA blockB array buffer n P S Q BP Y BQ hA hB hY ha hbuf hn hw
    subst hn
    simp only [sizeof_float] at hw
    by_cases h1 : S.length = 1
    · have hres : mergesort (fuel + 1) blockA blockB array buffer S.length
          = .ok (P ++ msort S ++ Q, BP ++ (if S.length = 1 then Y else msort S) ++ BQ) := by
        simp only [mergesort, h1, if_true]
        rw [msort_small S (by omega), ← hA, ← hB]
      exact ⟨fun _ _ => hres, Or.inr ⟨by omega, hres⟩⟩
    · have hstep : mergesort (fuel + 1) blockA blockB array buffer S.length
          = (mergesort fuel blockA blockB array buffer (S.length / 2) >>= fun r =>
              mergesort fuel r.1 r.2 (array + S.length / 2) (buffer + S.length / 2)
                (S.length - S.length / 2) >>= fun r =>
                merge r.1 r.2 array (S.length / 2) (array + S.length / 2)
                  (S.length - S.length / 2) buffer) := by
        simp only [mergesort, h1, if_false]
      obtain ⟨S1, S2, hS, hS1, hS12, hms⟩ : ∃ S1 S2 : List α, S = S1 ++ S2 ∧
          S1.length = S.length / 2 ∧ S1.length + S2.length = S.length ∧
          (¬ S.length ≤ 1 → msort S = mergeList (msort S1) (msort S2)) :=
        ⟨_, _, (take_append_drop_length S (S.length / 2) (by omega)).1,
          (take_append_drop_length S (S.length / 2) (by omega)).2.1,
          (take_append_drop_length S (S.length / 2) (by omega)).2.2, msort_split S⟩
      obtain ⟨Y1, Y2, hYs, hY1, hY12⟩ : ∃ Y1 Y2 : List α, Y = Y1 ++ Y2 ∧
          Y1.length = S.length / 2 ∧ Y1.length + Y2.length = Y.length :=
        ⟨_, _, take_append_drop_length Y (S.length / 2) (by omega)⟩
      have hbounds := half_bounds S.length S1.length S2.length fuel hS1 hS12 h1
      have hS2 : S.length - S.length / 2 = S2.length := by omega
      rw [hS2, ← hS1] at hstep
      rw [← hS1] at hY1
      clear hS1 hS2
      obtain ⟨M1, hM1, hM1len⟩ : ∃ M1, msort S1 = M1 ∧ M1.length = S1.length :=
        ⟨_, rfl, length_msort S1⟩
      obtain ⟨M2, hM2, hM2len⟩ : ∃ M2, msort S2 = M2 ∧ M2.length = S2.length :=
        ⟨_, rfl, length_msort S2⟩
      obtain ⟨Z1, hZ1, hZ1len⟩ : ∃ Z1, (if S1.length = 1 then Y1 else msort S1) = Z1 ∧
          Z1.length = S1.length := by
        refine ⟨_, rfl, ?_⟩
        split
        · exact hY1
        · exact length_msort S1
      obtain ⟨Z2, hZ2, hZ2len⟩ : ∃ Z2, (if S2.length = 1 then Y2 else msort S2) = Z2 ∧
          Z2.length = S2.length := by
        refine ⟨_, rfl, ?_⟩
        split
        · clear hbounds hms hstep ih; omega
        · exact length_msort S2
      rw [hM1, hM2] at hms
      have hmerge := merge_blocks_frame (P ++ M1 ++ M2 ++ Q) (BP ++ Z1 ++ Z2 ++ BQ) array S1.length
        (array + S1.length) S2.length buffer P M1 M2 Q BP (Z1 ++ Z2) BQ rfl
        (by simp only [List.append_assoc])
        (by clear hbounds hms hstep ih; simp only [List.length_append]; omega) ha
        (by clear hbounds hms hstep ih; omega) (by clear hbounds hms hstep ih; omega)
        (by clear hbounds hms hstep ih; omega) hbuf
        (by clear hbounds hms hstep ih; simp only [sizeof_float]; omega)
      have ih1 := ih blockA blockB array buffer S1.length P S1 (S2 ++ Q) BP Y1
        (Y2 ++ BQ) (by rw [hA, hS]; simp only [List.append_assoc])
        (by rw [hB, hYs]; simp only [List.append_assoc]) hY1 ha hbuf rfl
        (by clear hbounds hms hstep ih; simp only [sizeof_float]; omega)
      rw [hZ1, hM1] at ih1
      have ih2 := ih (P ++ M1 ++ (S2 ++ Q)) (BP ++ Z1 ++ (Y2 ++ BQ)) (array + S1.length)
        (buffer + S1.length) S2.length (P ++ M1) S2 Q (BP ++ Z1) Y2 BQ
        (by simp only [List.append_assoc]) (by simp only [List.append_assoc])
        (by clear hbounds hms hstep ih ih1; omega)
        (by clear hbounds hms hstep ih ih1; simp only [List.length_append]; omega)
        (by clear hbounds hms hstep ih ih1; simp only [List.length_append]; omega) rfl
        (by clear hbounds hms hstep ih ih1; simp only [sizeof_float]; omega)
      rw [hZ2, hM2] at ih2
      have hfinal : 1 ≤ S1.length →
          mergesort fuel blockA blockB array buffer S1.length
            = .ok (P ++ M1 ++ (S2 ++ Q), BP ++ Z1 ++ (Y2 ++ BQ)) →
          mergesort fuel (P ++ M1 ++ (S2 ++ Q)) (BP ++ Z1 ++ (Y2 ++ BQ))
              (array + S1.length) (buffer + S1.length) S2.length
            = .ok (P ++ M1 ++ M2 ++ Q, BP ++ Z1 ++ Z2 ++ BQ) →
          mergesort (fuel + 1) blockA blockB array buffer S.length
            = .ok (P ++ msort S ++ Q, BP ++ (if S.length = 1 then Y else msort S) ++ BQ) := by
        intro hpos e1 e2
        rw [hstep, e1]
        simp only [bind, Except.bind]
        rw [e2]
        simp only [hmerge, if_neg h1]
        rw [hms (hbounds.2 hpos).2]
      refine ⟨?_, ?_⟩
      · intro hge hle
        have hb := hbounds.1 hge hle
        exact hfinal hb.1.1 (ih1.1 hb.1.1 hb.1.2) (ih2.1 hb.2.1 hb.2.2)
      · rcases ih1.2 with e1 | ⟨hpos, e1⟩
        · left
          rw [hstep, e1]
          rfl
        · rcases ih2.2 with e2 | ⟨_, e2⟩
          · left
            rw [hstep, e1]
            simp only [bind, Except.bind]
            rw [e2]
          · right
            exact ⟨(hbounds.2 hpos).1, hfinal hpos e1 e2⟩

/-- The `n >= 2` elements `S` at `array` are replaced by `msort S` and `blockB` receives
the same elements from `buffer` on.  First part: for `n >= 2`, a threshold `T` with `4 <= T`
or `n < T`, and `fuel >= n` the call returns this result.  Second part: with any fuel and
any threshold the call either runs out of fuel or returns this result, and it returns only
for `n >= 2`. -/
theorem mergesort_parallel_frame (T : Nat) :
    ∀ (fuel : Nat) (blockA blockB : List α) (array buffer n : Nat) (P S Q BP Y BQ : List α),
      blockA = P ++ S ++ Q → blockB = BP ++ Y ++ BQ → Y.length = S.length →
      array = P.length → buffer = BP.length → n = S.length → sizeof_float * S.length < W →
      (2 ≤ n → 4 ≤ T ∨ n < T → n ≤ fuel →
        mergesort_parallel_with T fuel blockA blockB array buffer n
          = .ok (P ++ msort S ++ Q, BP ++ msort S ++ BQ)) ∧
      (mergesort_parallel_with T fuel blockA blockB array buffer n = .error .outOfFuel ∨
        (2 ≤ n ∧ mergesort_parallel_with T fuel blockA blockB array buffer n
          = .ok (P ++ msort S ++ Q, BP ++ msort S ++ BQ))) := by
  intro fuel
  induction fuel with
  | zero =>
    intro blockA blockB array buffer n P S Q BP Y BQ hA hB hY ha hbuf hn hw
    exact ⟨fun h2 _ h0 => absurd h2 (by omega), Or.inl rfl⟩
  | succ fuel ih =>
    intro blockA blockB array buffer n P S Q BP Y BQ hA hB hY ha hbuf hn hw
    subst hn
    simp only [sizeof_float] at hw
    have hstep_seq : S.length < T →
        mergesort_parallel_with T (fuel + 1) blockA blockB array buffer S.length
          = (mergesort fuel blockA blockB array buffer (S.length / 2) >>= fun r =>
              mergesort fuel r.1 r.2 (array + S.length / 2) (buffer + S.length / 2)
                (S.length - S.length / 2) >>= fun r =>
                merge r.1 r.2 array (S.length / 2) (array + S.length / 2)
                  (S.length - S.length / 2) buffer) := by
      intro h
      simp only [mergesort_parallel_with, h, if_true, bind_assoc]
    have hstep_par : ¬ S.length < T →
        mergesort_parallel_with T (fuel + 1) blockA blockB array buffer S.length
          = (mergesort_parallel_with T fuel blockA blockB array buffer (S.length / 2)
              >>= fun r =>
              mergesort_parallel_with T fuel r.1 r.2 (array + S.length / 2)
                (buffer + S.length / 2) (S.length - S.length / 2) >>= fun r =>
                merge r.1 r.2 array (S.length / 2) (array + S.length / 2)
                  (S.length - S.length / 2) buffer) := by
      intro h
      simp only [mergesort_parallel_with, h, if_false, bind_assoc]
    obtain ⟨S1, S2, hS, hS1, hS12, hms⟩ : ∃ S1 S2 : List α, S = S1 ++ S2 ∧
        S1.length = S.length / 2 ∧ S1.length + S2.length = S.length ∧
        (¬ S.length ≤ 1 → msort S = mergeList (msort S1) (msort S2)) :=
      ⟨_, _, (take_append_drop_length S (S.length / 2) (by omega)).1,
        (take_append_drop_length S (S.length / 2) (by omega)).2.1,
        (take_append_drop_length S (S.length / 2) (by omega)).2.2, msort_split S⟩
    obtain ⟨Y1, Y2, hYs, hY1, hY12⟩ : ∃ Y1 Y2 : List α, Y = Y1 ++ Y2 ∧
        Y1.length = S.length / 2 ∧ Y1.length + Y2.length = Y.length :=
      ⟨_, _, take_append_drop_length Y (S.length / 2) (by omega)⟩
    have hbounds := parallel_bounds S.length S1.length S2.length fuel T hS1 hS12
    have hS2 : S.length - S.length / 2 = S2.length := by omega
    rw [hS2, ← hS1] at hstep_seq hstep_par
    rw [← hS1] at hY1
    clear hS1 hS2
    obtain ⟨M1, hM1, hM1len⟩ : ∃ M1, msort S1 = M1 ∧ M1.length = S1.length :=
      ⟨_, rfl, length_msort S1⟩
    obtain ⟨M2, hM2, hM2len⟩ : ∃ M2, msort S2 = M2 ∧ M2.length = S2.length :=
      ⟨_, rfl, length_msort S2⟩
    rw [hM1, hM2] at hms
    have hY2 : Y2.length = S2.length := by
      clear hbounds hms hstep_seq hstep_par ih; omega
    have hw1 : sizeof_float * S1.length < W := by
      clear hbounds hms hstep_seq hstep_par ih; simp only [sizeof_float]; omega
    have hw2 : sizeof_float * S2.length < W := by
      clear hbounds hms hstep_seq hstep_par ih; simp only [sizeof_float]; omega
    have hmerge : ∀ V1 V2 : List α, V1.length = S1.length → V2.length = S2.length →
        merge (P ++ M1 ++ M2 ++ Q) (BP ++ V1 ++ V2 ++ BQ) array S1.length
          (array + S1.length) S2.length buffer
          = .ok (P ++ mergeList M1 M2 ++ Q, BP ++ mergeList M1 M2 ++ BQ) := by
      intro V1 V2 hV1 hV2
      exact merge_blocks_frame (P ++ M1 ++ M2 ++ Q) (BP ++ V1 ++ V2 ++ BQ) array S1.length
        (array + S1.length) S2.length buffer P M1 M2 Q BP (V1 ++ V2) BQ rfl
        (by simp only [List.append_assoc])
        (by clear hbounds hms hstep_seq hstep_par ih; simp only [List.length_append]; omega)
        ha (by clear hbounds hms hstep_seq hstep_par ih; omega)
        (by clear hbounds hms hstep_seq hstep_par ih; omega)
        (by clear hbounds hms hstep_seq hstep_par ih; omega) hbuf
        (by clear hbounds hms hstep_seq hstep_par ih; simp only [sizeof_float]; omega)
    have hA1 : blockA = P ++ S1 ++ (S2 ++ Q) := by
      rw [hA, hS]; simp only [List.append_assoc]
    have hB1 : blockB = BP ++ Y1 ++ (Y2 ++ BQ) := by
      rw [hB, hYs]; simp only [List.append_assoc]
    have hlenA : array + S1.length = (P ++ M1).length := by
      clear hbounds hms hstep_seq hstep_par ih; simp only [List.length_append]; omega
    by_cases hT : S.length < T
    · -- below the threshold: the two halves are sorted by the sequential `mergesort`
      have s1 := mergesort_blocks_frame fuel blockA blockB array buffer S1.length P S1 (S2 ++ Q) BP Y1
        (Y2 ++ BQ) hA1 hB1 hY1 ha hbuf rfl hw1
      obtain ⟨Z1, hZ1, hZ1len⟩ : ∃ Z1, (if S1.length = 1 then Y1 else msort S1) = Z1 ∧
          Z1.length = S1.length := by
        refine ⟨_, rfl, ?_⟩
        split
        · exact hY1
        · exact length_msort S1
      rw [hZ1, hM1] at s1
      have s2 := mergesort_blocks_frame fuel (P ++ M1 ++ (S2 ++ Q)) (BP ++ Z1 ++ (Y2 ++ BQ))
        (array + S1.length) (buffer + S1.length) S2.length (P ++ M1) S2 Q (BP ++ Z1) Y2 BQ
        (by simp only [List.append_assoc]) (by simp only [List.append_assoc]) hY2 hlenA
        (by clear hbounds hms hstep_seq hstep_par ih s1; simp only [List.length_append]; omega)
        rfl hw2
      obtain ⟨Z2, hZ2, hZ2len⟩ : ∃ Z2, (if S2.length = 1 then Y2 else msort S2) = Z2 ∧
          Z2.length = S2.length := by
        refine ⟨_, rfl, ?_⟩
        split
        · exact hY2
        · exact length_msort S2
      rw [hZ2, hM2] at s2
      have hfinal : 1 ≤ S1.length →
          mergesort fuel blockA blockB array buffer S1.length
            = .ok (P ++ M1 ++ (S2 ++ Q), BP ++ Z1 ++ (Y2 ++ BQ)) →
          mergesort fuel (P ++ M1 ++ (S2 ++ Q)) (BP ++ Z1 ++ (Y2 ++ BQ))
              (array + S1.length) (buffer + S1.length) S2.length
            = .ok (P ++ M1 ++ M2 ++ Q, BP ++ Z1 ++ Z2 ++ BQ) →
          mergesort_parallel_with T (fuel + 1) blockA blockB array buffer S.length
            = .ok (P ++ msort S ++ Q, BP ++ msort S ++ BQ) := by
        intro hpos e1 e2
        rw [hstep_seq hT, e1]
        simp only [bind, Except.bind]
        rw [e2]
        simp only [hmerge Z1 Z2 hZ1len hZ2len]
        rw [hms (hbounds.2.2 hpos).2]
      refine ⟨?_, ?_⟩
      · intro hge _ hle
        have hb := hbounds.1 hge hle
        exact hfinal hb.1.1 (s1.1 hb.1.1 hb.1.2) (s2.1 hb.2.1 hb.2.2)
      · rcases s1.2 with e1 | ⟨hpos, e1⟩
        · left
          rw [hstep_seq hT, e1]
          rfl
        · rcases s2.2 with e2 | ⟨_, e2⟩
          · left
            rw [hstep_seq hT, e1]
            simp only [bind, Except.bind]
            rw [e2]
          · right
            exact ⟨(hbounds.2.2 hpos).1, hfinal hpos e1 e2⟩
    · -- at or above the threshold: the two halves are sorted by the two tasks
      have p1 := ih blockA blockB array buffer S1.length P S1 (S2 ++ Q) BP Y1
        (Y2 ++ BQ) hA1 hB1 hY1 ha hbuf rfl hw1
      rw [hM1] at p1
      have p2 := ih (P ++ M1 ++ (S2 ++ Q)) (BP ++ M1 ++ (Y2 ++ BQ))
        (array + S1.length) (buffer + S1.length) S2.length (P ++ M1) S2 Q (BP ++ M1) Y2 BQ
        (by simp only [List.append_assoc]) (by simp only [List.append_assoc]) hY2 hlenA
        (by clear hbounds hms hstep_seq hstep_par ih p1; simp only [List.length_append]; omega)
        rfl hw2
      rw [hM2] at p2
      have hfinal : 1 ≤ S1.length →
          mergesort_parallel_with T fuel blockA blockB array buffer S1.length
            = .ok (P ++ M1 ++ (S2 ++ Q), BP ++ M1 ++ (Y2 ++ BQ)) →
          mergesort_parallel_with T fuel (P ++ M1 ++ (S2 ++ Q)) (BP ++ M1 ++ (Y2 ++ BQ))
              (array + S1.length) (buffer + S1.length) S2.length
            = .ok (P ++ M1 ++ M2 ++ Q, BP ++ M1 ++ M2 ++ BQ) →
          mergesort_parallel_with T (fuel + 1) blockA blockB array buffer S.length
            = .ok (P ++ msort S ++ Q, BP ++ msort S ++ BQ) := by
        intro hpos e1 e2
        rw [hstep_par hT, e1]
        simp only [bind, Except.bind]
        rw [e2]
        simp only [hmerge M1 M2 hM1len hM2len]
        rw [hms (hbounds.2.2 hpos).2]
      refine ⟨?_, ?_⟩
      · intro hge hTn hle
        have hb := hbounds.2.1 hge hTn hT hle
        exact hfinal (Nat.le_trans (by decide) hb.1.1) (p1.1 hb.1.1 hb.1.2.1 hb.1.2.2)
          (p2.1 hb.2.1 hb.2.2.1 hb.2.2.2)
      · rcases p1.2 with e1 | ⟨hpos, e1⟩
        · left
          rw [hstep_par hT, e1]
          rfl
        · rcases p2.2 with e2 | ⟨_, e2⟩
          · left
            rw [hstep_par hT, e1]
            simp only [bind, Except.bind]
            rw [e2]
          · right
            have h1 : 1 ≤ S1.length := Nat.le_trans (by decide) hpos
            exact ⟨(hbounds.2.2 h1).1, hfinal h1 e1 e2⟩

/-- Index form of `merge_blocks_frame` for two adjacent runs. -/
theorem merge_block (blockA blockB : List α) (a a_n b_n buffer : Nat)
    (hA : a + a_n + b_n ≤ blockA.length) (hB : buffer + a_n + b_n ≤ blockB.length)
    (hw : sizeof_float * (a_n + b_n) < W) :
    merge blockA blockB a a_n (a + a_n) b_n buffer
      = .ok (blockA.take a ++ mergeList (slice blockA a (a + a_n))
                (slice blockA (a + a_n) (a + a_n + b_n)) ++ blockA.drop (a + a_n + b_n),
            blockB.take buffer ++ mergeList (slice blockA a (a + a_n))
                (slice blockA (a + a_n) (a + a_n + b_n)) ++ blockB.drop (buffer + a_n + b_n)) := by
  obtain ⟨h1, h2, h3⟩ := split_at_range blockA a (a + a_n + b_n) (by omega) hA
  obtain ⟨h4, h5, h6⟩ := split_at_range blockB buffer (buffer + a_n + b_n) (by omega) hB
  have hL := length_slice blockA a (a + a_n) (by omega) (by omega)
  have hR := length_slice blockA (a + a_n) (a + a_n + b_n) (by omega) hA
  refine merge_blocks_frame blockA blockB a a_n (a + a_n) b_n buffer (blockA.take a)
    (slice blockA a (a + a_n)) (slice blockA (a + a_n) (a + a_n + b_n))
    (blockA.drop (a + a_n + b_n)) (blockB.take buffer)
    (slice blockB buffer (buffer + a_n + b_n)) (blockB.drop (buffer + a_n + b_n)) ?_ h4
    (by omega) (by omega) (by omega) (by omega) (by omega) (by omega) ?_
  · rw [List.append_assoc (blockA.take a),
      ← slice_split blockA a (a + a_n) (a + a_n + b_n) (by omega) (by omega) hA]
    exact h1
  · rw [hL, hR]
    have e : a + a_n - a + (a + a_n + b_n - (a + a_n)) = a_n + b_n := by omega
    rw [e]; exact hw

/-- Index form of `mergesort_blocks_frame`. -/
theorem mergesort_block (fuel : Nat) (blockA blockB : List α) (array buffer n : Nat)
    (hA : array + n ≤ blockA.length) (hB : buffer + n ≤ blockB.length)
    (hw : sizeof_float * n < W) :
    (1 ≤ n → n ≤ fuel →
      mergesort fuel blockA blockB array buffer n
        = .ok (blockA.take array ++ msort (slice blockA array (array + n))
                ++ blockA.drop (array + n),
            blockB.take buffer ++ (if n = 1 then slice blockB buffer (buffer + n)
              else msort (slice blockA array (array + n))) ++ blockB.drop (buffer + n))) ∧
    (mergesort fuel blockA blockB array buffer n = .error .outOfFuel ∨
      (1 ≤ n ∧ mergesort fuel blockA blockB array buffer n
        = .ok (blockA.take array ++ msort (slice blockA array (array + n))
                ++ blockA.drop (array + n),
            blockB.take buffer ++ (if n = 1 then slice blockB buffer (buffer + n)
              else msort (slice blockA array (array + n))) ++ blockB.drop (buffer + n)))) := by
  obtain ⟨h1, h2, h3⟩ := split_at_range blockA array (array + n) (by omega) hA
  obtain ⟨h4, h5, h6⟩ := split_at_range blockB buffer (buffer + n) (by omega) hB
  have hn : n = (slice blockA array (array + n)).length := by omega
  exact mergesort_blocks_frame fuel blockA blockB array buffer n (blockA.take array)
    (slice blockA array (array + n)) (blockA.drop (array + n)) (blockB.take buffer)
    (slice blockB buffer (buffer + n)) (blockB.drop (buffer + n)) h1 h4 (by omega)
    (by omega) (by omega) hn (by rw [← hn]; exact hw)

/-- Index form of `mergesort_parallel_frame`. -/
theorem mergesort_parallel_block (T fuel : Nat) (blockA blockB : List α)
    (array buffer n : Nat) (hA : array + n ≤ blockA.length)
    (hB : buffer + n ≤ blockB.length) (hw : sizeof_float * n < W) :
    (2 ≤ n → 4 ≤ T ∨ n < T → n ≤ fuel →
      mergesort_parallel_with T fuel blockA blockB array buffer n
        = .ok (blockA.take array ++ msort (slice blockA array (array + n))
                ++ blockA.drop (array + n),
            blockB.take buffer ++ msort (slice blockA array (array + n))
                ++ blockB.drop (buffer + n))) ∧
    (mergesort_parallel_with T fuel blockA blockB array buffer n = .error .outOfFuel ∨
      (2 ≤ n ∧ mergesort_parallel_with T fuel blockA blockB array buffer n
        = .ok (blockA.take array ++ msort (slice blockA array (array + n))
                ++ blockA.drop (array + n),
            blockB.take buffer ++ msort (slice blockA array (array + n))
                ++ blockB.drop (buffer + n)))) := by
  obtain ⟨h1, h2, h3⟩ := split_at_range blockA array (array + n) (by omega) hA
  obtain ⟨h4, h5, h6⟩ := split_at_range blockB buffer (buffer + n) (by omega) hB
  have hn : n = (slice blockA array (array + n)).length := by omega
  exact mergesort_parallel_frame T fuel blockA blockB array buffer n (blockA.take array)
    (slice blockA array (array + n)) (blockA.drop (array + n)) (blockB.take buffer)
    (slice blockB buffer (buffer + n)) (blockB.drop (buffer + n)) h1 h4 (by omega)
    (by omega) (by omega) hn (by rw [← hn]; exact hw)

/-- With `n = 0` the sequential `mergesort` calls itself with `n = 0` again: it never
returns, whatever the blocks and pointers are. -/
theorem mergesort_zero (fuel : Nat) (blockA blockB : List α) (array buffer : Nat) :
    mergesort fuel blockA blockB array buffer 0 = .error .outOfFuel := by
  induction fuel with
  | zero => rfl
  | succ fuel ih =>
    simp only [mergesort, Nat.zero_div, ih]
    rfl

/-- With `n <= 1` the first sub-call of `mergesort_parallel` has `n / 2 = 0`, and no call
with length `0` returns. -/
theorem mergesort_parallel_small (T : Nat) :
    ∀ (fuel : Nat) (blockA blockB : List α) (array buffer n : Nat), n ≤ 1 →
      mergesort_parallel_with T fuel blockA blockB array buffer n = .error .outOfFuel := by
  intro fuel
  induction fuel with
  | zero => intro _ _ _ _ _ _; rfl
  | succ fuel ih =>
    intro blockA blockB array buffer n hn
    have h0 : n / 2 = 0 := by omega
    by_cases hT : n < T
    · simp only [mergesort_parallel_with, hT, if_true, h0, mergesort_zero]
      rfl
    · simp only [mergesort_parallel_with, hT, if_false, h0,
        ih blockA blockB array buffer 0 (by omega)]
      rfl

/-- With the threshold at `1` every call of `mergesort_parallel` spawns itself on `n / 2`
until the length is `0`, which is handed to the sequential `mergesort`: no call returns. -/
theorem mergesort_parallel_threshold_one :
    ∀ (fuel : Nat) (blockA blockB : List α) (array buffer n : Nat),
      mergesort_parallel_with 1 fuel blockA blockB array buffer n = .error .outOfFuel := by
  intro fuel
  induction fuel with
  | zero => intro _ _ _ _ _; rfl
  | succ fuel ih =>
    intro blockA blockB array buffer n
    by_cases hT : n < 1
    · have h0 : n / 2 = 0 := by omega
      simp only [mergesort_parallel_with, hT, if_true, h0, mergesort_zero]
      rfl
    · simp only [mergesort_parallel_with, hT, if_false, ih blockA blockB array buffer (n / 2)]
      rfl

theorem mergesort_block_returns (blockA blockB : List α) (array buffer n : Nat)
    (hA : array + n ≤ blockA.length) (hB : buffer + n ≤ blockB.length)
    (hw : sizeof_float * n < W) (hn : 1 ≤ n) :
    mergesort n blockA blockB array buffer n
      = .ok (blockA.take array ++ msort (slice blockA array (array + n))
              ++ blockA.drop (array + n),
          blockB.take buffer ++ (if n = 1 then slice blockB buffer (buffer + n)
            else msort (slice blockA array (array + n))) ++ blockB.drop (buffer + n)) :=
  (mergesort_block n blockA blockB array buffer n hA hB hw).1 hn (Nat.le_refl _)

theorem mergesort_block_result (fuel : Nat) (blockA blockB : List α) (array buffer n : Nat)
    (a' b' : List α) (hA : array + n ≤ blockA.length) (hB : buffer + n ≤ blockB.length)
    (hw : sizeof_float * n < W)
    (h : mergesort fuel blockA blockB array buffer n = .ok (a', b')) :
    1 ≤ n ∧
      a' = blockA.take array ++ msort (slice blockA array (array + n))
            ++ blockA.drop (array + n) ∧
      b' = blockB.take buffer ++ (if n = 1 then slice blockB buffer (buffer + n)
            else msort (slice blockA array (array + n))) ++ blockB.drop (buffer + n) := by
  rcases (mergesort_block fuel blockA blockB array buffer n hA hB hw).2 with e | ⟨hp, e⟩
  · rw [e] at h; cases h
  · rw [e] at h
    injection h with h
    injection h with h1 h2
    exact ⟨hp, h1.symm, h2.symm⟩

theorem mergesort_parallel_result (T fuel : Nat) (blockA blockB : List α)
    (array buffer n : Nat) (a' b' : List α) (hA : array + n ≤ blockA.length)
    (hB : buffer + n ≤ blockB.length) (hw : sizeof_float * n < W)
    (h : mergesort_parallel_with T fuel blockA blockB array buffer n = .ok (a', b')) :
    2 ≤ n ∧
      a' = blockA.take array ++ msort (slice blockA array (array + n))
            ++ blockA.drop (array + n) ∧
      b' = blockB.take buffer ++ msort (slice blockA array (array + n))
            ++ blockB.drop (buffer + n) := by
  rcases (mergesort_parallel_block T fuel blockA blockB array buffer n hA hB hw).2 with
    e | ⟨hp, e⟩
  · rw [e] at h; cases h
  · rw [e] at h
    injection h with h
    injection h with h1 h2
    exact ⟨hp, h1.symm, h2.symm⟩

end

end C

/-! ## The calls of the two engines -/

namespace Cpp

theorem calls_mergesort (i_start i_end : Nat) (hse : i_start ≤ i_end) (hW : i_end < W) :
    calls (.mergesort i_start i_end)
      = if i_end - i_start = 1 then []
        else [.mergesort i_start (i_start + (i_end - i_start) / 2),
          .mergesort (i_start + (i_end - i_start) / 2) i_end,
          .merge i_start (i_start + (i_end - i_start) / 2) i_end] := by
  have hn : (i_end + W - i_start) % W = i_end - i_start := usub_eq i_start i_end hse hW
  have hmid : (i_start + (i_end - i_start) / 2) % W = i_start + (i_end - i_start) / 2 :=
    Nat.mod_eq_of_lt (by omega)
  simp only [calls, hn, hmid]

theorem wellFormed_step (n : Nat) (hn : n < W) (c c' : Call) (hc : WellFormed n c)
    (h : c' ∈ calls c) : WellFormed n c' := by
  cases c with
  | merge start mid end_ => simp [calls] at h
  | mergesort i_start i_end =>
    obtain ⟨h1, h2⟩ := hc
    rw [calls_mergesort i_start i_end h1 (by omega)] at h
    split at h
    · simp at h
    · simp only [List.mem_cons, List.mem_singleton, List.not_mem_nil, or_false] at h
      rcases h with rfl | rfl | rfl
      · exact ⟨by omega, by omega⟩
      · exact ⟨by omega, h2⟩
      · exact ⟨by omega, by omega, h2⟩

/-- Every call that the sort of `[0, n)` issues has a well-formed range. -/
theorem wellFormed_of_reaches (n : Nat) (hn : n < W) (c : Call)
    (h : Reaches (.mergesort 0 n) c) : WellFormed n c := by
  induction h with
  | refl => exact ⟨Nat.zero_le _, Nat.le_refl _⟩
  | tail _ hstep ih => exact wellFormed_step n hn _ _ ih hstep

section
variable [Preorder α] [DecidableRel ((· < ·) : α → α → Prop)]

/-- The recursion of the embedded `mergesort` issues exactly the calls listed by `calls`. -/
theorem mergesort_follows_calls (fuel : Nat) (array buffer : List α) (i_start i_end : Nat) :
    mergesort (fuel + 1) array buffer i_start i_end
      = (match calls (.mergesort i_start i_end) with
        | [] => .ok (array, buffer)
        | [.mergesort s1 e1, .mergesort s2 e2, .merge s m e] =>
          mergesort fuel array buffer s1 e1 >>= fun r =>
            mergesort fuel r.1 r.2 s2 e2 >>= fun r => merge r.1 r.2 s m e
        | _ => .error .outOfBounds) := by
  simp only [mergesort, calls]
  split <;> rfl

/-- No run of the sort of a range inside vector and buffer takes the out-of-bounds branch. -/
theorem mergesort_in_bounds (fuel : Nat) (array buffer : List α) (i_start i_end : Nat)
    (hbuf : buffer.length = array.length) (hse : i_start ≤ i_end)
    (hend : i_end ≤ array.length) (hW : i_end < W) :
    mergesort fuel array buffer i_start i_end ≠ .error .outOfBounds := by
  rcases (mergesort_range fuel array buffer i_start i_end hbuf hse hend hW).2 with e | ⟨_, e⟩
  · rw [e]; exact fun h => by cases h
  · rw [e]; exact fun h => by cases h

end

end Cpp

namespace C

theorem wellFormed_calls_step (T n : Nat) (c c' : Call) (hc : WellFormed n c)
    (h : c' ∈ calls T c) : WellFormed n c' := by
  cases c with
  | merge a a_n b b_n buffer => simp [calls] at h
  | mergesort array buffer m =>
    obtain ⟨h1, h2⟩ := hc
    simp only [calls] at h
    split at h
    · simp at h
    · simp only [List.mem_cons, List.mem_singleton, List.not_mem_nil, or_false] at h
      rcases h with rfl | rfl | rfl
      · exact ⟨by omega, by omega⟩
      · exact ⟨by omega, by omega⟩
      · exact ⟨rfl, by omega, by omega⟩
  | mergesort_parallel array buffer m =>
    obtain ⟨h1, h2⟩ := hc
    simp only [calls] at h
    split at h
    · simp only [List.cons_append, List.nil_append, List.mem_cons, List.mem_singleton,
        List.not_mem_nil, or_false] at h
      rcases h with rfl | rfl | rfl
      · exact ⟨by omega, by omega⟩
      · exact ⟨by omega, by omega⟩
      · exact ⟨rfl, by omega, by omega⟩
    · simp only [List.cons_append, List.nil_append, List.mem_cons, List.mem_singleton,
        List.not_mem_nil, or_false] at h
      rcases h with rfl | rfl | rfl
      · exact ⟨by omega, by omega⟩
      · exact ⟨by omega, by omega⟩
      · exact ⟨rfl, by omega, by omega⟩

/-- Every call that a well-formed call issues is well-formed. -/
theorem wellFormed_of_reaches_from (T n : Nat) (c0 c : Call) (h0 : WellFormed n c0)
    (h : Reaches T c0 c) : WellFormed n c := by
  induction h with
  | refl => exact h0
  | tail _ hstep ih => exact wellFormed_calls_step T n _ _ ih hstep

theorem sound_step (T : Nat) (c c' : Call) (hc : Sound T c) (h : c' ∈ calls T c) :
    Sound T c' := by
  cases c with
  | merge a a_n b b_n buffer => simp [calls] at h
  | mergesort array buffer m =>
    have hm : 1 ≤ m := hc
    simp only [calls] at h
    split at h
    · simp at h
    · simp only [List.mem_cons, List.mem_singleton, List.not_mem_nil, or_false] at h
      rcases h with rfl | rfl | rfl
      · show 1 ≤ m / 2
        omega
      · show 1 ≤ m - m / 2
        omega
      · trivial
  | mergesort_parallel array buffer m =>
    obtain ⟨h1, h2⟩ := hc
    simp only [calls] at h
    split at h
    · simp only [List.cons_append, List.nil_append, List.mem_cons, List.mem_singleton,
        List.not_mem_nil, or_false] at h
      rcases h with rfl | rfl | rfl
      · show 1 ≤ m / 2
        omega
      · show 1 ≤ m - m / 2
        omega
      · trivial
    · simp only [List.cons_append, List.nil_append, List.mem_cons, List.mem_singleton,
        List.not_mem_nil, or_false] at h
      rcases h with rfl | rfl | rfl
      · show 2 ≤ m / 2 ∧ (4 ≤ T ∨ m / 2 < T)
        omega
      · show 2 ≤ m - m / 2 ∧ (4 ≤ T ∨ m - m / 2 < T)
        omega
      · trivial

theorem sound_of_reaches (T : Nat) (c0 c : Call) (h0 : Sound T c0) (h : Reaches T c0 c) :
    Sound T c := by
  induction h with
  | refl => exact h0
  | tail _ hstep ih => exact sound_step T _ _ ih hstep

theorem nonEmpty_of_sound (T : Nat) (c : Call) (h : Sound T c) : NonEmpty c := by
  cases c with
  | merge a a_n b b_n buffer => trivial
  | mergesort array buffer m => exact h
  | mergesort_parallel array buffer m => exact Nat.le_trans (by decide) h.1

section
variable [Preorder α] [DecidableRel ((· < ·) : α → α → Prop)]

/-- The recursion of the embedded `mergesort` issues exactly the calls listed by `calls`. -/
theorem mergesort_block_follows_calls (T fuel : Nat) (blockA blockB : List α)
    (array buffer n : Nat) :
    mergesort (fuel + 1) blockA blockB array buffer n
      = (match calls T (.mergesort array buffer n) with
        | [] => .ok (blockA, blockB)
        | [.mergesort a1 b1 n1, .mergesort a2 b2 n2, .merge a a_n b b_n buf] =>
          mergesort fuel blockA blockB a1 b1 n1 >>= fun r =>
            mergesort fuel r.1 r.2 a2 b2 n2 >>= fun r => merge r.1 r.2 a a_n b b_n buf
        | _ => .error .outOfBounds) := by
  simp only [mergesort, calls]
  split <;> rfl

/-- The recursion of the embedded `mergesort_parallel` issues exactly the calls listed by
`calls`. -/
theorem mergesort_parallel_follows_calls (T fuel : Nat) (blockA blockB : List α)
    (array buffer n : Nat) :
    mergesort_parallel_with T (fuel + 1) blockA blockB array buffer n
      = (match calls T (.mergesort_parallel array buffer n) with
        | [.mergesort a1 b1 n1, .mergesort a2 b2 n2, .merge a a_n b b_n buf] =>
          mergesort fuel blockA blockB a1 b1 n1 >>= fun r =>
            mergesort fuel r.1 r.2 a2 b2 n2 >>= fun r => merge r.1 r.2 a a_n b b_n buf
        | [.mergesort_parallel a1 b1 n1, .mergesort_parallel a2 b2 n2,
            .merge a a_n b b_n buf] =>
          mergesort_parallel_with T fuel blockA blockB a1 b1 n1 >>= fun r =>
            mergesort_parallel_with T fuel r.1 r.2 a2 b2 n2 >>= fun r =>
              merge r.1 r.2 a a_n b b_n buf
        | _ => .error .outOfBounds) := by
  by_cases h : n < T
  · simp only [mergesort_parallel_with, calls, h, if_true, bind_assoc, List.cons_append,
      List.nil_append]
  · simp only [mergesort_parallel_with, calls, h, if_false, bind_assoc, List.cons_append,
      List.nil_append]

/-- No run of the sequential sort inside the two blocks takes the out-of-bounds branch. -/
theorem mergesort_block_in_bounds (fuel : Nat) (blockA blockB : List α)
    (array buffer n : Nat) (hA : array + n ≤ blockA.length)
    (hB : buffer + n ≤ blockB.length) (hw : sizeof_float * n < W) :
    mergesort fuel blockA blockB array buffer n ≠ .error .outOfBounds := by
  rcases (mergesort_block fuel blockA blockB array buffer n hA hB hw).2 with e | ⟨_, e⟩
  · rw [e]; exact fun h => by cases h
  · rw [e]; exact fun h => by cases h

/-- No run of the parallel sort inside the two blocks takes the out-of-bounds branch. -/
theorem mergesort_parallel_in_bounds (T fuel : Nat) (blockA blockB : List α)
    (array buffer n : Nat) (hA : array + n ≤ blockA.length)
    (hB : buffer + n ≤ blockB.length) (hw : sizeof_float * n < W) :
    mergesort_parallel_with T fuel blockA blockB array buffer n ≠ .error .outOfBounds := by
  rcases (mergesort_parallel_block T fuel blockA blockB array buffer n hA hB hw).2 with
    e | ⟨_, e⟩
  · rw [e]; exact fun h => by cases h
  · rw [e]; exact fun h => by cases h

end

end C

/-! ## The top-level sort of `mergesort.cpp` -/

namespace Cpp

section
variable [Preorder α] [DecidableRel ((· < ·) : α → α → Prop)] [Zero α]

theorem mergesort_init_eq (fuel : Nat) (array : List α) :
    mergesort_init fuel array
      = (mergesort fuel array (List.replicate array.length 0) 0 array.length
          >>= fun r => pure r.1) := by
  simp only [mergesort_init]

theorem mergesort_init_returns (array : List α) (h1 : 1 ≤ array.length)
    (hW : array.length < W) : mergesort_init array.length array = .ok (msort array) := by
  have h := mergesort_returns array (List.replicate array.length 0) 0 array.length
    (by simp) (by omega) (Nat.le_refl _) hW
  rw [Nat.sub_zero, slice_full] at h
  rw [mergesort_init_eq, h]
  simp [bind, Except.bind, pure, Except.pure]

theorem mergesort_init_result (fuel : Nat) (array a' : List α) (hW : array.length < W)
    (h : mergesort_init fuel array = .ok a') : 1 ≤ array.length ∧ a' = msort array := by
  rw [mergesort_init_eq] at h
  rcases (mergesort_range fuel array (List.replicate array.length 0) 0 array.length
    (by simp) (Nat.zero_le _) (Nat.le_refl _) hW).2 with e | ⟨hp, e⟩
  · rw [e] at h; cases h
  · rw [e, slice_full] at h
    simp only [bind, Except.bind, pure, Except.pure, List.take_zero, List.nil_append,
      List.drop_length, List.append_nil] at h
    injection h with h
    exact ⟨by omega, h.symm⟩

end

end Cpp

/-! ## The claims about the index-range engine (`mergesort.cpp`) -/

namespace Cpp

section
variable [Preorder α] [DecidableRel ((· < ·) : α → α → Prop)]

/-- Claim C1: for every vector, every buffer of the same length and every range
`[i_start, i_end)` inside the vector, whenever `mergesort(array, buffer, i_start, i_end)`
returns, the elements at `[i_start, i_end)` are ascending, in particular
`array[i] <= array[i+1]` for every `i` with `i_start <= i` and `i + 1 < i_end`.  On a
non-empty range the call does return. -/
theorem mergesort_sorts_range [IsTotal α (· ≤ ·)] (array buffer : List α)
    (i_start i_end : Nat) (hbuf : buffer.length = array.length) (hse : i_start ≤ i_end)
    (hend : i_end ≤ array.length) (hW : array.length < W) :
    (i_start < i_end →
      ∃ fuel a' b', mergesort fuel array buffer i_start i_end = .ok (a', b')) ∧
    ∀ fuel a' b', mergesort fuel array buffer i_start i_end = .ok (a', b') →
      Ascending (slice a' i_start i_end) ∧
      ∀ i, i_start ≤ i → i + 1 < i_end →
        ∃ x y, a'[i]? = some x ∧ a'[i + 1]? = some y ∧ x ≤ y := by
  refine ⟨fun hlt => ⟨_, _, _, mergesort_returns array buffer i_start i_end hbuf hlt hend
    (by omega)⟩, ?_⟩
  intro fuel a' b' h
  obtain ⟨_, ha', _⟩ := mergesort_result fuel array buffer i_start i_end a' b' hbuf hse hend
    (by omega) h
  have hlen : (msort (slice array i_start i_end)).length = i_end - i_start := by
    rw [length_msort, length_slice array i_start i_end hse hend]
  have hsl : slice a' i_start i_end = msort (slice array i_start i_end) := by
    rw [ha']; exact slice_splice array _ i_start i_end hse hend hlen
  have hal : a'.length = array.length := by
    rw [ha']; exact length_splice array _ i_start i_end hse hend hlen
  have hasc : Ascending (slice a' i_start i_end) := by
    rw [hsl]; exact ascending_msort _
  exact ⟨hasc, fun i hi1 hi2 =>
    ascending_adjacent a' i_start i_end hse (by omega) hasc i hi1 hi2⟩

theorem mergesort_sorts_range_witness :
    (1 < 5 → ∃ fuel a' b',
      mergesort fuel [5, 3, 8, 1, 9, 2] [0, 0, 0, 0, 0, 0] 1 5 = .ok (a', b')) ∧
    ∀ fuel a' b', mergesort fuel [5, 3, 8, 1, 9, 2] [0, 0, 0, 0, 0, 0] 1 5 = .ok (a', b') →
      Ascending (slice a' 1 5) ∧
      ∀ i, 1 ≤ i → i + 1 < 5 → ∃ x y, a'[i]? = some x ∧ a'[i + 1]? = some y ∧ x ≤ y :=
  mergesort_sorts_range ([5, 3, 8, 1, 9, 2] : List Nat) [0, 0, 0, 0, 0, 0] 1 5 (by decide)
    (by decide) (by decide) (by decide)

/-- Claim C3: for every vector, buffer and indices `start <= mid <= end` within both, if
`array[start, mid)` and `array[mid, end)` are each ascending, then
`merge(array, buffer, start, mid, end)` returns and leaves `array[start, end)` ascending. -/
theorem merge_sorted_runs [IsTotal α (· ≤ ·)] (array buffer : List α) (start mid end_ : Nat)
    (hsm : start ≤ mid) (hme : mid ≤ end_) (ha : end_ ≤ array.length)
    (hb : end_ ≤ buffer.length) (hl : Ascending (slice array start mid))
    (hr : Ascending (slice array mid end_)) :
    ∃ a' b', merge array buffer start mid end_ = .ok (a', b') ∧
      Ascending (slice a' start end_) := by
  refine ⟨_, _, merge_range array buffer start mid end_ hsm hme ha hb, ?_⟩
  rw [slice_splice array _ start end_ (by omega) ha (by
    rw [length_mergeList, length_slice array start mid hsm (by omega),
      length_slice array mid end_ hme ha]; omega)]
  exact ascending_mergeList _ _ hl hr

theorem merge_sorted_runs_witness :
    ∃ a' b', merge [7, 1, 4, 9, 2, 3, 0] [0, 0, 0, 0, 0, 0, 0] 1 4 6 = .ok (a', b') ∧
      Ascending (slice a' 1 6) :=
  merge_sorted_runs ([7, 1, 4, 9, 2, 3, 0] : List Nat) [0, 0, 0, 0, 0, 0, 0] 1 4 6 (by decide)
    (by decide) (by decide) (by decide) (by decide) (by decide)

/-- Claim C4: in a single `merge` call on two runs of which the left one is ascending (the
right one may be anything), the result is the stable left-biased merge of the two runs (the
left element is taken whenever `left <= right`), and for every value `v` the elements of the
output that compare equal to `v` are those of the left run, in their order, followed by
those of the right run, in their order: an element of the left run is placed before every
equal-valued element of the right run.  First part: `merge` of `mergesort.cpp`; second
part: `merge` of `mergesort.c` on two adjacent runs. -/
theorem merge_stable [DecidableRel ((· ≤ ·) : α → α → Prop)] [IsTotal α (· ≤ ·)] :
    (∀ (array buffer : List α) (start mid end_ : Nat), start ≤ mid → mid ≤ end_ →
      end_ ≤ array.length → end_ ≤ buffer.length → Ascending (slice array start mid) →
      ∃ a' b', merge array buffer start mid end_ = .ok (a', b') ∧
        slice a' start end_ = stableMerge (slice array start mid) (slice array mid end_) ∧
        ∀ v, equalTo v (slice a' start end_)
          = equalTo v (slice array start mid) ++ equalTo v (slice array mid end_)) ∧
    (∀ (blockA blockB : List α) (a a_n b_n buffer : Nat), a + a_n + b_n ≤ blockA.length →
      buffer + a_n + b_n ≤ blockB.length → sizeof_float * (a_n + b_n) < W →
      Ascending (slice blockA a (a + a_n)) →
      ∃ a' b', C.merge blockA blockB a a_n (a + a_n) b_n buffer = .ok (a', b') ∧
        slice a' a (a + a_n + b_n)
          = stableMerge (slice blockA a (a + a_n)) (slice blockA (a + a_n) (a + a_n + b_n)) ∧
        ∀ v, equalTo v (slice a' a (a + a_n + b_n))
          = equalTo v (slice blockA a (a + a_n))
            ++ equalTo v (slice blockA (a + a_n) (a + a_n + b_n))) := by
  constructor
  · intro array buffer start mid end_ hsm hme ha hb hl
    have hsl := slice_splice array
      (mergeList (slice array start mid) (slice array mid end_)) start end_ (by omega) ha (by
        rw [length_mergeList, length_slice array start mid hsm (by omega),
          length_slice array mid end_ hme ha]; omega)
    refine ⟨_, _, merge_range array buffer start mid end_ hsm hme ha hb, ?_, ?_⟩
    · rw [hsl]; exact mergeList_eq_stableMerge _ _
    · intro v
      rw [hsl]; exact equalTo_mergeList v _ _ hl
  · intro blockA blockB a a_n b_n buffer hA hB hw hl
    have hsl := slice_splice blockA
      (mergeList (slice blockA a (a + a_n)) (slice blockA (a + a_n) (a + a_n + b_n))) a
      (a + a_n + b_n) (by omega) hA (by
        rw [length_mergeList, length_slice blockA a (a + a_n) (by omega) (by omega),
          length_slice blockA (a + a_n) (a + a_n + b_n) (by omega) hA]; omega)
    refine ⟨_, _, C.merge_block blockA blockB a a_n b_n buffer hA hB hw, ?_, ?_⟩
    · rw [hsl]; exact mergeList_eq_stableMerge _ _
    · intro v
      rw [hsl]; exact equalTo_mergeList v _ _ hl

theorem merge_stable_witness :
    (∃ a' b', merge [⟨1, 10⟩, ⟨2, 11⟩, ⟨2, 12⟩, ⟨1, 20⟩, ⟨2, 21⟩, ⟨3, 22⟩]
        (List.replicate 6 (⟨0, 0⟩ : Keyed)) 0 3 6 = .ok (a', b') ∧
      slice a' 0 6 = stableMerge
        (slice [⟨1, 10⟩, ⟨2, 11⟩, ⟨2, 12⟩, ⟨1, 20⟩, ⟨2, 21⟩, ⟨3, 22⟩] 0 3)
        (slice [⟨1, 10⟩, ⟨2, 11⟩, ⟨2, 12⟩, ⟨1, 20⟩, ⟨2, 21⟩, ⟨3, 22⟩] 3 6) ∧
      ∀ v, equalTo v (slice a' 0 6)
        = equalTo v (slice [⟨1, 10⟩, ⟨2, 11⟩, ⟨2, 12⟩, ⟨1, 20⟩, ⟨2, 21⟩, ⟨3, 22⟩] 0 3)
          ++ equalTo v (slice [⟨1, 10⟩, ⟨2, 11⟩, ⟨2, 12⟩, ⟨1, 20⟩, ⟨2, 21⟩, ⟨3, 22⟩] 3 6)) ∧
    (∃ a' b', C.merge [⟨9, 0⟩, ⟨1, 10⟩, ⟨2, 11⟩, ⟨1, 20⟩, ⟨2, 21⟩]
        (List.replicate 5 (⟨0, 0⟩ : Keyed)) 1 2 (1 + 2) 2 0 = .ok (a', b') ∧
      slice a' 1 (1 + 2 + 2) = stableMerge
        (slice [⟨9, 0⟩, ⟨1, 10⟩, ⟨2, 11⟩, ⟨1, 20⟩, ⟨2, 21⟩] 1 (1 + 2))
        (slice [⟨9, 0⟩, ⟨1, 10⟩, ⟨2, 11⟩, ⟨1, 20⟩, ⟨2, 21⟩] (1 + 2) (1 + 2 + 2)) ∧
      ∀ v, equalTo v (slice a' 1 (1 + 2 + 2))
        = equalTo v (slice [⟨9, 0⟩, ⟨1, 10⟩, ⟨2, 11⟩, ⟨1, 20⟩, ⟨2, 21⟩] 1 (1 + 2))
          ++ equalTo v
            (slice [⟨9, 0⟩, ⟨1, 10⟩, ⟨2, 11⟩, ⟨1, 20⟩, ⟨2, 21⟩] (1 + 2) (1 + 2 + 2))) :=
  ⟨(@merge_stable Keyed _ _ _ _).1 [⟨1, 10⟩, ⟨2, 11⟩, ⟨2, 12⟩, ⟨1, 20⟩, ⟨2, 21⟩, ⟨3, 22⟩]
      (List.replicate 6 ⟨0, 0⟩) 0 3 6 (by decide) (by decide) (by decide) (by decide)
      (by decide),
    (@merge_stable Keyed _ _ _ _).2 [⟨9, 0⟩, ⟨1, 10⟩, ⟨2, 11⟩, ⟨1, 20⟩, ⟨2, 21⟩]
      (List.replicate 5 ⟨0, 0⟩) 1 2 2 0 (by decide) (by decide) (by decide) (by decide)⟩

end

end Cpp

/-! ## The claims about the pointer-based engine (`mergesort.c`) and both engines -/

namespace C

section
variable [Preorder α] [DecidableRel ((· < ·) : α → α → Prop)]

/-- Claim C2: the multiset of the elements after the sequential sort equals the multiset
before it, for the `n` elements at `array` and for the whole block: whenever
`mergesort(array, buffer, n)` returns, no element has been dropped, duplicated or invented.
For `n >= 1` the call does return. -/
theorem mergesort_preserves_multiset (blockA blockB : List α) (array buffer n : Nat)
    (hA : array + n ≤ blockA.length) (hB : buffer + n ≤ blockB.length)
    (hw : sizeof_float * n < W) :
    (1 ≤ n → ∃ fuel a' b', mergesort fuel blockA blockB array buffer n = .ok (a', b')) ∧
    ∀ fuel a' b', mergesort fuel blockA blockB array buffer n = .ok (a', b') →
      (↑(slice a' array (array + n)) : Multiset α) = ↑(slice blockA array (array + n)) ∧
      (↑a' : Multiset α) = ↑blockA := by
  refine ⟨fun hn => ⟨_, _, _, mergesort_block_returns blockA blockB array buffer n hA hB hw hn⟩, ?_⟩
  intro fuel a' b' h
  obtain ⟨_, ha', _⟩ := mergesort_block_result fuel blockA blockB array buffer n a' b' hA hB hw h
  obtain ⟨hsplit, _, hlen⟩ := split_at_range blockA array (array + n) (by omega) hA
  have hmlen : (msort (slice blockA array (array + n))).length = array + n - array := by
    rw [length_msort, hlen]
  have hsl : slice a' array (array + n) = msort (slice blockA array (array + n)) := by
    rw [ha']; exact slice_splice blockA _ array (array + n) (by omega) hA hmlen
  refine ⟨?_, ?_⟩
  · rw [hsl]; exact Multiset.coe_eq_coe.mpr (msort_perm _)
  · rw [ha']
    apply Multiset.coe_eq_coe.mpr
    have hp : (blockA.take array ++ msort (slice blockA array (array + n))
        ++ blockA.drop (array + n)).Perm
        (blockA.take array ++ slice blockA array (array + n) ++ blockA.drop (array + n)) :=
      List.Perm.append_right _ (List.Perm.append_left _ (msort_perm _))
    rwa [← hsplit] at hp

theorem mergesort_preserves_multiset_witness :
    (1 ≤ 6 → ∃ fuel a' b',
      mergesort fuel [5, 3, 8, 1, 9, 2] [0, 0, 0, 0, 0, 0] 0 0 6 = .ok (a', b')) ∧
    ∀ fuel a' b', mergesort fuel [5, 3, 8, 1, 9, 2] [0, 0, 0, 0, 0, 0] 0 0 6 = .ok (a', b') →
      (↑(slice a' 0 (0 + 6)) : Multiset Nat) = ↑(slice [5, 3, 8, 1, 9, 2] 0 (0 + 6)) ∧
      (↑a' : Multiset Nat) = ↑[5, 3, 8, 1, 9, 2] :=
  mergesort_preserves_multiset ([5, 3, 8, 1, 9, 2] : List Nat) [0, 0, 0, 0, 0, 0] 0 0 6
    (by decide) (by decide) (by decide)

end

/-- Claim C5, at the input that refutes it: on the single-element array `[7]` the
sequential strategy returns the array unchanged, while the parallel strategy
`mergesort_parallel(array, buffer, 1)` never returns (it calls `mergesort` with `n = 0`), so
the two strategies do not produce identical outputs. -/
theorem strategies_differ_on_singleton :
    mergesort 1 ([7] : List Nat) [0] 0 0 1 = .ok ([7], [0]) ∧
    ∀ fuel, mergesort_parallel fuel ([7] : List Nat) [0] 0 0 1 = .error .outOfFuel :=
  ⟨rfl, fun fuel => mergesort_parallel_small MIN_PARALLEL_N fuel [7] [0] 0 0 1 (by decide)⟩

/-- Claim C6, at the inputs that refute it: on the empty array the top-level sort never
completes, neither `mergesort(array, buffer, 0)` nor `mergesort_parallel(array, buffer, 0)`
of the C program nor `mergesort(array)` of the C++ program.  The example of the claim does
hold: the sequential strategy turns `[5, 3, 8, 1, 9, 2]` into `[1, 2, 3, 5, 8, 9]`. -/
theorem sort_of_empty_array_never_completes :
    (∀ fuel, mergesort fuel ([] : List Nat) [] 0 0 0 = .error .outOfFuel) ∧
    (∀ fuel, mergesort_parallel fuel ([] : List Nat) [] 0 0 0 = .error .outOfFuel) ∧
    (∀ fuel, Cpp.mergesort_init fuel ([] : List Nat) = .error .outOfFuel) ∧
    mergesort 6 [5, 3, 8, 1, 9, 2] [0, 0, 0, 0, 0, 0] 0 0 6
      = .ok ([1, 2, 3, 5, 8, 9], [1, 2, 3, 5, 8, 9]) ∧
    Cpp.mergesort_init 6 [5, 3, 8, 1, 9, 2] = .ok [1, 2, 3, 5, 8, 9] := by
  refine ⟨fun fuel => mergesort_zero fuel [] [] 0 0,
    fun fuel => mergesort_parallel_small MIN_PARALLEL_N fuel [] [] 0 0 0 (by decide),
    fun fuel => ?_, rfl, rfl⟩
  simp only [Cpp.mergesort_init, List.length_nil, List.replicate_zero,
    Cpp.mergesort_empty_range fuel [] [] 0 (by decide)]
  rfl

/-- Claim C7, at the input that refutes it: a range of length `1` makes the sequential
`mergesort` return at once with vector and buffer untouched, in both programs; a range of
length `0`, in particular the empty array, makes it recurse for ever. -/
theorem mergesort_base_case_misses_empty_range :
    mergesort 1 [5, 3, 8] [0, 0, 0] 1 1 1 = .ok ([5, 3, 8], [0, 0, 0]) ∧
    Cpp.mergesort 1 [5, 3, 8] [0, 0, 0] 1 2 = .ok ([5, 3, 8], [0, 0, 0]) ∧
    (∀ fuel, mergesort fuel ([] : List Nat) [] 0 0 0 = .error .outOfFuel) ∧
    (∀ fuel, Cpp.mergesort fuel ([] : List Nat) [] 0 0 = .error .outOfFuel) ∧
    (∀ fuel, mergesort fuel [5, 3, 8] [0, 0, 0] 1 1 0 = .error .outOfFuel) ∧
    (∀ fuel, Cpp.mergesort fuel [5, 3, 8] [0, 0, 0] 1 1 = .error .outOfFuel) :=
  ⟨rfl, rfl, fun fuel => mergesort_zero fuel [] [] 0 0,
    fun fuel => Cpp.mergesort_empty_range fuel [] [] 0 (by decide),
    fun fuel => mergesort_zero fuel _ _ 1 1,
    fun fuel => Cpp.mergesort_empty_range fuel _ _ 1 (by decide)⟩

/-- Claim C8, at the inputs that refute it: for every single-element array the sequential
strategy returns the array unchanged, and the parallel strategy
`mergesort_parallel(array, buffer, 1)` never returns. -/
theorem mergesort_parallel_singleton_never_returns (x y : Nat) :
    (∀ fuel, mergesort_parallel fuel [x] [y] 0 0 1 = .error .outOfFuel) ∧
    mergesort 1 [x] [y] 0 0 1 = .ok ([x], [y]) :=
  ⟨fun fuel => mergesort_parallel_small MIN_PARALLEL_N fuel [x] [y] 0 0 1 (by decide), rfl⟩

/-- Claim C9, at the input that refutes it: with the Granularity Threshold at `1` the
parallel strategy does not return on `[5, 3, 8, 1, 9, 2]`, which the sequential strategy
sorts to `[1, 2, 3, 5, 8, 9]`, and it returns on no other array either: `mergesort_parallel`
has no base case, so every call spawns itself on `n / 2` down to the length `0` and hands
that to `mergesort`, which does not return for `n = 0`.  With the constant `10^6` of the
source the missing base case shows on the arrays of length `1`. -/
theorem parallel_threshold_one_never_returns :
    (∀ fuel, mergesort_parallel_with 1 fuel ([5, 3, 8, 1, 9, 2] : List Nat)
      [0, 0, 0, 0, 0, 0] 0 0 6 = .error .outOfFuel) ∧
    mergesort 6 ([5, 3, 8, 1, 9, 2] : List Nat) [0, 0, 0, 0, 0, 0] 0 0 6
      = .ok ([1, 2, 3, 5, 8, 9], [1, 2, 3, 5, 8, 9]) ∧
    (∀ (fuel : Nat) (blockA blockB : List Nat) (array buffer n : Nat),
      mergesort_parallel_with 1 fuel blockA blockB array buffer n = .error .outOfFuel) ∧
    (∀ fuel, mergesort_parallel fuel ([7] : List Nat) [0] 0 0 1 = .error .outOfFuel) ∧
    mergesort 1 ([7] : List Nat) [0] 0 0 1 = .ok ([7], [0]) :=
  ⟨fun fuel => mergesort_parallel_threshold_one fuel _ _ 0 0 6, rfl,
    fun fuel blockA blockB array buffer n =>
      mergesort_parallel_threshold_one fuel blockA blockB array buffer n,
    fun fuel => mergesort_parallel_small MIN_PARALLEL_N fuel [7] [0] 0 0 1 (by decide), rfl⟩

section
variable [Preorder α] [DecidableRel ((· < ·) : α → α → Prop)]

/-- What the code does when the threshold is a parameter `T >= 4` (the source has `10^6`):
on every array of `n >= 2` elements `mergesort_parallel` returns, and what it leaves in the
two blocks is what the sequential `mergesort` leaves; each of the two returns the same result
with any fuel with which it returns.  With the threshold `4` (tasks are spawned for the whole
array) the input `[5, 3, 8, 1, 9, 2]` yields `[1, 2, 3, 5, 8, 9]`. -/
theorem parallel_eq_sequential_of_threshold (T : Nat) (blockA blockB : List α)
    (array buffer n : Nat) (hT : 4 ≤ T) (hn : 2 ≤ n) (hA : array + n ≤ blockA.length)
    (hB : buffer + n ≤ blockB.length) (hw : sizeof_float * n < W) :
    (∃ a' b', mergesort_parallel_with T n blockA blockB array buffer n = .ok (a', b') ∧
      mergesort n blockA blockB array buffer n = .ok (a', b') ∧
      (∀ fuel r, mergesort_parallel_with T fuel blockA blockB array buffer n = .ok r →
        r = (a', b')) ∧
      (∀ fuel r, mergesort fuel blockA blockB array buffer n = .ok r → r = (a', b'))) ∧
    mergesort_parallel_with 4 6 ([5, 3, 8, 1, 9, 2] : List Nat) [0, 0, 0, 0, 0, 0] 0 0 6
      = .ok ([1, 2, 3, 5, 8, 9], [1, 2, 3, 5, 8, 9]) := by
  refine ⟨⟨_, _, (mergesort_parallel_block T n blockA blockB array buffer n hA hB hw).1 hn
    (Or.inl hT) (Nat.le_refl _), ?_, ?_, ?_⟩, rfl⟩
  · have h := mergesort_block_returns blockA blockB array buffer n hA hB hw (by omega)
    rw [if_neg (by omega)] at h
    exact h
  · intro fuel r h
    obtain ⟨a', b'⟩ := r
    obtain ⟨_, h1, h2⟩ :=
      mergesort_parallel_result T fuel blockA blockB array buffer n a' b' hA hB hw h
    rw [h1, h2]
  · intro fuel r h
    obtain ⟨a', b'⟩ := r
    obtain ⟨_, h1, h2⟩ := mergesort_block_result fuel blockA blockB array buffer n a' b' hA hB hw h
    rw [h1, h2, if_neg (by omega)]

theorem parallel_eq_sequential_of_threshold_witness :
    (∃ a' b', mergesort_parallel_with 4 6 [5, 3, 8, 1, 9, 2] [0, 0, 0, 0, 0, 0] 0 0 6
        = .ok (a', b') ∧
      mergesort 6 [5, 3, 8, 1, 9, 2] [0, 0, 0, 0, 0, 0] 0 0 6 = .ok (a', b') ∧
      (∀ fuel r, mergesort_parallel_with 4 fuel [5, 3, 8, 1, 9, 2] [0, 0, 0, 0, 0, 0] 0 0 6
        = .ok r → r = (a', b')) ∧
      (∀ fuel r, mergesort fuel [5, 3, 8, 1, 9, 2] [0, 0, 0, 0, 0, 0] 0 0 6 = .ok r →
        r = (a', b'))) ∧
    mergesort_parallel_with 4 6 ([5, 3, 8, 1, 9, 2] : List Nat) [0, 0, 0, 0, 0, 0] 0 0 6
      = .ok ([1, 2, 3, 5, 8, 9], [1, 2, 3, 5, 8, 9]) :=
  parallel_eq_sequential_of_threshold 4 ([5, 3, 8, 1, 9, 2] : List Nat) [0, 0, 0, 0, 0, 0]
    0 0 6 (by decide) (by decide) (by decide) (by decide) (by decide)

end

end C

namespace Cpp

section
variable [Preorder α] [DecidableRel ((· < ·) : α → α → Prop)]

/-- Claim C10: if the elements at `[i_start, i_end)` are already ascending, then whenever
the sort of that range returns it has left the vector exactly as it was; on a non-empty
range it does return.  With `i_start = 0` and `i_end = array.size()` this is the sort of an
already sorted array. -/
theorem mergesort_sorted_unchanged (array buffer : List α) (i_start i_end : Nat)
    (hbuf : buffer.length = array.length) (hse : i_start ≤ i_end)
    (hend : i_end ≤ array.length) (hW : array.length < W)
    (hasc : Ascending (slice array i_start i_end)) :
    (i_start < i_end →
      ∃ fuel b', mergesort fuel array buffer i_start i_end = .ok (array, b')) ∧
    ∀ fuel a' b', mergesort fuel array buffer i_start i_end = .ok (a', b') → a' = array := by
  have hfix : array.take i_start ++ msort (slice array i_start i_end) ++ array.drop i_end
      = array := by
    rw [msort_of_ascending _ hasc]
    exact (split_at_range array i_start i_end hse hend).1.symm
  refine ⟨fun hlt => ?_, ?_⟩
  · have h := mergesort_returns array buffer i_start i_end hbuf hlt hend (by omega)
    rw [hfix] at h
    exact ⟨_, _, h⟩
  · intro fuel a' b' h
    obtain ⟨_, ha', _⟩ := mergesort_result fuel array buffer i_start i_end a' b' hbuf hse
      hend (by omega) h
    rw [ha', hfix]

theorem mergesort_sorted_unchanged_witness :
    (0 < 5 → ∃ fuel b', mergesort fuel [1, 2, 2, 5, 9] [0, 0, 0, 0, 0] 0 5
      = .ok ([1, 2, 2, 5, 9], b')) ∧
    ∀ fuel a' b', mergesort fuel [1, 2, 2, 5, 9] [0, 0, 0, 0, 0] 0 5 = .ok (a', b') →
      a' = [1, 2, 2, 5, 9] :=
  mergesort_sorted_unchanged ([1, 2, 2, 5, 9] : List Nat) [0, 0, 0, 0, 0] 0 5 (by decide)
    (by decide) (by decide) (by decide) (by decide)

end

end Cpp

/-! ## The claims on idempotence and on the frame of a call -/

namespace Cpp

section
variable [Preorder α] [DecidableRel ((· < ·) : α → α → Prop)]

/-- Claim C11: sorting a vector and then sorting the result again yields the sequence that
sorting once yields: whenever `mergesort(array)` returns `a'` and `mergesort(a')` returns
`a''`, then `a'' = a'`.  On a non-empty vector both sorts do return. -/
theorem mergesort_init_idempotent [IsTotal α (· ≤ ·)] [Zero α] (array : List α)
    (hW : array.length < W) :
    (1 ≤ array.length →
      ∃ fuel a', mergesort_init fuel array = .ok a' ∧ mergesort_init fuel a' = .ok a') ∧
    ∀ fuel1 fuel2 a' a'', mergesort_init fuel1 array = .ok a' →
      mergesort_init fuel2 a' = .ok a'' → a'' = a' := by
  have hfix : msort (msort array) = msort array :=
    msort_of_ascending _ (ascending_msort array)
  refine ⟨fun h1 => ⟨array.length, msort array, mergesort_init_returns array h1 hW, ?_⟩, ?_⟩
  · have h := mergesort_init_returns (msort array) (by rw [length_msort]; exact h1)
      (by rw [length_msort]; exact hW)
    rw [length_msort, hfix] at h
    exact h
  · intro fuel1 fuel2 a' a'' h1 h2
    obtain ⟨_, ha'⟩ := mergesort_init_result fuel1 array a' hW h1
    obtain ⟨_, ha''⟩ := mergesort_init_result fuel2 a' a''
      (by rw [ha', length_msort]; exact hW) h2
    rw [ha'', ha', hfix]

theorem mergesort_init_idempotent_witness :
    (1 ≤ ([5, 3, 8, 1, 9, 2] : List Nat).length →
      ∃ fuel a', mergesort_init fuel ([5, 3, 8, 1, 9, 2] : List Nat) = .ok a' ∧
        mergesort_init fuel a' = .ok a') ∧
    ∀ fuel1 fuel2 a' a'', mergesort_init fuel1 ([5, 3, 8, 1, 9, 2] : List Nat) = .ok a' →
      mergesort_init fuel2 a' = .ok a'' → a'' = a' :=
  mergesort_init_idempotent ([5, 3, 8, 1, 9, 2] : List Nat) (by decide)

/-- Claim C12: a call responsible for `[start, end)` changes no element of the vector and
no element of the buffer at an index outside `[start, end)`.  First part: `merge` of
`mergesort.cpp`.  Second part: `mergesort` of `mergesort.cpp`.  Third part: the two sibling
calls of `mergesort`: the call on `[start, mid)` changes nothing at `[mid, end)` and the
call on `[mid, end)`, started on whatever the first call left, changes nothing at
`[start, mid)`.  Fourth part: `mergesort_parallel` of `mergesort.c`, responsible for the
`n` elements at `array` in one block and at `buffer` in the other. -/
theorem call_changes_nothing_outside_its_range :
    (∀ (array buffer : List α) (start mid end_ : Nat), start ≤ mid → mid ≤ end_ →
      end_ ≤ array.length → end_ ≤ buffer.length →
      ∃ a' b', merge array buffer start mid end_ = .ok (a', b') ∧
        SameOutside array a' start end_ ∧ SameOutside buffer b' start end_) ∧
    (∀ (array buffer : List α) (i_start i_end : Nat), buffer.length = array.length →
      i_start ≤ i_end → i_end ≤ array.length → array.length < W →
      ∀ fuel a' b', mergesort fuel array buffer i_start i_end = .ok (a', b') →
        SameOutside array a' i_start i_end ∧ SameOutside buffer b' i_start i_end) ∧
    (∀ (array buffer : List α) (start mid end_ : Nat), buffer.length = array.length →
      start ≤ mid → mid ≤ end_ → end_ ≤ array.length → array.length < W →
      ∀ fuel a1 b1 a2 b2, mergesort fuel array buffer start mid = .ok (a1, b1) →
        mergesort fuel a1 b1 mid end_ = .ok (a2, b2) →
        (∀ i, mid ≤ i → i < end_ → a1[i]? = array[i]? ∧ b1[i]? = buffer[i]?) ∧
        (∀ i, start ≤ i → i < mid → a2[i]? = a1[i]? ∧ b2[i]? = b1[i]?)) ∧
    (∀ (blockA blockB : List α) (array buffer n : Nat), array + n ≤ blockA.length →
      buffer + n ≤ blockB.length → sizeof_float * n < W →
      ∀ fuel a' b', C.mergesort_parallel fuel blockA blockB array buffer n = .ok (a', b') →
        SameOutside blockA a' array (array + n) ∧
        SameOutside blockB b' buffer (buffer + n)) := by
  have hsort : ∀ (array buffer : List α) (i_start i_end : Nat),
      buffer.length = array.length → i_start ≤ i_end → i_end ≤ array.length →
      array.length < W →
      ∀ fuel a' b', mergesort fuel array buffer i_start i_end = .ok (a', b') →
        SameOutside array a' i_start i_end ∧ SameOutside buffer b' i_start i_end := by
    intro array buffer i_start i_end hbuf hse hend hW fuel a' b' h
    obtain ⟨_, ha', hb'⟩ := mergesort_result fuel array buffer i_start i_end a' b' hbuf hse
      hend (by omega) h
    have hS := length_slice array i_start i_end hse hend
    have hY := length_slice buffer i_start i_end hse (by omega)
    rw [ha', hb']
    refine ⟨sameOutside_splice array _ i_start i_end hse hend (by rw [length_msort, hS]),
      sameOutside_splice buffer _ i_start i_end hse (by omega) ?_⟩
    split
    · exact hY
    · rw [length_msort, hS]
  refine ⟨?_, hsort, ?_, ?_⟩
  · intro array buffer start mid end_ hsm hme ha hb
    have hlen : (mergeList (slice array start mid) (slice array mid end_)).length
        = end_ - start := by
      rw [length_mergeList, length_slice array start mid hsm (by omega),
        length_slice array mid end_ hme ha]
      omega
    exact ⟨_, _, merge_range array buffer start mid end_ hsm hme ha hb,
      sameOutside_splice array _ start end_ (by omega) ha hlen,
      sameOutside_splice buffer _ start end_ (by omega) hb hlen⟩
  · intro array buffer start mid end_ hbuf hsm hme hend hW fuel a1 b1 a2 b2 h1 h2
    obtain ⟨⟨hla, hA1⟩, ⟨hlb, hB1⟩⟩ :=
      hsort array buffer start mid hbuf hsm (by omega) hW fuel a1 b1 h1
    obtain ⟨⟨_, hA2⟩, ⟨_, hB2⟩⟩ :=
      hsort a1 b1 mid end_ (by omega) hme (by omega) (by omega) fuel a2 b2 h2
    exact ⟨fun i hi _ => ⟨hA1 i (Or.inr hi), hB1 i (Or.inr hi)⟩,
      fun i _ hi => ⟨hA2 i (Or.inl hi), hB2 i (Or.inl hi)⟩⟩
  · intro blockA blockB array buffer n hA hB hw fuel a' b' h
    obtain ⟨_, ha', hb'⟩ := C.mergesort_parallel_result C.MIN_PARALLEL_N fuel blockA blockB
      array buffer n a' b' hA hB hw h
    have hS : (msort (slice blockA array (array + n))).length = array + n - array := by
      rw [length_msort, length_slice blockA array (array + n) (by omega) hA]
    have hS' : (msort (slice blockA array (array + n))).length = buffer + n - buffer := by
      rw [hS]; omega
    rw [ha', hb']
    exact ⟨sameOutside_splice blockA _ array (array + n) (by omega) hA hS,
      sameOutside_splice blockB _ buffer (buffer + n) (by omega) hB hS'⟩

theorem call_changes_nothing_outside_its_range_witness :
    (∃ a' b', merge ([7, 1, 4, 9, 2, 3, 0] : List Nat) [0, 0, 0, 0, 0, 0, 0] 1 4 6
        = .ok (a', b') ∧
      SameOutside [7, 1, 4, 9, 2, 3, 0] a' 1 6 ∧ SameOutside [0, 0, 0, 0, 0, 0, 0] b' 1 6) ∧
    (∀ fuel a' b', mergesort fuel ([5, 3, 8, 1, 9, 2] : List Nat) [0, 0, 0, 0, 0, 0] 1 5
        = .ok (a', b') →
      SameOutside [5, 3, 8, 1, 9, 2] a' 1 5 ∧ SameOutside [0, 0, 0, 0, 0, 0] b' 1 5) ∧
    (∀ fuel a1 b1 a2 b2,
      mergesort fuel ([5, 3, 8, 1, 9, 2] : List Nat) [0, 0, 0, 0, 0, 0] 0 3 = .ok (a1, b1) →
      mergesort fuel a1 b1 3 6 = .ok (a2, b2) →
      (∀ i, 3 ≤ i → i < 6 → a1[i]? = ([5, 3, 8, 1, 9, 2] : List Nat)[i]? ∧
        b1[i]? = ([0, 0, 0, 0, 0, 0] : List Nat)[i]?) ∧
      (∀ i, 0 ≤ i → i < 3 → a2[i]? = a1[i]? ∧ b2[i]? = b1[i]?)) ∧
    (∀ fuel a' b',
      C.mergesort_parallel fuel ([5, 3, 8, 1, 9, 2] : List Nat) [0, 0, 0, 0, 0, 0] 1 2 4
        = .ok (a', b') →
      SameOutside [5, 3, 8, 1, 9, 2] a' 1 (1 + 4) ∧
      SameOutside [0, 0, 0, 0, 0, 0] b' 2 (2 + 4)) :=
  ⟨(@call_changes_nothing_outside_its_range Nat _ _).1 [7, 1, 4, 9, 2, 3, 0]
      [0, 0, 0, 0, 0, 0, 0] 1 4 6 (by decide) (by decide) (by decide) (by decide),
    (@call_changes_nothing_outside_its_range Nat _ _).2.1 [5, 3, 8, 1, 9, 2]
      [0, 0, 0, 0, 0, 0] 1 5 (by decide) (by decide) (by decide) (by decide),
    (@call_changes_nothing_outside_its_range Nat _ _).2.2.1 [5, 3, 8, 1, 9, 2]
      [0, 0, 0, 0, 0, 0] 0 3 6 (by decide) (by decide) (by decide) (by decide) (by decide),
    (@call_changes_nothing_outside_its_range Nat _ _).2.2.2 [5, 3, 8, 1, 9, 2]
      [0, 0, 0, 0, 0, 0] 1 2 4 (by decide) (by decide) (by decide)⟩

/-- Claim C13: for a vector of length `n` with an equally long buffer, every call that the
top-level sort over `[0, n)` issues has a well-formed range (`start <= mid <= end <= n`),
every `merge` call with such a range returns, and no run of a sort with such a range takes
the out-of-bounds branch: every index read or written is below `n`.  First part:
`mergesort.cpp`.  Second part: `mergesort.c`, both strategies, where a range is given by a
pointer into a block of `n` elements and a length. -/
theorem sort_stays_in_bounds :
    (∀ (array buffer : List α), buffer.length = array.length → array.length < W →
      (∀ c, Reaches (.mergesort 0 array.length) c → WellFormed array.length c) ∧
      (∀ (a b : List α) (start mid end_ : Nat), a.length = array.length →
        b.length = array.length → WellFormed array.length (.merge start mid end_) →
        ∃ r, merge a b start mid end_ = .ok r) ∧
      (∀ (a b : List α) (i_start i_end fuel : Nat), a.length = array.length →
        b.length = array.length → WellFormed array.length (.mergesort i_start i_end) →
        mergesort fuel a b i_start i_end ≠ .error .outOfBounds) ∧
      (∀ fuel, mergesort fuel array buffer 0 array.length ≠ .error .outOfBounds)) ∧
    (∀ (blockA blockB : List α) (n : Nat), blockA.length = n → blockB.length = n →
      sizeof_float * n < W →
      (∀ c, C.Reaches C.MIN_PARALLEL_N (.mergesort 0 0 n) c → C.WellFormed n c) ∧
      (∀ c, C.Reaches C.MIN_PARALLEL_N (.mergesort_parallel 0 0 n) c → C.WellFormed n c) ∧
      (∀ (A B : List α) (a a_n b b_n buffer : Nat), A.length = n → B.length = n →
        C.WellFormed n (.merge a a_n b b_n buffer) →
        ∃ r, C.merge A B a a_n b b_n buffer = .ok r) ∧
      (∀ (A B : List α) (array buffer m fuel : Nat), A.length = n → B.length = n →
        C.WellFormed n (.mergesort array buffer m) →
        C.mergesort fuel A B array buffer m ≠ .error .outOfBounds ∧
        C.mergesort_parallel fuel A B array buffer m ≠ .error .outOfBounds) ∧
      (∀ fuel, C.mergesort fuel blockA blockB 0 0 n ≠ .error .outOfBounds ∧
        C.mergesort_parallel fuel blockA blockB 0 0 n ≠ .error .outOfBounds)) := by
  constructor
  · intro array buffer hbuf hW
    refine ⟨fun c h => wellFormed_of_reaches array.length hW c h, ?_, ?_, ?_⟩
    · intro a b start mid end_ ha hb hwf
      obtain ⟨h1, h2, h3⟩ := hwf
      exact ⟨_, merge_range a b start mid end_ h1 h2 (by omega) (by omega)⟩
    · intro a b i_start i_end fuel ha hb hwf
      obtain ⟨h1, h2⟩ := hwf
      exact mergesort_in_bounds fuel a b i_start i_end (by omega) h1 (by omega) (by omega)
    · intro fuel
      exact mergesort_in_bounds fuel array buffer 0 array.length hbuf (Nat.zero_le _)
        (Nat.le_refl _) hW
  · intro blockA blockB n hA hB hw
    have hw4 : 4 * n < W := by simpa only [sizeof_float] using hw
    have hs : C.WellFormed n (.mergesort 0 0 n) := ⟨by omega, by omega⟩
    have hp : C.WellFormed n (.mergesort_parallel 0 0 n) := ⟨by omega, by omega⟩
    refine ⟨fun c h => C.wellFormed_of_reaches_from _ n _ c hs h,
      fun c h => C.wellFormed_of_reaches_from _ n _ c hp h, ?_, ?_, ?_⟩
    · intro A B a a_n b b_n buffer hAl hBl hwf
      obtain ⟨h1, h2, h3⟩ := hwf
      subst h1
      exact ⟨_, C.merge_block A B a a_n b_n buffer (by omega) (by omega)
        (by simp only [sizeof_float]; omega)⟩
    · intro A B array buffer m fuel hAl hBl hwf
      obtain ⟨h1, h2⟩ := hwf
      have hwm : sizeof_float * m < W := by simp only [sizeof_float]; omega
      exact ⟨C.mergesort_block_in_bounds fuel A B array buffer m (by omega) (by omega) hwm,
        C.mergesort_parallel_in_bounds _ fuel A B array buffer m (by omega) (by omega) hwm⟩
    · intro fuel
      exact ⟨C.mergesort_block_in_bounds fuel blockA blockB 0 0 n (by omega) (by omega) hw,
        C.mergesort_parallel_in_bounds _ fuel blockA blockB 0 0 n (by omega) (by omega) hw⟩

theorem sort_stays_in_bounds_witness :
    ((∀ c, Reaches (.mergesort 0 ([5, 3, 8, 1, 9, 2] : List Nat).length) c →
        WellFormed ([5, 3, 8, 1, 9, 2] : List Nat).length c) ∧
      (∀ fuel, mergesort fuel ([5, 3, 8, 1, 9, 2] : List Nat) [0, 0, 0, 0, 0, 0] 0
        ([5, 3, 8, 1, 9, 2] : List Nat).length ≠ .error .outOfBounds)) ∧
    ((∀ c, C.Reaches C.MIN_PARALLEL_N (.mergesort_parallel 0 0 6) c → C.WellFormed 6 c) ∧
      (∀ fuel,
        C.mergesort fuel ([5, 3, 8, 1, 9, 2] : List Nat) [0, 0, 0, 0, 0, 0] 0 0 6
          ≠ .error .outOfBounds ∧
        C.mergesort_parallel fuel ([5, 3, 8, 1, 9, 2] : List Nat) [0, 0, 0, 0, 0, 0] 0 0 6
          ≠ .error .outOfBounds)) :=
  ⟨⟨((@sort_stays_in_bounds Nat _ _).1 [5, 3, 8, 1, 9, 2] [0, 0, 0, 0, 0, 0] (by decide)
        (by decide)).1,
      ((@sort_stays_in_bounds Nat _ _).1 [5, 3, 8, 1, 9, 2] [0, 0, 0, 0, 0, 0] (by decide)
        (by decide)).2.2.2⟩,
    ⟨((@sort_stays_in_bounds Nat _ _).2 [5, 3, 8, 1, 9, 2] [0, 0, 0, 0, 0, 0] 6 (by decide)
        (by decide) (by decide)).2.1,
      ((@sort_stays_in_bounds Nat _ _).2 [5, 3, 8, 1, 9, 2] [0, 0, 0, 0, 0, 0] 6 (by decide)
        (by decide) (by decide)).2.2.2.2⟩⟩

end

end Cpp

/-! ## The claims on `main`, on the split and on degenerate merges -/

namespace C

theorem except_bind_ok {ε β γ : Type} (x : Except ε β) (f : β → Except ε γ) (r : γ)
    (h : (x >>= f) = .ok r) : ∃ a, x = .ok a ∧ f a = .ok r := by
  cases x with
  | error e => cases h
  | ok a => exact ⟨a, rfl, h⟩

set_option maxRecDepth 8000

/-- Claim C14 as stated is false: on the command line `./mergesort x` the selector `x` is
none of the two recognised values, and `main` returns `CODE_WRONG_NUM_ARGUMENTS_ERROR`,
which is not `CODE_BAD_STRATEGY`, because the check `argc < 3` comes first.  And on a
command line whose program name has 200 bytes the `sprintf` into `usage[300]`, which comes
before both checks, writes 324 bytes: the run leaves the array `usage` and returns
nothing. -/
theorem main_bad_selector_counterexample :
    main 0 (⟨fun _ => 0, 0, fun _ _ => 0, fun _ _ => true, fun _ _ => 0⟩ : Env Nat)
        ["./mergesort", "x"]
      = .ok ⟨CODE_WRONG_NUM_ARGUMENTS_ERROR, []⟩ ∧
    CODE_WRONG_NUM_ARGUMENTS_ERROR ≠ CODE_BAD_STRATEGY ∧
    usage_bytes (String.mk (List.replicate 200 'a')) = 324 ∧
    main 0 (⟨fun _ => 0, 0, fun _ _ => 0, fun _ _ => true, fun _ _ => 0⟩ : Env Nat)
        [String.mk (List.replicate 200 'a'), "x", "6"]
      = .error .outOfBounds :=
  ⟨rfl, by decide, rfl, rfl⟩

section
variable [Preorder α] [DecidableRel ((· < ·) : α → α → Prop)]

/-- Claim C14, amended: on a command line with at least a strategy and a length argument
(`argc >= 3`) whose program name is short enough for the usage text to fit the array
`usage[300]`, a strategy selector other than `"p"` and `"s"` makes `main` return
`CODE_BAD_STRATEGY` with no event before the return: no `malloc` and no sort, whatever the
library would hand back and with any bound on the recursion.  With the selector `"p"` or
`"s"` no run of `main` returns `CODE_BAD_STRATEGY`. -/
theorem main_strategy_check (fuel : Nat) (env : Env α) (argv : List String) :
    (3 ≤ argv.length → usage_bytes (argv.getD 0 "") ≤ 300 →
      argv.getD 1 "" ≠ "p" → argv.getD 1 "" ≠ "s" →
      main fuel env argv = .ok ⟨CODE_BAD_STRATEGY, []⟩) ∧
    (argv.getD 1 "" = "p" ∨ argv.getD 1 "" = "s" →
      ∀ r, main fuel env argv = .ok r → r.code ≠ CODE_BAD_STRATEGY) := by
  have hs_ne_p : ¬ ("s" : String) = "p" := by decide
  have h1 : CODE_WRONG_NUM_ARGUMENTS_ERROR ≠ CODE_BAD_STRATEGY := by decide
  have h0 : (0 : Int) ≠ CODE_BAD_STRATEGY := by decide
  refine ⟨?_, ?_⟩
  · intro h3 hfit hp hs
    have hargc : ¬ argv.length < 3 := by omega
    cases argv with
    | nil => simp at h3
    | cons argv0 rest =>
      simp only [List.getD_cons_zero] at hfit
      simp only [main, List.getElem?_cons_zero, hfit, not_true_eq_false, if_false, hargc, hp,
        hs, ne_eq, not_false_eq_true, and_self, if_true]
  · intro hsel r h
    have hno : ¬ (argv.getD 1 "" ≠ "p" ∧ argv.getD 1 "" ≠ "s") := by
      rintro ⟨h1, h2⟩
      rcases hsel with h | h
      · exact h1 h
      · exact h2 h
    cases hargv : argv[0]? with
    | none =>
      simp only [main, hargv] at h
      cases h
    | some argv0 =>
      simp only [main, hargv] at h
      by_cases hfit : usage_bytes argv0 ≤ 300
      · rw [if_neg (not_not_intro hfit)] at h
        by_cases hargc : argv.length < 3
        · rw [if_pos hargc] at h
          injection h with h
          subst h
          exact h1
        · rw [if_neg hargc, if_neg hno] at h
          obtain ⟨_, _, h⟩ := except_bind_ok _ _ _ h
          obtain ⟨_, _, h⟩ := except_bind_ok _ _ _ h
          obtain ⟨_, _, h⟩ := except_bind_ok _ _ _ h
          obtain ⟨_, _, h⟩ := except_bind_ok _ _ _ h
          injection h with h
          subst h
          exact h0
      · rw [if_pos hfit] at h
        cases h

theorem main_strategy_check_witness :
    main 6 (⟨fun s => if s = "6" then 6 else 0, 0, fun _ i => [5, 3, 8, 1, 9, 2].getD i 0,
          fun _ _ => true, fun _ _ => 0⟩ : Env Nat) ["./mergesort", "x", "6"]
        = .ok ⟨CODE_BAD_STRATEGY, []⟩ ∧
    (∀ r, main 6 (⟨fun s => if s = "6" then 6 else 0, 0,
          fun _ i => [5, 3, 8, 1, 9, 2].getD i 0, fun _ _ => true, fun _ _ => 0⟩ : Env Nat)
        ["./mergesort", "s", "6"] = .ok r → r.code ≠ CODE_BAD_STRATEGY) ∧
    main 6 (⟨fun s => if s = "6" then 6 else 0, 0, fun _ i => [5, 3, 8, 1, 9, 2].getD i 0,
          fun _ _ => true, fun _ _ => 0⟩ : Env Nat) ["./mergesort", "s", "6"]
        = .ok ⟨0, [.malloc 24, .malloc 24, .sort (.mergesort 0 0 6), .result true, .free,
            .free]⟩ :=
  ⟨(main_strategy_check 6 _ ["./mergesort", "x", "6"]).1 (by decide) (by decide) (by decide)
      (by decide),
    (main_strategy_check 6 _ ["./mergesort", "s", "6"]).2 (Or.inr (by decide)), rfl⟩

/-- With the length argument `0` and a recognised selector `main` does not reach the sort:
the condition of the re-roll loop calls `array_is_ordered(array, 0)`, which reads `array[0]`
of a block without cells. -/
theorem main_empty_array (fuel : Nat) (env : Env α) (argv : List String)
    (h3 : 3 ≤ argv.length) (hfit : usage_bytes (argv.getD 0 "") ≤ 300)
    (hsel : argv.getD 1 "" = "p" ∨ argv.getD 1 "" = "s")
    (hn : env.strtoull (argv.getD 2 "") % W = 0) :
    main fuel env argv = .error .outOfBounds := by
  have hno : ¬ (argv.getD 1 "" ≠ "p" ∧ argv.getD 1 "" ≠ "s") := by
    rintro ⟨h1, h2⟩
    rcases hsel with h | h
    · exact h1 h
    · exact h2 h
  have hargc : ¬ argv.length < 3 := by omega
  have hblock : ∀ events, (malloc env events (sizeof_float * 0 % W)).1 = [] := by
    intro events
    simp [malloc, newArray, sizeof_float]
  have hord : array_is_ordered ([] : List α) 0 0 = .error .outOfBounds := rfl
  have hloop : ∀ seed, rerollLoop env 0 fuel ([] : List α) seed = .error .outOfBounds := by
    intro seed
    cases fuel <;> simp only [rerollLoop, hord] <;> rfl
  cases argv with
  | nil => simp at h3
  | cons argv0 rest =>
    simp only [List.getD_cons_zero] at hfit
    simp only [main, List.getElem?_cons_zero, hfit, not_true_eq_false, if_false, hargc, hno,
      hn, hblock, randomize_array, randomizeLoop, Nat.sub_zero, Nat.lt_irrefl]
    simp only [bind, Except.bind, hloop]

/-- Claim C16: for a range of length `n >= 2` the recursive case splits at
`mid = start + n / 2` with floor division: the body of `mergesort` sorts `[start, mid)`,
sorts `[mid, end)` and merges `(start, mid, end)`; the left part has length `n / 2`, the
right part `n - n / 2`, the two lengths sum to `n` (the parts are adjacent at `mid`: no
overlap, no gap), and the left length is at most the right length.  First part:
`mergesort.cpp`; second part: `mergesort.c`. -/
theorem split_is_floor_half :
    (∀ (i_start i_end : Nat), i_start ≤ i_end → i_end < W → 2 ≤ i_end - i_start →
      Cpp.calls (.mergesort i_start i_end)
        = [.mergesort i_start (i_start + (i_end - i_start) / 2),
            .mergesort (i_start + (i_end - i_start) / 2) i_end,
            .merge i_start (i_start + (i_end - i_start) / 2) i_end] ∧
      (∀ (fuel : Nat) (array buffer : List α),
        Cpp.mergesort (fuel + 1) array buffer i_start i_end
          = (Cpp.mergesort fuel array buffer i_start (i_start + (i_end - i_start) / 2)
              >>= fun r =>
              Cpp.mergesort fuel r.1 r.2 (i_start + (i_end - i_start) / 2) i_end
              >>= fun r =>
              Cpp.merge r.1 r.2 i_start (i_start + (i_end - i_start) / 2) i_end)) ∧
      (i_start + (i_end - i_start) / 2) - i_start = (i_end - i_start) / 2 ∧
      i_end - (i_start + (i_end - i_start) / 2)
        = (i_end - i_start) - (i_end - i_start) / 2 ∧
      (i_end - i_start) / 2 + ((i_end - i_start) - (i_end - i_start) / 2)
        = i_end - i_start ∧
      (i_end - i_start) / 2 ≤ (i_end - i_start) - (i_end - i_start) / 2 ∧
      i_start < i_start + (i_end - i_start) / 2 ∧
      i_start + (i_end - i_start) / 2 < i_end) ∧
    (∀ (T array buffer n : Nat), 2 ≤ n →
      calls T (.mergesort array buffer n)
        = [.mergesort array buffer (n / 2),
            .mergesort (array + n / 2) (buffer + n / 2) (n - n / 2),
            .merge array (n / 2) (array + n / 2) (n - n / 2) buffer] ∧
      (∀ (fuel : Nat) (blockA blockB : List α),
        mergesort (fuel + 1) blockA blockB array buffer n
          = (mergesort fuel blockA blockB array buffer (n / 2) >>= fun r =>
              mergesort fuel r.1 r.2 (array + n / 2) (buffer + n / 2) (n - n / 2)
              >>= fun r =>
              merge r.1 r.2 array (n / 2) (array + n / 2) (n - n / 2) buffer)) ∧
      n / 2 + (n - n / 2) = n ∧ n / 2 ≤ n - n / 2 ∧ 1 ≤ n / 2 ∧ n - n / 2 < n) := by
  constructor
  · intro i_start i_end hse hW hn
    have hne : ¬ i_end - i_start = 1 := by omega
    have hcalls := Cpp.calls_mergesort i_start i_end hse hW
    rw [if_neg hne] at hcalls
    refine ⟨hcalls, ?_, by omega, by omega, by omega, by omega, by omega, by omega⟩
    intro fuel array buffer
    rw [Cpp.mergesort_follows_calls, hcalls]
  · intro T array buffer n hn
    have hne : ¬ n = 1 := by omega
    have hcalls : calls T (.mergesort array buffer n)
        = [.mergesort array buffer (n / 2),
            .mergesort (array + n / 2) (buffer + n / 2) (n - n / 2),
            .merge array (n / 2) (array + n / 2) (n - n / 2) buffer] := by
      simp only [calls, hne, if_false]
    refine ⟨hcalls, ?_, by omega, by omega, by omega, by omega⟩
    intro fuel blockA blockB
    rw [mergesort_block_follows_calls T, hcalls]

theorem split_is_floor_half_witness :
    Cpp.calls (.mergesort 1 6) = [.mergesort 1 (1 + (6 - 1) / 2),
      .mergesort (1 + (6 - 1) / 2) 6, .merge 1 (1 + (6 - 1) / 2) 6] ∧
    calls MIN_PARALLEL_N (.mergesort 0 0 5)
      = [.mergesort 0 0 (5 / 2), .mergesort (0 + 5 / 2) (0 + 5 / 2) (5 - 5 / 2),
          .merge 0 (5 / 2) (0 + 5 / 2) (5 - 5 / 2) 0] :=
  ⟨((@split_is_floor_half Nat _ _).1 1 6 (by decide) (by decide) (by decide)).1,
    ((@split_is_floor_half Nat _ _).2 MIN_PARALLEL_N 0 0 5 (by decide)).1⟩

/-- Claim C17: `merge` with an empty run (`mid == start` or `mid == end`) leaves the array
exactly as it was, whether or not the other run is sorted (the buffer receives a copy of
the range), and `merge` with `end == start` changes neither the array nor the buffer.
First part: `mergesort.cpp`; second part: `mergesort.c`, where the runs have the lengths
`a_n`, `b_n`. -/
theorem merge_with_empty_run :
    (∀ (array buffer : List α) (start end_ : Nat), start ≤ end_ → end_ ≤ array.length →
      end_ ≤ buffer.length →
      Cpp.merge array buffer start start end_
        = .ok (array, buffer.take start ++ slice array start end_ ++ buffer.drop end_) ∧
      Cpp.merge array buffer start end_ end_
        = .ok (array, buffer.take start ++ slice array start end_ ++ buffer.drop end_) ∧
      Cpp.merge array buffer start start start = .ok (array, buffer)) ∧
    (∀ (blockA blockB : List α) (a m buffer : Nat), a + m ≤ blockA.length →
      buffer + m ≤ blockB.length → sizeof_float * m < W →
      merge blockA blockB a 0 (a + 0) m buffer
        = .ok (blockA, blockB.take buffer ++ slice blockA a (a + m)
            ++ blockB.drop (buffer + m)) ∧
      merge blockA blockB a m (a + m) 0 buffer
        = .ok (blockA, blockB.take buffer ++ slice blockA a (a + m)
            ++ blockB.drop (buffer + m)) ∧
      merge blockA blockB a 0 (a + 0) 0 buffer = .ok (blockA, blockB)) := by
  have hempty : ∀ (xs : List α) (i : Nat), slice xs i i = [] := by
    intro xs i
    simp [slice]
  constructor
  · intro array buffer start end_ hse ha hb
    obtain ⟨hA, _, _⟩ := split_at_range array start end_ hse ha
    refine ⟨?_, ?_, ?_⟩
    · rw [Cpp.merge_range array buffer start start end_ (Nat.le_refl _) hse ha hb,
        hempty, mergeList_nil_left, ← hA]
    · rw [Cpp.merge_range array buffer start end_ end_ hse (Nat.le_refl _) ha hb,
        hempty, mergeList_nil_right, ← hA]
    · obtain ⟨hA0, _, _⟩ := split_at_range array start start (Nat.le_refl _) (by omega)
      obtain ⟨hB0, _, _⟩ := split_at_range buffer start start (Nat.le_refl _) (by omega)
      rw [Cpp.merge_range array buffer start start start (Nat.le_refl _) (Nat.le_refl _)
        (by omega) (by omega), hempty, mergeList_nil_left]
      rw [hempty] at hA0 hB0
      rw [← hA0, ← hB0]
  · intro blockA blockB a m buffer hA hB hw
    obtain ⟨hsA, _, _⟩ := split_at_range blockA a (a + m) (by omega) hA
    refine ⟨?_, ?_, ?_⟩
    · have h := merge_block blockA blockB a 0 m buffer (by omega) (by omega)
        (by rw [Nat.zero_add]; exact hw)
      simp only [Nat.add_zero] at h ⊢
      rw [h, hempty, mergeList_nil_left, ← hsA]
    · have h := merge_block blockA blockB a m 0 buffer (by omega) (by omega)
        (by rw [Nat.add_zero]; exact hw)
      simp only [Nat.add_zero] at h
      rw [h, hempty, mergeList_nil_right, ← hsA]
    · obtain ⟨hA0, _, _⟩ := split_at_range blockA a a (Nat.le_refl _) (by omega)
      obtain ⟨hB0, _, _⟩ := split_at_range blockB buffer buffer (Nat.le_refl _) (by omega)
      have h := merge_block blockA blockB a 0 0 buffer (by omega) (by omega)
        (by simp only [sizeof_float] at hw ⊢; omega)
      simp only [Nat.add_zero] at h ⊢
      rw [hempty] at h hA0 hB0
      rw [h, mergeList_nil_left, ← hA0, ← hB0]

theorem merge_with_empty_run_witness :
    (Cpp.merge ([5, 3, 8, 1, 9, 2] : List Nat) [0, 0, 0, 0, 0, 0] 1 1 4
        = .ok ([5, 3, 8, 1, 9, 2],
            ([0, 0, 0, 0, 0, 0] : List Nat).take 1 ++ slice [5, 3, 8, 1, 9, 2] 1 4
              ++ ([0, 0, 0, 0, 0, 0] : List Nat).drop 4) ∧
      Cpp.merge ([5, 3, 8, 1, 9, 2] : List Nat) [0, 0, 0, 0, 0, 0] 1 4 4
        = .ok ([5, 3, 8, 1, 9, 2],
            ([0, 0, 0, 0, 0, 0] : List Nat).take 1 ++ slice [5, 3, 8, 1, 9, 2] 1 4
              ++ ([0, 0, 0, 0, 0, 0] : List Nat).drop 4) ∧
      Cpp.merge ([5, 3, 8, 1, 9, 2] : List Nat) [0, 0, 0, 0, 0, 0] 1 1 1
        = .ok ([5, 3, 8, 1, 9, 2], [0, 0, 0, 0, 0, 0])) ∧
    merge ([5, 3, 8, 1, 9, 2] : List Nat) [0, 0, 0, 0, 0, 0] 2 0 (2 + 0) 0 1
      = .ok ([5, 3, 8, 1, 9, 2], [0, 0, 0, 0, 0, 0]) :=
  ⟨(@merge_with_empty_run Nat _ _).1 [5, 3, 8, 1, 9, 2] [0, 0, 0, 0, 0, 0] 1 4 (by decide)
      (by decide) (by decide),
    ((@merge_with_empty_run Nat _ _).2 [5, 3, 8, 1, 9, 2] [0, 0, 0, 0, 0, 0] 2 0 1
      (by decide) (by decide) (by decide)).2.2⟩

/-- Claim C18: for `n >= 2` elements, `mergesort_parallel` (with
`MIN_PARALLEL_N = 10^6`) returns, no call that it issues, directly or through further
calls, is a call of `mergesort` or of itself with length `0`, and it leaves in the array
(and in the buffer) what the sequential `mergesort` leaves on the same input. -/
theorem mergesort_parallel_terminates_and_agrees (blockA blockB : List α)
    (array buffer n : Nat) (hn : 2 ≤ n) (hA : array + n ≤ blockA.length)
    (hB : buffer + n ≤ blockB.length) (hw : sizeof_float * n < W) :
    (∃ a' b', mergesort_parallel n blockA blockB array buffer n = .ok (a', b') ∧
      mergesort n blockA blockB array buffer n = .ok (a', b') ∧
      ∀ fuel r, mergesort_parallel fuel blockA blockB array buffer n = .ok r →
        r = (a', b')) ∧
    ∀ c, Reaches MIN_PARALLEL_N (.mergesort_parallel array buffer n) c → NonEmpty c := by
  have hT : 4 ≤ MIN_PARALLEL_N := by decide
  refine ⟨⟨_, _, (mergesort_parallel_block MIN_PARALLEL_N n blockA blockB array buffer n hA
    hB hw).1 hn (Or.inl hT) (Nat.le_refl _), ?_, ?_⟩, ?_⟩
  · have h := mergesort_block_returns blockA blockB array buffer n hA hB hw (by omega)
    rw [if_neg (by omega)] at h
    exact h
  · intro fuel r h
    obtain ⟨a', b'⟩ := r
    obtain ⟨_, h1, h2⟩ := mergesort_parallel_result MIN_PARALLEL_N fuel blockA blockB array
      buffer n a' b' hA hB hw h
    rw [h1, h2]
  · intro c h
    have h0 : Sound MIN_PARALLEL_N (.mergesort_parallel array buffer n) := ⟨hn, Or.inl hT⟩
    exact nonEmpty_of_sound MIN_PARALLEL_N c (sound_of_reaches MIN_PARALLEL_N _ c h0 h)

theorem mergesort_parallel_terminates_and_agrees_witness :
    (∃ a' b', mergesort_parallel 6 ([5, 3, 8, 1, 9, 2] : List Nat) [0, 0, 0, 0, 0, 0] 0 0 6
        = .ok (a', b') ∧
      mergesort 6 ([5, 3, 8, 1, 9, 2] : List Nat) [0, 0, 0, 0, 0, 0] 0 0 6 = .ok (a', b') ∧
      ∀ fuel r, mergesort_parallel fuel ([5, 3, 8, 1, 9, 2] : List Nat) [0, 0, 0, 0, 0, 0]
        0 0 6 = .ok r → r = (a', b')) ∧
    ∀ c, Reaches MIN_PARALLEL_N (.mergesort_parallel 0 0 6) c → NonEmpty c :=
  mergesort_parallel_terminates_and_agrees ([5, 3, 8, 1, 9, 2] : List Nat)
    [0, 0, 0, 0, 0, 0] 0 0 6 (by decide) (by decide) (by decide) (by decide)

/-- Claim C19: for `n >= 2` elements and every initial content of the buffer, after the
sequential `mergesort(array, buffer, n)` has returned, `buffer[0..n)` is element for
element equal to `array[0..n)`; for `n >= 2` the call does return. -/
theorem buffer_equals_array_after_mergesort (blockA blockB : List α) (array buffer n : Nat)
    (hn : 2 ≤ n) (hA : array + n ≤ blockA.length) (hB : buffer + n ≤ blockB.length)
    (hw : sizeof_float * n < W) :
    (∃ fuel a' b', mergesort fuel blockA blockB array buffer n = .ok (a', b')) ∧
    ∀ fuel a' b', mergesort fuel blockA blockB array buffer n = .ok (a', b') →
      slice b' buffer (buffer + n) = slice a' array (array + n) ∧
      ∀ i, i < n → b'[buffer + i]? = a'[array + i]? := by
  refine ⟨⟨_, _, _, mergesort_block_returns blockA blockB array buffer n hA hB hw
    (by omega)⟩, ?_⟩
  intro fuel a' b' h
  obtain ⟨_, ha', hb'⟩ := mergesort_block_result fuel blockA blockB array buffer n a' b' hA
    hB hw h
  rw [if_neg (by omega)] at hb'
  have hlen : (msort (slice blockA array (array + n))).length = array + n - array := by
    rw [length_msort, length_slice blockA array (array + n) (by omega) hA]
  have hlen' : (msort (slice blockA array (array + n))).length = buffer + n - buffer := by
    rw [hlen]; omega
  have hsa : slice a' array (array + n) = msort (slice blockA array (array + n)) := by
    rw [ha']; exact slice_splice blockA _ array (array + n) (by omega) hA hlen
  have hsb : slice b' buffer (buffer + n) = msort (slice blockA array (array + n)) := by
    rw [hb']; exact slice_splice blockB _ buffer (buffer + n) (by omega) hB hlen'
  refine ⟨by rw [hsa, hsb], ?_⟩
  intro i hi
  rw [← slice_getElem? b' buffer (buffer + n) i (by omega),
    ← slice_getElem? a' array (array + n) i (by omega), hsa, hsb]

theorem buffer_equals_array_after_mergesort_witness :
    (∃ fuel a' b',
      mergesort fuel ([5, 3, 8, 1, 9, 2] : List Nat) [7, 7, 7, 7, 7, 7] 0 0 6
        = .ok (a', b')) ∧
    ∀ fuel a' b',
      mergesort fuel ([5, 3, 8, 1, 9, 2] : List Nat) [7, 7, 7, 7, 7, 7] 0 0 6
        = .ok (a', b') →
      slice b' 0 (0 + 6) = slice a' 0 (0 + 6) ∧ ∀ i, i < 6 → b'[0 + i]? = a'[0 + i]? :=
  buffer_equals_array_after_mergesort ([5, 3, 8, 1, 9, 2] : List Nat) [7, 7, 7, 7, 7, 7]
    0 0 6 (by decide) (by decide) (by decide) (by decide)

/-- Claim C20: the final array of the sequential sort does not depend on the initial
content of the buffer: for two buffers of the length of the array, whenever the sort
returns with the one and returns with the other, the two final arrays are equal; on a
non-empty range it returns with both, with the same fuel.  First part: `mergesort.cpp`;
second part: `mergesort.c`. -/
theorem sort_result_independent_of_buffer :
    (∀ (array buffer1 buffer2 : List α) (i_start i_end : Nat),
      buffer1.length = array.length → buffer2.length = array.length → i_start ≤ i_end →
      i_end ≤ array.length → array.length < W →
      (i_start < i_end → ∃ fuel a' b1 b2,
        Cpp.mergesort fuel array buffer1 i_start i_end = .ok (a', b1) ∧
        Cpp.mergesort fuel array buffer2 i_start i_end = .ok (a', b2)) ∧
      (∀ fuel1 fuel2 a1 b1 a2 b2,
        Cpp.mergesort fuel1 array buffer1 i_start i_end = .ok (a1, b1) →
        Cpp.mergesort fuel2 array buffer2 i_start i_end = .ok (a2, b2) → a1 = a2)) ∧
    (∀ (blockA blockB1 blockB2 : List α) (array buffer n : Nat),
      blockB1.length = blockB2.length → array + n ≤ blockA.length →
      buffer + n ≤ blockB1.length → sizeof_float * n < W →
      (1 ≤ n → ∃ fuel a' b1 b2,
        mergesort fuel blockA blockB1 array buffer n = .ok (a', b1) ∧
        mergesort fuel blockA blockB2 array buffer n = .ok (a', b2)) ∧
      (∀ fuel1 fuel2 a1 b1 a2 b2,
        mergesort fuel1 blockA blockB1 array buffer n = .ok (a1, b1) →
        mergesort fuel2 blockA blockB2 array buffer n = .ok (a2, b2) → a1 = a2)) := by
  constructor
  · intro array buffer1 buffer2 i_start i_end hb1 hb2 hse hend hW
    refine ⟨fun hlt => ⟨_, _, _, _,
      Cpp.mergesort_returns array buffer1 i_start i_end hb1 hlt hend (by omega),
      Cpp.mergesort_returns array buffer2 i_start i_end hb2 hlt hend (by omega)⟩, ?_⟩
    intro fuel1 fuel2 a1 b1 a2 b2 h1 h2
    obtain ⟨_, e1, _⟩ := Cpp.mergesort_result fuel1 array buffer1 i_start i_end a1 b1 hb1
      hse hend (by omega) h1
    obtain ⟨_, e2, _⟩ := Cpp.mergesort_result fuel2 array buffer2 i_start i_end a2 b2 hb2
      hse hend (by omega) h2
    rw [e1, e2]
  · intro blockA blockB1 blockB2 array buffer n hlen hA hB hw
    refine ⟨fun hn => ⟨_, _, _, _,
      mergesort_block_returns blockA blockB1 array buffer n hA hB hw hn,
      mergesort_block_returns blockA blockB2 array buffer n hA (by omega) hw hn⟩, ?_⟩
    intro fuel1 fuel2 a1 b1 a2 b2 h1 h2
    obtain ⟨_, e1, _⟩ := mergesort_block_result fuel1 blockA blockB1 array buffer n a1 b1 hA
      hB hw h1
    obtain ⟨_, e2, _⟩ := mergesort_block_result fuel2 blockA blockB2 array buffer n a2 b2 hA
      (by omega) hw h2
    rw [e1, e2]

theorem sort_result_independent_of_buffer_witness :
    ((0 < 6 → ∃ fuel a' b1 b2,
        Cpp.mergesort fuel ([5, 3, 8, 1, 9, 2] : List Nat) [0, 0, 0, 0, 0, 0] 0 6
          = .ok (a', b1) ∧
        Cpp.mergesort fuel ([5, 3, 8, 1, 9, 2] : List Nat) [7, 6, 5, 4, 3, 2] 0 6
          = .ok (a', b2)) ∧
      (∀ fuel1 fuel2 a1 b1 a2 b2,
        Cpp.mergesort fuel1 ([5, 3, 8, 1, 9, 2] : List Nat) [0, 0, 0, 0, 0, 0] 0 6
          = .ok (a1, b1) →
        Cpp.mergesort fuel2 ([5, 3, 8, 1, 9, 2] : List Nat) [7, 6, 5, 4, 3, 2] 0 6
          = .ok (a2, b2) → a1 = a2)) ∧
    ((1 ≤ 6 → ∃ fuel a' b1 b2,
        mergesort fuel ([5, 3, 8, 1, 9, 2] : List Nat) [0, 0, 0, 0, 0, 0] 0 0 6
          = .ok (a', b1) ∧
        mergesort fuel ([5, 3, 8, 1, 9, 2] : List Nat) [7, 6, 5, 4, 3, 2] 0 0 6
          = .ok (a', b2)) ∧
      (∀ fuel1 fuel2 a1 b1 a2 b2,
        mergesort fuel1 ([5, 3, 8, 1, 9, 2] : List Nat) [0, 0, 0, 0, 0, 0] 0 0 6
          = .ok (a1, b1) →
        mergesort fuel2 ([5, 3, 8, 1, 9, 2] : List Nat) [7, 6, 5, 4, 3, 2] 0 0 6
          = .ok (a2, b2) → a1 = a2)) :=
  ⟨(@sort_result_independent_of_buffer Nat _ _).1 [5, 3, 8, 1, 9, 2] [0, 0, 0, 0, 0, 0]
      [7, 6, 5, 4, 3, 2] 0 6 (by decide) (by decide) (by decide) (by decide) (by decide),
    (@sort_result_independent_of_buffer Nat _ _).2 [5, 3, 8, 1, 9, 2] [0, 0, 0, 0, 0, 0]
      [7, 6, 5, 4, 3, 2] 0 0 6 (by decide) (by decide) (by decide) (by decide)⟩

end

end C

/-! ## `array_is_ordered` -/

theorem rd_of_lt (xs : List α) (i : Nat) (h : i < xs.length) : rd xs i = .ok (xs[i]) := by
  simp [rd, List.getElem?_eq_getElem h]

theorem rd_of_ge (xs : List α) (i : Nat) (h : xs.length ≤ i) :
    rd xs i = .error .outOfBounds := by
  simp [rd, List.getElem?_eq_none h]

theorem slice_cons (xs : List α) (s e : Nat) (h : s < xs.length) (hse : s < e) :
    slice xs s e = xs[s] :: slice xs (s + 1) e := by
  have hl : s < (xs.take e).length := by
    simp only [List.length_take]; omega
  rw [slice, List.drop_eq_getElem_cons hl, slice]
  simp

section
variable [Preorder α] [DecidableRel ((· < ·) : α → α → Prop)]

theorem adjacentOrdered_cons_cons (x y : α) (r : List α) :
    adjacentOrdered (x :: y :: r)
      = if x > y then false else adjacentOrdered (y :: r) := rfl

/-- The value `adjacentOrdered` is `true` exactly when every element is at most its right
neighbour. -/
theorem adjacentOrdered_iff [IsTotal α (· ≤ ·)] (l : List α) :
    adjacentOrdered l = true
      ↔ ∀ i x y, l[i]? = some x → l[i + 1]? = some y → x ≤ y := by
  induction l with
  | nil => simp [adjacentOrdered]
  | cons x t ih =>
    cases t with
    | nil => simp [adjacentOrdered]
    | cons y r =>
      rw [adjacentOrdered_cons_cons]
      by_cases h : x > y
      · simp only [h, if_true, Bool.false_eq_true, false_iff]
        intro hall
        exact (not_gt_iff_le x y).mpr (hall 0 x y rfl (by simp)) h
      · simp only [h, if_false, ih]
        constructor
        · intro hall i
          cases i with
          | zero =>
            intro a b ha hb
            simp only [List.getElem?_cons_zero, List.getElem?_cons_succ, Option.some.injEq,
              Nat.zero_add] at ha hb
            subst ha hb
            exact (not_gt_iff_le _ _).mp h
          | succ j =>
            intro a b ha hb
            exact hall j a b (by simpa using ha) (by simpa using hb)
        · intro hall i a b ha hb
          exact hall (i + 1) a b (by simpa using ha) (by simpa using hb)

/-- The value `adjacentOrdered` is `true` exactly on the ascending lists. -/
theorem adjacentOrdered_iff_ascending [IsTotal α (· ≤ ·)] (l : List α) :
    adjacentOrdered l = true ↔ Ascending l := by
  induction l with
  | nil => simp [adjacentOrdered, Ascending]
  | cons x t ih =>
    cases t with
    | nil => simp [adjacentOrdered, Ascending]
    | cons y r =>
      rw [adjacentOrdered_cons_cons]
      by_cases h : x > y
      · simp only [h, if_true, Bool.false_eq_true, false_iff]
        intro hasc
        have hxy : x ≤ y := (List.pairwise_cons.mp hasc).1 y (List.mem_cons_self _ _)
        exact (not_gt_iff_le x y).mpr hxy h
      · simp only [h, if_false, ih]
        have hxy : x ≤ y := (not_gt_iff_le x y).mp h
        constructor
        · intro hasc
          refine List.pairwise_cons.mpr ⟨?_, hasc⟩
          intro z hz
          rcases List.mem_cons.mp hz with rfl | hz
          · exact hxy
          · exact le_trans hxy ((List.pairwise_cons.mp hasc).1 z hz)
        · intro hasc
          exact (List.pairwise_cons.mp hasc).2

/-- The loop of `array_is_ordered` when every index up to `base + bound` is inside `xs`: it
returns, and its value is `adjacentOrdered` of the cells `[base + i, base + bound]`. -/
theorem orderedLoop_spec (xs : List α) (base bound : Nat) (hb : base + bound < xs.length) :
    ∀ v i, i + v = bound →
      orderedLoop xs base bound v i
        = .ok (adjacentOrdered (slice xs (base + i) (base + bound + 1))) := by
  intro v
  induction v with
  | zero =>
    intro i hi
    have hi' : i = bound := by omega
    subst hi'
    have hlt : ¬ i < i := Nat.lt_irrefl i
    rw [slice_cons xs (base + i) (base + i + 1) hb (by omega)]
    have hnil : slice xs (base + i + 1) (base + i + 1) = [] := by simp [slice]
    simp only [orderedLoop, hlt, if_false, hnil, adjacentOrdered]
  | succ v ih =>
    intro i hi
    have hlt : i < bound := by omega
    have h0 : base + i < xs.length := by omega
    have h1 : base + (i + 1) < xs.length := by omega
    rw [slice_cons xs (base + i) (base + bound + 1) h0 (by omega),
      slice_cons xs (base + i + 1) (base + bound + 1) h1 (by omega),
      adjacentOrdered_cons_cons,
      ← slice_cons xs (base + i + 1) (base + bound + 1) h1 (by omega)]
    simp only [orderedLoop, hlt, if_true, rd_of_lt xs _ h0, rd_of_lt xs _ h1, bind,
      Except.bind, pure, Except.pure]
    have hih := ih (i + 1) (by omega)
    have he : base + i + 1 = base + (i + 1) := by omega
    simp only [he] at hih ⊢
    split
    · rfl
    · exact hih

/-- The loop of `array_is_ordered` when the index `base + bound` is outside `xs`: it does not
return `true`; it stops at a pair with `xs[i] > xs[i+1]` or reads outside `xs`. -/
theorem orderedLoop_overrun (xs : List α) (base bound : Nat)
    (hb : xs.length ≤ base + bound) :
    ∀ v i, i + v = bound → i < bound →
      orderedLoop xs base bound v i = .error .outOfBounds ∨
        orderedLoop xs base bound v i = .ok false := by
  intro v
  induction v with
  | zero => intro i hi hlt; omega
  | succ v ih =>
    intro i hi hlt
    by_cases h0 : base + i < xs.length
    · by_cases h1 : base + (i + 1) < xs.length
      · simp only [orderedLoop, hlt, if_true, rd_of_lt xs _ h0, rd_of_lt xs _ h1, bind,
          Except.bind, pure, Except.pure]
        split
        · exact Or.inr rfl
        · exact ih (i + 1) (by omega) (by omega)
      · simp only [orderedLoop, hlt, if_true, rd_of_lt xs _ h0,
          rd_of_ge xs _ (Nat.le_of_not_lt h1), bind, Except.bind]
        exact Or.inl trivial
    · simp only [orderedLoop, hlt, if_true, rd_of_ge xs _ (Nat.le_of_not_lt h0), bind,
        Except.bind]
      exact Or.inl trivial

/-- For `n >= 1` the C `array_is_ordered` returns, and its value depends on the cells
`array[0 .. n-1]` only: it is `adjacentOrdered` of these cells. -/
theorem C.array_is_ordered_of_pos (block : List α) (array n : Nat) (hn : 1 ≤ n)
    (hW : n < W) (hA : array + n ≤ block.length) :
    C.array_is_ordered block array n
      = .ok (adjacentOrdered (slice block array (array + n))) := by
  have hbound : (n + W - 1) % W = n - 1 := by
    have : n + W - 1 = (n - 1) + W := by omega
    rw [this, Nat.add_mod_right, Nat.mod_eq_of_lt (by omega)]
  have h := orderedLoop_spec block array (n - 1) (by omega) (n - 1) 0 (by omega)
  have he : array + (n - 1) + 1 = array + n := by omega
  simp only [Nat.add_zero, he] at h
  simp only [C.array_is_ordered, hbound, Nat.sub_zero]
  exact h

/-- For `n = 0` the C `array_is_ordered` does not return `true`: the bound `n-1` wraps to
`2^64 - 1` and the loop reads `array[0]`, `array[1]`, ... until a pair is out of order or the
read leaves the block. -/
theorem C.array_is_ordered_zero (block : List α) (array : Nat) (hlen : block.length < W) :
    C.array_is_ordered block array 0 = .error .outOfBounds ∨
      C.array_is_ordered block array 0 = .ok false := by
  have hbound : (0 + W - 1) % W = W - 1 := by
    rw [Nat.zero_add]; exact Nat.mod_eq_of_lt (by simp [W])
  have hW : 0 < W - 1 := by simp [W]
  simp only [C.array_is_ordered, hbound, Nat.sub_zero]
  exact orderedLoop_overrun block array (W - 1) (by omega) (W - 1) 0 (by omega) hW

/-- For a non-empty vector the C++ `array_is_ordered` returns `adjacentOrdered` of the
vector. -/
theorem Cpp.vector_is_ordered_of_pos (array : List α) (hn : 1 ≤ array.length)
    (hW : array.length < W) :
    Cpp.array_is_ordered array = .ok (adjacentOrdered array) := by
  have h := C.array_is_ordered_of_pos array 0 array.length hn hW (by omega)
  simp only [Nat.zero_add, slice_full] at h
  exact h

end

/-- Claim C23, at the input that refutes it: for `n = 0` the bound `n-1` wraps to
`2^64 - 1`, so `array_is_ordered` enters the loop and reads `array[0]` and `array[1]`,
indices that are not below `n`: on the empty array the read is out of bounds in both
programs, and when the two cells behind the empty array hold `2, 1` the function returns
`false`, not `true`.  For the lengths `n >= 1` of the examples the function returns `true`
exactly on the ordered arrays and does not look at the cells behind the array. -/
theorem C.array_is_ordered_wraps_on_empty_array :
    Cpp.array_is_ordered ([] : List Nat) = .error .outOfBounds ∧
    C.array_is_ordered ([] : List Nat) 0 0 = .error .outOfBounds ∧
    C.array_is_ordered ([2, 1] : List Nat) 0 0 = .ok false ∧
    (0 + W - 1) % W = 18446744073709551615 ∧
    Cpp.array_is_ordered ([7] : List Nat) = .ok true ∧
    C.array_is_ordered ([7, 1] : List Nat) 0 1 = .ok true ∧
    Cpp.array_is_ordered ([1, 2, 2, 3] : List Nat) = .ok true ∧
    Cpp.array_is_ordered ([1, 3, 2] : List Nat) = .ok false ∧
    C.array_is_ordered ([1, 2, 3, 0] : List Nat) 0 3 = .ok true ∧
    C.array_is_ordered ([9, 1, 3, 2] : List Nat) 1 3 = .ok false :=
  ⟨rfl, rfl, rfl, by decide, rfl, rfl, rfl, rfl, rfl, rfl⟩

/-! ## Termination of the sequential sort -/

theorem Cpp.nonEmpty_step (n : Nat) (hn : n < W) (c c' : Cpp.Call)
    (hw : Cpp.WellFormed n c) (hne : Cpp.NonEmpty c) (h : c' ∈ Cpp.calls c) :
    Cpp.NonEmpty c' := by
  cases c with
  | merge start mid end_ => simp [Cpp.calls] at h
  | mergesort i_start i_end =>
    obtain ⟨h1, h2⟩ := hw
    have hlt : i_start < i_end := hne
    rw [Cpp.calls_mergesort i_start i_end h1 (by omega)] at h
    split at h
    · simp at h
    · simp only [List.mem_cons, List.mem_singleton, List.not_mem_nil, or_false] at h
      rcases h with rfl | rfl | rfl
      · show i_start < i_start + (i_end - i_start) / 2
        omega
      · show i_start + (i_end - i_start) / 2 < i_end
        omega
      · show i_start < i_start + (i_end - i_start) / 2 ∧
          i_start + (i_end - i_start) / 2 < i_end
        omega

/-- Every call that a sort of a non-empty range issues has a well-formed, non-empty
range. -/
theorem Cpp.nonEmpty_of_reaches (n : Nat) (hn : n < W) (c0 c : Cpp.Call)
    (hw : Cpp.WellFormed n c0) (hne : Cpp.NonEmpty c0) (h : Cpp.Reaches c0 c) :
    Cpp.WellFormed n c ∧ Cpp.NonEmpty c := by
  induction h with
  | refl => exact ⟨hw, hne⟩
  | tail _ hstep ih =>
    exact ⟨Cpp.wellFormed_step n hn _ _ ih.1 hstep, Cpp.nonEmpty_step n hn _ _ ih.1 ih.2 hstep⟩

/-- The two recursive calls of `mergesort` of `mergesort.cpp` on a range of at least one
element are on non-empty, strictly shorter ranges. -/
theorem Cpp.range_calls_shrink (n : Nat) (hn : n < W) (s e s' e' : Nat) (hse : s < e)
    (hen : e ≤ n) (h : Cpp.Call.mergesort s' e' ∈ Cpp.calls (.mergesort s e)) :
    s' < e' ∧ e' - s' < e - s := by
  rw [Cpp.calls_mergesort s e (by omega) (by omega)] at h
  split at h
  · simp at h
  · simp only [List.mem_cons, List.mem_singleton, List.not_mem_nil, or_false,
      Cpp.Call.mergesort.injEq, reduceCtorEq] at h
    rcases h with ⟨rfl, rfl⟩ | ⟨rfl, rfl⟩
    · omega
    · omega

/-- The two recursive calls of `mergesort` of `mergesort.c` on at least one element are on
non-zero, strictly smaller lengths. -/
theorem C.calls_shrink (T a b m a' b' m' : Nat) (hm : 1 ≤ m)
    (h : C.Call.mergesort a' b' m' ∈ C.calls T (.mergesort a b m)) :
    1 ≤ m' ∧ m' < m := by
  simp only [C.calls] at h
  split at h
  · simp at h
  · simp only [List.mem_cons, List.mem_singleton, List.not_mem_nil, or_false,
      C.Call.mergesort.injEq, reduceCtorEq] at h
    rcases h with ⟨_, _, rfl⟩ | ⟨_, _, rfl⟩
    · omega
    · omega

/-- Claim C22: for every length `n >= 1` the sequential `mergesort` terminates, in the C
program and in the C++ program: with a stack of depth `n` or more it returns; every sort
call that it issues, directly or through further calls, is on a non-zero length, and the
recursive calls in the body of such a call are on non-zero, strictly smaller lengths; for
`n >= 2` both `n/2` and `n - n/2` lie in `[1, n-1]`. -/
theorem C.sequential_mergesort_terminates [Preorder α]
    [DecidableRel ((· < ·) : α → α → Prop)] :
    (∀ n : Nat, 2 ≤ n →
      (1 ≤ n / 2 ∧ n / 2 ≤ n - 1) ∧ (1 ≤ n - n / 2 ∧ n - n / 2 ≤ n - 1)) ∧
    (∀ (blockA blockB : List α) (array buffer n : Nat), 1 ≤ n →
      array + n ≤ blockA.length → buffer + n ≤ blockB.length → sizeof_float * n < W →
      (∀ fuel, n ≤ fuel → ∃ r, C.mergesort fuel blockA blockB array buffer n = .ok r) ∧
      (∀ a b m,
        C.Reaches C.MIN_PARALLEL_N (.mergesort array buffer n) (.mergesort a b m) →
        1 ≤ m ∧ ∀ a' b' m',
          C.Call.mergesort a' b' m' ∈ C.calls C.MIN_PARALLEL_N (.mergesort a b m) →
          1 ≤ m' ∧ m' < m)) ∧
    (∀ (array buffer : List α) (i_start i_end : Nat), buffer.length = array.length →
      i_start < i_end → i_end ≤ array.length → i_end < W →
      (∀ fuel, i_end - i_start ≤ fuel →
        ∃ r, Cpp.mergesort fuel array buffer i_start i_end = .ok r) ∧
      (∀ s e, Cpp.Reaches (.mergesort i_start i_end) (.mergesort s e) →
        s < e ∧ ∀ s' e', Cpp.Call.mergesort s' e' ∈ Cpp.calls (.mergesort s e) →
          s' < e' ∧ e' - s' < e - s)) := by
  refine ⟨fun n hn => by omega, ?_, ?_⟩
  · intro blockA blockB array buffer n hn hA hB hw
    refine ⟨fun fuel hf => ⟨_, (C.mergesort_block fuel blockA blockB array buffer n hA hB
      hw).1 hn hf⟩, ?_⟩
    intro a b m hr
    have hs : C.Sound C.MIN_PARALLEL_N (.mergesort array buffer n) := hn
    have hm : 1 ≤ m := C.sound_of_reaches C.MIN_PARALLEL_N _ _ hs hr
    exact ⟨hm, fun a' b' m' h => C.calls_shrink _ a b m a' b' m' hm h⟩
  · intro array buffer i_start i_end hbuf hlt hend hW
    refine ⟨fun fuel hf => ⟨_, (Cpp.mergesort_range fuel array buffer i_start i_end hbuf
      (Nat.le_of_lt hlt) hend hW).1 (by omega) hf⟩, ?_⟩
    intro s e hr
    have hw0 : Cpp.WellFormed i_end (.mergesort i_start i_end) :=
      ⟨Nat.le_of_lt hlt, Nat.le_refl _⟩
    have hne0 : Cpp.NonEmpty (.mergesort i_start i_end) := hlt
    obtain ⟨hw1, hne1⟩ := Cpp.nonEmpty_of_reaches i_end hW _ _ hw0 hne0 hr
    have hse : s < e := hne1
    have hen : e ≤ i_end := hw1.2
    exact ⟨hse, fun s' e' h => Cpp.range_calls_shrink i_end hW s e s' e' hse hen h⟩

theorem C.sequential_mergesort_terminates_witness :
    ((1 ≤ 3 / 2 ∧ 3 / 2 ≤ 3 - 1) ∧ (1 ≤ 3 - 3 / 2 ∧ 3 - 3 / 2 ≤ 3 - 1)) ∧
    ((∀ fuel, 6 ≤ fuel →
        ∃ r, C.mergesort fuel ([5, 3, 8, 1, 9, 2] : List Nat) [0, 0, 0, 0, 0, 0] 0 0 6
          = .ok r) ∧
      (∀ a b m, C.Reaches C.MIN_PARALLEL_N (.mergesort 0 0 6) (.mergesort a b m) →
        1 ≤ m ∧ ∀ a' b' m',
          C.Call.mergesort a' b' m' ∈ C.calls C.MIN_PARALLEL_N (.mergesort a b m) →
          1 ≤ m' ∧ m' < m)) ∧
    ((∀ fuel, 6 - 0 ≤ fuel →
        ∃ r, Cpp.mergesort fuel ([5, 3, 8, 1, 9, 2] : List Nat) [0, 0, 0, 0, 0, 0] 0 6
          = .ok r) ∧
      (∀ s e, Cpp.Reaches (.mergesort 0 6) (.mergesort s e) →
        s < e ∧ ∀ s' e', Cpp.Call.mergesort s' e' ∈ Cpp.calls (.mergesort s e) →
          s' < e' ∧ e' - s' < e - s)) :=
  ⟨(@C.sequential_mergesort_terminates Nat _ _).1 3 (by decide),
    (@C.sequential_mergesort_terminates Nat _ _).2.1 [5, 3, 8, 1, 9, 2] [0, 0, 0, 0, 0, 0]
      0 0 6 (by decide) (by decide) (by decide) (by decide),
    (@C.sequential_mergesort_terminates Nat _ _).2.2 [5, 3, 8, 1, 9, 2] [0, 0, 0, 0, 0, 0]
      0 6 (by decide) (by decide) (by decide) (by decide)⟩

/-! ## The sequential variants -/

theorem length_newArray (uninit : Nat → α) (k : Nat) : (newArray uninit k).length = k := by
  simp [newArray]

section
variable [Preorder α] [DecidableRel ((· < ·) : α → α → Prop)]

/-- The `mergesort` of `mergesort-sequential/mergesort.c` is the `mergesort` of
`mergesort.c`. -/
theorem CSeq.mergesort_eq :
    ∀ (fuel : Nat) (blockA blockB : List α) (array buffer n : Nat),
      CSeq.mergesort fuel blockA blockB array buffer n
        = C.mergesort fuel blockA blockB array buffer n := by
  intro fuel
  induction fuel with
  | zero => intro blockA blockB array buffer n; rfl
  | succ fuel ih =>
    intro blockA blockB array buffer n
    simp only [CSeq.mergesort, C.mergesort, ih]

/-- The `merge` of `mergesort-sequential/mergesort.cpp` is the `merge` of `mergesort.c` run
with the fresh array `merged` as its buffer, of which only the first block is kept. -/
theorem CppSeq.merge_eq_shared (uninit : Nat → α) (block : List α) (a a_n b b_n : Nat) :
    CppSeq.merge uninit block a a_n b b_n
      = (C.merge block (newArray uninit ((a_n + b_n) % W)) a a_n b b_n 0
          >>= fun r => pure r.1) := by
  simp only [CppSeq.merge, C.merge, bind_assoc, pure_bind]

/-- Frame form of `CppSeq.merge`: the two adjacent runs `L`, `R` of the block are replaced
by their merge, whatever the fresh array held. -/
theorem CppSeq.merge_fresh_frame (uninit : Nat → α) (block : List α) (a a_n b b_n : Nat)
    (P L R Q : List α) (hA : block = P ++ L ++ R ++ Q) (ha : a = P.length)
    (han : a_n = L.length) (hb : b = P.length + L.length) (hbn : b_n = R.length)
    (hw : sizeof_float * (L.length + R.length) < W) :
    CppSeq.merge uninit block a a_n b b_n = .ok (P ++ mergeList L R ++ Q) := by
  have hlt : a_n + b_n < W := by
    simp only [sizeof_float] at hw; omega
  have hm := C.merge_blocks_frame block (newArray uninit ((a_n + b_n) % W)) a a_n b b_n 0
    P L R Q [] (newArray uninit ((a_n + b_n) % W)) [] hA (by simp)
    (by rw [length_newArray, Nat.mod_eq_of_lt hlt, han, hbn]) ha han hb hbn rfl hw
  rw [CppSeq.merge_eq_shared, hm]
  rfl

/-- The `n` elements `S` at `array` are replaced by `msort S` and nothing else changes.
First part: with `fuel` at least `n >= 1` the call returns this result.  Second part: with
any fuel the call either runs out of fuel or returns this result, and it returns only for
`n >= 1`. -/
theorem CppSeq.mergesort_fresh_frame (uninit : Nat → α) :
    ∀ (fuel : Nat) (block : List α) (array n : Nat) (P S Q : List α),
      block = P ++ S ++ Q → array = P.length → n = S.length →
      sizeof_float * S.length < W →
      (1 ≤ n → n ≤ fuel →
        CppSeq.mergesort uninit fuel block array n = .ok (P ++ msort S ++ Q)) ∧
      (CppSeq.mergesort uninit fuel block array n = .error .outOfFuel ∨
        (1 ≤ n ∧ CppSeq.mergesort uninit fuel block array n = .ok (P ++ msort S ++ Q))) := by
  intro fuel
  induction fuel with
  | zero =>
    intro block array n P S Q hA ha hn hw
    exact ⟨fun h1 h0 => absurd h1 (by omega), Or.inl rfl⟩
  | succ fuel ih =>
    intro block array n P S Q hA ha hn hw
    subst hn
    simp only [sizeof_float] at hw
    by_cases h1 : S.length = 1
    · have hres : CppSeq.mergesort uninit (fuel + 1) block array S.length
          = .ok (P ++ msort S ++ Q) := by
        simp only [CppSeq.mergesort, h1, if_true]
        rw [msort_small S (by omega), ← hA]
      exact ⟨fun _ _ => hres, Or.inr ⟨by omega, hres⟩⟩
    · have hstep : CppSeq.mergesort uninit (fuel + 1) block array S.length
          = (CppSeq.mergesort uninit fuel block array (S.length / 2) >>= fun r =>
              CppSeq.mergesort uninit fuel r (array + S.length / 2)
                (S.length - S.length / 2) >>= fun r =>
                CppSeq.merge uninit r array (S.length / 2) (array + S.length / 2)
                  (S.length - S.length / 2)) := by
        simp only [CppSeq.mergesort, h1, if_false]
      obtain ⟨S1, S2, hS, hS1, hS12, hms⟩ : ∃ S1 S2 : List α, S = S1 ++ S2 ∧
          S1.length = S.length / 2 ∧ S1.length + S2.length = S.length ∧
          (¬ S.length ≤ 1 → msort S = mergeList (msort S1) (msort S2)) :=
        ⟨_, _, (take_append_drop_length S (S.length / 2) (by omega)).1,
          (take_append_drop_length S (S.length / 2) (by omega)).2.1,
          (take_append_drop_length S (S.length / 2) (by omega)).2.2, msort_split S⟩
      have hbounds := half_bounds S.length S1.length S2.length fuel hS1 hS12 h1
      have hS2 : S.length - S.length / 2 = S2.length := by omega
      rw [hS2, ← hS1] at hstep
      clear hS1 hS2
      obtain ⟨M1, hM1, hM1len⟩ : ∃ M1, msort S1 = M1 ∧ M1.length = S1.length :=
        ⟨_, rfl, length_msort S1⟩
      obtain ⟨M2, hM2, hM2len⟩ : ∃ M2, msort S2 = M2 ∧ M2.length = S2.length :=
        ⟨_, rfl, length_msort S2⟩
      rw [hM1, hM2] at hms
      have hmerge := CppSeq.merge_fresh_frame uninit (P ++ M1 ++ M2 ++ Q) array S1.length
        (array + S1.length) S2.length P M1 M2 Q rfl ha
        (by clear hbounds hms hstep ih; omega) (by clear hbounds hms hstep ih; omega)
        (by clear hbounds hms hstep ih; omega)
        (by clear hbounds hms hstep ih; simp only [sizeof_float]; omega)
      have ih1 := ih block array S1.length P S1 (S2 ++ Q)
        (by rw [hA, hS]; simp only [List.append_assoc]) ha rfl
        (by clear hbounds hms hstep ih; simp only [sizeof_float]; omega)
      rw [hM1] at ih1
      have ih2 := ih (P ++ M1 ++ (S2 ++ Q)) (array + S1.length) S2.length (P ++ M1) S2 Q
        (by simp only [List.append_assoc])
        (by clear hbounds hms hstep ih ih1; simp only [List.length_append]; omega) rfl
        (by clear hbounds hms hstep ih ih1; simp only [sizeof_float]; omega)
      rw [hM2] at ih2
      have hfinal : 1 ≤ S1.length →
          CppSeq.mergesort uninit fuel block array S1.length
            = .ok (P ++ M1 ++ (S2 ++ Q)) →
          CppSeq.mergesort uninit fuel (P ++ M1 ++ (S2 ++ Q)) (array + S1.length) S2.length
            = .ok (P ++ M1 ++ M2 ++ Q) →
          CppSeq.mergesort uninit (fuel + 1) block array S.length
            = .ok (P ++ msort S ++ Q) := by
        intro hpos e1 e2
        rw [hstep, e1]
        simp only [bind, Except.bind]
        rw [e2]
        simp only [hmerge]
        rw [hms (hbounds.2 hpos).2]
      refine ⟨?_, ?_⟩
      · intro hge hle
        have hb := hbounds.1 hge hle
        exact hfinal hb.1.1 (ih1.1 hb.1.1 hb.1.2) (ih2.1 hb.2.1 hb.2.2)
      · rcases ih1.2 with e1 | ⟨hpos, e1⟩
        · left
          rw [hstep, e1]
          rfl
        · rcases ih2.2 with e2 | ⟨_, e2⟩
          · left
            rw [hstep, e1]
            simp only [bind, Except.bind]
            rw [e2]
          · right
            exact ⟨(hbounds.2 hpos).1, hfinal hpos e1 e2⟩

/-- The sort of a whole array of `n >= 1` elements by `mergesort(array, n)` of
`mergesort-sequential/mergesort.cpp`: with a stack of depth `n` it returns `msort array`,
and whatever it returns is `msort array`. -/
theorem CppSeq.mergesort_whole (uninit : Nat → α) (array : List α)
    (hw : sizeof_float * array.length < W) :
    (1 ≤ array.length →
      CppSeq.mergesort uninit array.length array 0 array.length = .ok (msort array)) ∧
    (∀ fuel out, CppSeq.mergesort uninit fuel array 0 array.length = .ok out →
      out = msort array) := by
  refine ⟨fun hn => ?_, fun fuel out h => ?_⟩
  · have h := (CppSeq.mergesort_fresh_frame uninit array.length array 0 array.length [] array []
      (by simp) rfl rfl hw).1 hn (Nat.le_refl _)
    simpa using h
  · rcases (CppSeq.mergesort_fresh_frame uninit fuel array 0 array.length [] array []
      (by simp) rfl rfl hw).2 with e | ⟨_, e⟩
    · rw [e] at h
      cases h
    · rw [e] at h
      simp only [List.nil_append, List.append_nil, Except.ok.injEq] at h
      exact h.symm

end

/-- Claim C21: for every array of length `n >= 1` the three sequential implementations
compute the same output sequence: `mergesort(array, buffer, 0, n)` of `mergesort.cpp` (index
ranges over a shared buffer), `mergesort(array, buffer, n)` of
`mergesort-sequential/mergesort.c` (pointer offsets over a shared buffer) and
`mergesort(array, n)` of `mergesort-sequential/mergesort.cpp` (a fresh temporary array in
every merge, whatever that array holds).  With a stack of depth `n` all three return, the
output being `msort array` for each; and the outputs that they return with any stack depth
are equal. -/
theorem CppSeq.sequential_implementations_agree [Preorder α]
    [DecidableRel ((· < ·) : α → α → Prop)] (uninit : Nat → α) (array buffer : List α)
    (n : Nat) (hn : 1 ≤ n) (hlen : array.length = n) (hbuf : buffer.length = n)
    (hw : sizeof_float * n < W) :
    (∃ out b1 b2,
      Cpp.mergesort n array buffer 0 n = .ok (out, b1) ∧
      CSeq.mergesort n array buffer 0 0 n = .ok (out, b2) ∧
      CppSeq.mergesort uninit n array 0 n = .ok out ∧
      out = msort array) ∧
    (∀ fuel1 fuel2 fuel3 out1 b1 out2 b2 out3,
      Cpp.mergesort fuel1 array buffer 0 n = .ok (out1, b1) →
      CSeq.mergesort fuel2 array buffer 0 0 n = .ok (out2, b2) →
      CppSeq.mergesort uninit fuel3 array 0 n = .ok out3 →
      out1 = out2 ∧ out2 = out3) := by
  subst hlen
  have hW : array.length < W := by
    simp only [sizeof_float] at hw; omega
  have hfull : array.take 0 ++ msort (slice array 0 array.length)
      ++ array.drop array.length = msort array := by
    simp [slice_full]
  have hfull0 : array.take 0 ++ msort (slice array 0 (0 + array.length))
      ++ array.drop (0 + array.length) = msort array := by
    simp [slice_full]
  constructor
  · have h1 := Cpp.mergesort_returns array buffer 0 array.length hbuf (by omega)
      (Nat.le_refl _) hW
    rw [Nat.sub_zero, hfull] at h1
    have h2 := C.mergesort_block_returns array buffer 0 0 array.length (by omega)
      (by omega) hw hn
    rw [hfull0, ← CSeq.mergesort_eq] at h2
    exact ⟨msort array, _, _, h1, h2, (CppSeq.mergesort_whole uninit array hw).1 hn, rfl⟩
  · intro fuel1 fuel2 fuel3 out1 b1 out2 b2 out3 h1 h2 h3
    have e1 := (Cpp.mergesort_result fuel1 array buffer 0 array.length out1 b1 hbuf
      (Nat.zero_le _) (Nat.le_refl _) hW h1).2.1
    rw [CSeq.mergesort_eq] at h2
    have e2 := (C.mergesort_block_result fuel2 array buffer 0 0 array.length out2 b2
      (by omega) (by omega) hw h2).2.1
    have e3 := (CppSeq.mergesort_whole uninit array hw).2 fuel3 out3 h3
    rw [hfull] at e1
    rw [hfull0] at e2
    exact ⟨by rw [e1, e2], by rw [e2, e3]⟩

theorem CppSeq.sequential_implementations_agree_witness :
    1 ≤ 6 ∧ ([5, 3, 8, 1, 9, 2] : List Nat).length = 6 ∧
    ([0, 0, 0, 0, 0, 0] : List Nat).length = 6 ∧ sizeof_float * 6 < W ∧
    (∃ out b1 b2,
      Cpp.mergesort 6 ([5, 3, 8, 1, 9, 2] : List Nat) [0, 0, 0, 0, 0, 0] 0 6
        = .ok (out, b1) ∧
      CSeq.mergesort 6 ([5, 3, 8, 1, 9, 2] : List Nat) [0, 0, 0, 0, 0, 0] 0 0 6
        = .ok (out, b2) ∧
      CppSeq.mergesort (fun i => i + 100) 6 ([5, 3, 8, 1, 9, 2] : List Nat) 0 6 = .ok out ∧
      out = msort [5, 3, 8, 1, 9, 2]) ∧
    CppSeq.mergesort (fun i => i + 100) 6 ([5, 3, 8, 1, 9, 2] : List Nat) 0 6
      = .ok [1, 2, 3, 5, 8, 9] :=
  ⟨by decide, rfl, rfl, by decide,
    (CppSeq.sequential_implementations_agree (fun i => i + 100) ([5, 3, 8, 1, 9, 2] : List Nat)
      [0, 0, 0, 0, 0, 0] 6 (by decide) rfl rfl (by decide)).1, rfl⟩

end MergeSort
